import Mathlib

/-!
# lab_07::vector — a shallow embedding of `vector.h`

The container of `src/vector.h` is embedded as explicit state passing:

* `size_t` values are natural numbers; the arithmetic the source performs on
  them (`power_of_two *= 2`, `capacity_ * 2`, `size_ + 1`, `size_++`,
  `size_--`) is taken modulo `2 ^ 64`;
* a `T *` is either `nullptr` or an owned buffer: a handle (the address
  identity) together with one slot per allocated element, a slot being either
  uninitialized storage or a live object of type `T`;
* every allocator call, element construction and element destruction is
  appended to a chronological log kept in the `World`;
* an operation ends in one of four ways: it returns, it throws, it runs into
  undefined behaviour, or it does not terminate.
-/

namespace lab_07

/-! ## Capacity policy -/

/-- Modulus of `std::size_t` arithmetic (64-bit). -/
def SIZE_T_MOD : Nat := 2 ^ 64

/-- The `while (power_of_two < n) power_of_two *= 2;` loop of
`calculate_capacity`, with `size_t` multiplication modulo `2 ^ 64`.
The first argument bounds the number of loop tests; `none` means the bound
was reached with the loop still running. -/
def calculate_capacity_loop : Nat → Nat → Nat → Option Nat
  | 0, _, _ => none
  | fuel + 1, power_of_two, n =>
    if power_of_two < n then
      calculate_capacity_loop fuel (power_of_two * 2 % SIZE_T_MOD) n
    else
      some power_of_two

/-- Number of loop tests granted to `calculate_capacity`.  After 64 doublings
the variable `power_of_two` is `0` and stays `0`, so a loop that has not
stopped within 65 tests never stops (`calculate_capacity_loop_diverges`). -/
def CAPACITY_FUEL : Nat := 65

/-- The function `calculate_capacity` of `vector.h`; `none` means that the
doubling loop does not terminate. -/
def calculate_capacity (n : Nat) : Option Nat :=
  if n = 0 then
    some 0
  else
    calculate_capacity_loop CAPACITY_FUEL 1 n

/-! ## Trace, allocator, element type -/

/-- One observable step of the storage engine.  Buffers are named by the
handle the allocator returned for them. -/
inductive Event where
  /-- The call `Alloc().allocate(count)` returned the buffer `handle`. -/
  | allocate (count handle : Nat)
  /-- The call `Alloc().allocate(count)` threw. -/
  | allocate_throws (count : Nat)
  /-- The call `Alloc().deallocate(data, count)` on the buffer `handle`. -/
  | deallocate (handle count : Nat)
  /-- An initializer (default or copy construction) built the element at
  `data + index`. -/
  | construct (handle index : Nat)
  /-- An initializer threw while building the element at `data + index`. -/
  | construct_throws (handle index : Nat)
  /-- The element at `data + index` was move-constructed. -/
  | move_construct (handle index : Nat)
  /-- The destructor `(data + index)->~T()` ran. -/
  | destruct (handle index : Nat)
  deriving DecidableEq

/-- What lies outside the containers: the next fresh buffer handle and the
chronological log of events. -/
structure World where
  next_handle : Nat
  log : List Event
  deriving DecidableEq

/-- Append one event to the log. -/
def World.record (w : World) (ev : Event) : World :=
  { w with log := w.log ++ [ev] }

/-- The template parameter `Alloc`, reduced to what the container can
observe: whether `allocate(count)` throws, which may depend on everything
that happened before. -/
structure Allocator (ε : Type) where
  allocate_throws : World → Nat → Option ε

/-- The element type `T`, reduced to the two constructors that may throw.
Move construction and destruction cannot throw (the three `static_assert`s of
the class) and move construction hands the value over unchanged. -/
structure Element (T ε : Type) where
  /-- The expression `T()`. -/
  default_ctor : Except ε T
  /-- The expression `T(element)` for `const T &element`. -/
  copy_ctor : T → Except ε T

/-- The template parameter `InitFunc`: what `init_func(data + index)` does,
given the index: it constructs a value in place or throws. -/
abbrev InitFunc (T ε : Type) := Nat → Except ε T

/-! ## Raw storage -/

/-- An allocated buffer: its identity and one slot per element, `none` for
uninitialized storage and `some x` for a live object. -/
structure Buffer (T : Type) where
  handle : Nat
  slots : List (Option T)
  deriving DecidableEq

/-- A `T *`: `none` is `nullptr`. -/
abbrev Ptr (T : Type) := Option (Buffer T)

/-- How a call ends: `returns r` normally, `throws e s` with an exception
`e` leaving the state `s`, in undefined behaviour, or never. -/
inductive Outcome (ε ρ σ : Type) where
  | returns (r : ρ)
  | throws (e : ε) (s : σ)
  | undefined
  | diverges
  deriving DecidableEq

/-- The class `lab_07::vector<T, Alloc>`: its three data members, with their
default member initializers. -/
structure vector (T : Type) where
  data_ : Ptr T := none
  capacity_ : Nat := 0
  size_ : Nat := 0
  deriving DecidableEq

section Engine

variable {T ε : Type}

/-- The destructor call `(data + index)->~T()`; `none` is undefined
behaviour: `data` is null, or the slot is outside the buffer or not live. -/
def destroy_at (data : Ptr T) (index : Nat) (w : World) : Option (Ptr T × World) :=
  match data with
  | none => none
  | some b =>
    match b.slots[index]? with
    | some (some _) =>
      some (some { b with slots := b.slots.set index none },
            w.record (Event.destruct b.handle index))
    | _ => none

/-- The placement construction `new (data + index) T(...)` of the value `x`,
logged as `kind`; `none` is undefined behaviour: `data` is null or the slot
is outside the buffer. -/
def construct_at (data : Ptr T) (index : Nat) (x : T) (kind : Nat → Nat → Event)
    (w : World) : Option (Ptr T × World) :=
  match data with
  | none => none
  | some b =>
    if index < b.slots.length then
      some (some { b with slots := b.slots.set index (some x) },
            w.record (kind b.handle index))
    else
      none

/-- Reading the object `data[index]`; `none` is undefined behaviour: `data`
is null, or the slot is outside the buffer or not live. -/
def read_at (data : Ptr T) (index : Nat) : Option T :=
  match data with
  | none => none
  | some b =>
    match b.slots[index]? with
    | some (some x) => some x
    | _ => none

/-- The loop of `destruct`: `count` iterations starting at `delete_index`. -/
def destruct_loop : Nat → Ptr T → Nat → World → Option (Ptr T × World)
  | 0, data, _, w => some (data, w)
  | count + 1, data, delete_index, w =>
    match destroy_at data delete_index w with
    | none => none
    | some (data1, w1) => destruct_loop count data1 (delete_index + 1) w1

/-- The member `destruct(data, begin, end)`: the loop body runs for
`delete_index = begin, ..., end - 1`, that is `end - begin` times (not at all
when `end <= begin`). -/
def destruct (data : Ptr T) (begin_ end_ : Nat) (w : World) : Option (Ptr T × World) :=
  destruct_loop (end_ - begin_) data begin_ w

/-- The member `alloc(capacity)`: `nullptr` without an allocator call when
`capacity == 0`, else a fresh buffer of `capacity` uninitialized slots, or
the exception of `allocate`. -/
def alloc (A : Allocator ε) (capacity : Nat) (w : World) :
    Except (ε × World) (Ptr T × World) :=
  if capacity = 0 then
    .ok (none, w)
  else
    match A.allocate_throws w capacity with
    | some e => .error (e, w.record (Event.allocate_throws capacity))
    | none =>
      .ok (some { handle := w.next_handle, slots := List.replicate capacity none },
           { next_handle := w.next_handle + 1,
             log := w.log ++ [Event.allocate capacity w.next_handle] })

/-- The member `dealloc(data, capacity)`: nothing for a null pointer or a
zero capacity, else one `deallocate(data, capacity)` call. -/
def dealloc (data : Ptr T) (capacity : Nat) (w : World) : World :=
  match data with
  | none => w
  | some b =>
    if capacity = 0 then w
    else w.record (Event.deallocate b.handle capacity)

/-- How the `try` block of a construction loop ends: all iterations done, or
an exception caught with the value `delete_index` had at that moment, or
undefined behaviour. -/
inductive TryResult (T ε : Type) where
  | completed (data : Ptr T) (w : World)
  | caught (e : ε) (delete_index : Nat) (data : Ptr T) (w : World)
  | undefined
  deriving DecidableEq

/-- The `for` loop inside the `try` block of `construct_section`: `count`
iterations starting at `index`, each one setting `delete_index = index` and
calling `init_func(data + index)`. -/
def construct_section_loop (init_func : InitFunc T ε) :
    Nat → Ptr T → Nat → World → TryResult T ε
  | 0, data, _, w => .completed data w
  | count + 1, data, index, w =>
    match data with
    | none => .undefined
    | some b =>
      if index < b.slots.length then
        match init_func index with
        | .error e =>
          .caught e index data (w.record (Event.construct_throws b.handle index))
        | .ok x =>
          construct_section_loop init_func count
            (some { b with slots := b.slots.set index (some x) }) (index + 1)
            (w.record (Event.construct b.handle index))
      else
        .undefined

/-- The member `construct_section(data, begin, end, init_func)`: on an
exception the elements `[begin, delete_index)` are destructed and the
exception is rethrown. -/
def construct_section (data : Ptr T) (begin_ end_ : Nat) (init_func : InitFunc T ε)
    (w : World) : Outcome ε (Ptr T × World) (Ptr T × World) :=
  match construct_section_loop init_func (end_ - begin_) data begin_ w with
  | .completed data1 w1 => .returns (data1, w1)
  | .caught e delete_index data1 w1 =>
    match destruct data1 begin_ delete_index w1 with
    | some (data2, w2) => .throws e (data2, w2)
    | none => .undefined
  | .undefined => .undefined

/-- The loop of `construct_section_move`: `count` iterations starting at
`index`, each one `new (data + index) T(std::move(*(data_ + index)))` where
`source` is the member `data_`.  The moved-from object stays live in its
slot until it is destructed. -/
def construct_section_move_loop (source : Ptr T) :
    Nat → Ptr T → Nat → World → Option (Ptr T × World)
  | 0, data, _, w => some (data, w)
  | count + 1, data, index, w =>
    match read_at source index with
    | none => none
    | some x =>
      match construct_at data index x Event.move_construct w with
      | none => none
      | some (data1, w1) => construct_section_move_loop source count data1 (index + 1) w1

/-! ## Members of the class -/

/-- The member `construct_section_move(data, begin, end)`. -/
def vector.construct_section_move (v : vector T) (data : Ptr T) (begin_ end_ : Nat)
    (w : World) : Option (Ptr T × World) :=
  construct_section_move_loop v.data_ (end_ - begin_) data begin_ w

/-- The member `increase_capacity(new_capacity)`.  It leaves `capacity_` as
it was: the callers store the new capacity. -/
def vector.increase_capacity (A : Allocator ε) (v : vector T) (new_capacity : Nat)
    (w : World) : Outcome ε (vector T × World) (vector T × World) :=
  match alloc A new_capacity w with
  | .error (e, w1) => .throws e (v, w1)
  | .ok (extradata, w1) =>
    match v.construct_section_move extradata 0 v.size_ w1 with
    | none => .undefined
    | some (extradata1, w2) =>
      match destruct v.data_ 0 v.size_ w2 with
      | none => .undefined
      | some (data1, w3) =>
        .returns ({ v with data_ := extradata1 }, dealloc data1 v.capacity_ w3)

/-- The private constructor `vector(n, init_func)`.  When it throws no
object exists; what remains is the world. -/
def vector.vector_init (A : Allocator ε) (n : Nat) (init_func : InitFunc T ε)
    (w : World) : Outcome ε (vector T × World) World :=
  match calculate_capacity n with
  | none => .diverges
  | some capacity =>
    match alloc A capacity w with
    | .error (e, w1) => .throws e w1
    | .ok (data, w1) =>
      match construct_section data 0 n init_func w1 with
      | .returns (data1, w2) =>
        .returns ({ data_ := data1, capacity_ := capacity, size_ := n }, w2)
      | .throws e (data1, w2) => .throws e (dealloc data1 capacity w2)
      | _ => .undefined

/-- The private member template `resize(desired_size, init_func)`. -/
def vector.resize (A : Allocator ε) (v : vector T) (desired_size : Nat)
    (init_func : InitFunc T ε) (w : World) :
    Outcome ε (vector T × World) (vector T × World) :=
  match calculate_capacity desired_size with
  | none => .diverges
  | some desired_capacity =>
    if desired_size ≤ v.size_ then
      match destruct v.data_ desired_size v.size_ w with
      | none => .undefined
      | some (data1, w1) => .returns ({ v with data_ := data1, size_ := desired_size }, w1)
    else if desired_size ≤ v.capacity_ then
      match construct_section v.data_ v.size_ desired_size init_func w with
      | .returns (data1, w1) =>
        .returns ({ v with data_ := data1, size_ := desired_size }, w1)
      | .throws e (data1, w1) => .throws e ({ v with data_ := data1 }, w1)
      | _ => .undefined
    else
      match alloc A desired_capacity w with
      | .error (e, w1) => .throws e (v, w1)
      | .ok (extradata, w1) =>
        match construct_section extradata v.size_ desired_size init_func w1 with
        | .throws e (extradata1, w2) =>
          .throws e (v, dealloc extradata1 desired_capacity w2)
        | .returns (extradata1, w2) =>
          match v.construct_section_move extradata1 0 v.size_ w2 with
          | none => .undefined
          | some (extradata2, w3) =>
            match destruct v.data_ 0 v.size_ w3 with
            | none => .undefined
            | some (data1, w4) =>
              .returns ({ data_ := extradata2, capacity_ := desired_capacity,
                          size_ := desired_size },
                        dealloc data1 v.capacity_ w4)
        | _ => .undefined

/-- The constructor `vector() noexcept = default`. -/
def vector.vector_default : vector T :=
  {}

/-- The constructor `vector(n)`. -/
def vector.vector_n (E : Element T ε) (A : Allocator ε) (n : Nat) (w : World) :
    Outcome ε (vector T × World) World :=
  vector.vector_init A n (fun _ => E.default_ctor) w

/-- The constructor `vector(n, element)`. -/
def vector.vector_n_element (E : Element T ε) (A : Allocator ε) (n : Nat) (element : T)
    (w : World) : Outcome ε (vector T × World) World :=
  vector.vector_init A n (fun _ => E.copy_ctor element) w

/-- The three overloads of `operator[]` share the body `data_[index]`; this
is the value found there, `none` being undefined behaviour. -/
def vector.operator_index (v : vector T) (index : Nat) : Option T :=
  read_at v.data_ index

/-- The member `empty()`. -/
def vector.empty (v : vector T) : Bool :=
  v.size_ == 0

/-- The member `size()`. -/
def vector.size (v : vector T) : Nat :=
  v.size_

/-- The member `capacity()`. -/
def vector.capacity (v : vector T) : Nat :=
  v.capacity_

/-- The destructor `~vector()`; the object is gone afterwards. -/
def vector.destructor (v : vector T) (w : World) : Option World :=
  match destruct_loop v.size_ v.data_ 0 w with
  | none => none
  | some (data1, w1) =>
    match data1 with
    | none => some w1
    | some _ => some (dealloc data1 v.capacity_ w1)

/-- The last three statements of `push_back(T &&)`: the element is
move-constructed at `data_ + size_`, then `size_++` and
`capacity_ = new_capacity`. -/
def vector.push_back_place (v : vector T) (new_capacity : Nat) (element : T) (w : World) :
    Outcome ε (vector T × World) (vector T × World) :=
  match construct_at v.data_ v.size_ element Event.move_construct w with
  | none => .undefined
  | some (data1, w1) =>
    .returns ({ data_ := data1, capacity_ := new_capacity,
                size_ := (v.size_ + 1) % SIZE_T_MOD }, w1)

/-- The member `push_back(T &&element)`. -/
def vector.push_back_move (A : Allocator ε) (v : vector T) (element : T) (w : World) :
    Outcome ε (vector T × World) (vector T × World) :=
  if v.size_ = v.capacity_ then
    let new_capacity := if v.capacity_ ≠ 0 then v.capacity_ * 2 % SIZE_T_MOD else 1
    match v.increase_capacity A new_capacity w with
    | .returns (v1, w1) => v1.push_back_place new_capacity element w1
    | .throws e s => .throws e s
    | .undefined => .undefined
    | .diverges => .diverges
  else
    v.push_back_place v.capacity_ element w

/-- The member `resize(desired_size)`. -/
def vector.resize_n (E : Element T ε) (A : Allocator ε) (v : vector T) (desired_size : Nat)
    (w : World) : Outcome ε (vector T × World) (vector T × World) :=
  v.resize A desired_size (fun _ => E.default_ctor) w

/-- The member `resize(desired_size, element)`. -/
def vector.resize_element (E : Element T ε) (A : Allocator ε) (v : vector T)
    (desired_size : Nat) (element : T) (w : World) :
    Outcome ε (vector T × World) (vector T × World) :=
  v.resize A desired_size (fun _ => E.copy_ctor element) w

/-- The member `push_back(const T &element)`. -/
def vector.push_back_copy (E : Element T ε) (A : Allocator ε) (v : vector T) (element : T)
    (w : World) : Outcome ε (vector T × World) (vector T × World) :=
  v.resize_element E A ((v.size_ + 1) % SIZE_T_MOD) element w

/-- The member `pop_back()`; `none` is the failed `assert(!empty())` or
undefined behaviour. -/
def vector.pop_back (v : vector T) (w : World) : Option (vector T × World) :=
  if v.size_ = 0 then
    none
  else
    match destroy_at v.data_ (v.size_ - 1) w with
    | none => none
    | some (data1, w1) => some ({ v with data_ := data1, size_ := v.size_ - 1 }, w1)

/-- The loop in the `try` block of the copy constructor: `count` iterations
starting at `index`, each one `delete_index = index` and
`new (data_ + index) T(other[index])`. -/
def copy_loop (E : Element T ε) (other : vector T) :
    Nat → Ptr T → Nat → World → TryResult T ε
  | 0, data, _, w => .completed data w
  | count + 1, data, index, w =>
    match other.operator_index index with
    | none => .undefined
    | some x =>
      match data with
      | none => .undefined
      | some b =>
        if index < b.slots.length then
          match E.copy_ctor x with
          | .error e =>
            .caught e index data (w.record (Event.construct_throws b.handle index))
          | .ok y =>
            copy_loop E other count
              (some { b with slots := b.slots.set index (some y) }) (index + 1)
              (w.record (Event.construct b.handle index))
        else
          .undefined

/-- The copy constructor `vector(const vector &other)`. -/
def vector.vector_copy (E : Element T ε) (A : Allocator ε) (other : vector T) (w : World) :
    Outcome ε (vector T × World) World :=
  match calculate_capacity other.size_ with
  | none => .diverges
  | some capacity =>
    match alloc A capacity w with
    | .error (e, w1) => .throws e w1
    | .ok (data, w1) =>
      match copy_loop E other other.size_ data 0 w1 with
      | .completed data1 w2 =>
        .returns ({ data_ := data1, capacity_ := capacity, size_ := other.size_ }, w2)
      | .caught e delete_index data1 w2 =>
        match destruct data1 0 delete_index w2 with
        | none => .undefined
        | some (data2, w3) => .throws e (dealloc data2 capacity w3)
      | .undefined => .undefined

/-- The member `clear()`. -/
def vector.clear (v : vector T) (w : World) : Option (vector T × World) :=
  match destruct v.data_ 0 v.size_ w with
  | none => none
  | some (data1, w1) => some ({ v with data_ := data1, size_ := 0 }, w1)

/-- The move constructor `vector(vector &&other)`: the new object and what
is left of `other`. -/
def vector.vector_move (other : vector T) : vector T × vector T :=
  ({ data_ := other.data_, capacity_ := other.capacity_, size_ := other.size_ },
   { data_ := none, capacity_ := 0, size_ := 0 })

/-- The move assignment `operator=(vector &&other)` when `this != &other`:
the new `*this` and the new `other`. -/
def vector.assign_move (v other : vector T) (w : World) :
    Option (vector T × vector T × World) :=
  match v.clear w with
  | none => none
  | some (v1, w1) =>
    some ({ data_ := other.data_, capacity_ := other.capacity_, size_ := other.size_ },
          { data_ := v1.data_, capacity_ := v1.capacity_, size_ := v1.size_ }, w1)

/-- The move assignment `operator=(vector &&other)` when `this == &other`:
it returns right after `clear()`. -/
def vector.assign_move_self (v : vector T) (w : World) : Option (vector T × World) :=
  v.clear w

/-- The copy assignment `operator=(const vector &other)` when
`this != &other`: the temporary `vector(other)` is built, move-assigned to
`*this` and destroyed. -/
def vector.assign_copy (E : Element T ε) (A : Allocator ε) (v other : vector T) (w : World) :
    Outcome ε (vector T × World) (vector T × World) :=
  match vector.vector_copy E A other w with
  | .throws e w1 => .throws e (v, w1)
  | .returns (temporary, w1) =>
    match v.assign_move temporary w1 with
    | none => .undefined
    | some (v1, temporary1, w2) =>
      match temporary1.destructor w2 with
      | none => .undefined
      | some w3 => .returns (v1, w3)
  | .undefined => .undefined
  | .diverges => .diverges

/-- The copy assignment `operator=(const vector &other)` when
`this == &other`: it returns at once. -/
def vector.assign_copy_self (v : vector T) (w : World) : vector T × World :=
  (v, w)

/-- How a checked access ends. -/
inductive Checked (α : Type) where
  | value (a : α)
  | out_of_range
  | undefined
  deriving DecidableEq

/-- The three overloads of `at` share the test `index >= size_` and the
body `data_[index]`. -/
def vector.at (v : vector T) (index : Nat) : Checked T :=
  if index ≥ v.size_ then
    .out_of_range
  else
    match v.operator_index index with
    | some x => .value x
    | none => .undefined

/-- The member `reserve(quantity)`. -/
def vector.reserve (A : Allocator ε) (v : vector T) (quantity : Nat) (w : World) :
    Outcome ε (vector T × World) (vector T × World) :=
  match calculate_capacity quantity with
  | none => .diverges
  | some quantity1 =>
    if quantity1 ≤ v.capacity_ then
      .returns (v, w)
    else
      match v.increase_capacity A quantity1 w with
      | .returns (v1, w1) => .returns ({ v1 with capacity_ := quantity1 }, w1)
      | .throws e s => .throws e s
      | .undefined => .undefined
      | .diverges => .diverges

/-- An assignment `v[index] = x` (or `v.at(index) = x`) made by the caller
through the reference the mutable accessors return; `none` when the
accessor call is undefined behaviour. -/
def vector.store (v : vector T) (index : Nat) (x : T) : Option (vector T) :=
  match v.data_ with
  | none => none
  | some b =>
    match b.slots[index]? with
    | some (some _) => some { v with data_ := some { b with slots := b.slots.set index (some x) } }
    | _ => none

/-- A reference `data[index]` handed out by an accessor: the slot it
designates (buffer and position) and the object found there. -/
structure Ref (T : Type) where
  handle : Nat
  index : Nat
  object : T
  deriving DecidableEq

/-- The lvalue `data[index]`; `none` is undefined behaviour: `data` is null,
or the slot is outside the buffer or not live. -/
def subscript (data : Ptr T) (index : Nat) : Option (Ref T) :=
  match data with
  | none => none
  | some b =>
    match b.slots[index]? with
    | some (some x) => some { handle := b.handle, index := index, object := x }
    | _ => none

/-- The overload `T &operator[](index) &`. -/
def vector.operator_index_mutable (v : vector T) (index : Nat) : Option (Ref T) :=
  subscript v.data_ index

/-- The overload `const T &operator[](index) const &`. -/
def vector.operator_index_const (v : vector T) (index : Nat) : Option (Ref T) :=
  subscript v.data_ index

/-- The overload `T &&operator[](index) &&`; `std::move` is a cast, the
reference designates the same slot. -/
def vector.operator_index_rvalue (v : vector T) (index : Nat) : Option (Ref T) :=
  subscript v.data_ index

/-- The overload `T &at(index) &`. -/
def vector.at_mutable (v : vector T) (index : Nat) : Checked (Ref T) :=
  if index ≥ v.size_ then
    .out_of_range
  else
    match subscript v.data_ index with
    | some r => .value r
    | none => .undefined

/-- The overload `const T &at(index) const &`. -/
def vector.at_const (v : vector T) (index : Nat) : Checked (Ref T) :=
  if index ≥ v.size_ then
    .out_of_range
  else
    match subscript v.data_ index with
    | some r => .value r
    | none => .undefined

/-- The overload `T &&at(index) &&`. -/
def vector.at_rvalue (v : vector T) (index : Nat) : Checked (Ref T) :=
  if index ≥ v.size_ then
    .out_of_range
  else
    match subscript v.data_ index with
    | some r => .value r
    | none => .undefined

/-- The containers of a program, by address; `this == &other` is equality of
addresses. -/
abbrev Objects (T : Type) := Nat → vector T

/-- The copy assignment `operator=(const vector &other)` called on the
object at address `this_` with the object at address `other`: the identity
test first, then `*this = vector(other)`. -/
def vector.operator_assign_copy (E : Element T ε) (A : Allocator ε) (objects : Objects T)
    (this_ other : Nat) (w : World) :
    Outcome ε (Objects T × World) (Objects T × World) :=
  if this_ = other then
    .returns (objects, w)
  else
    match (objects this_).assign_copy E A (objects other) w with
    | .returns (v1, w1) => .returns (Function.update objects this_ v1, w1)
    | .throws e (v1, w1) => .throws e (Function.update objects this_ v1, w1)
    | .undefined => .undefined
    | .diverges => .diverges

/-- The move assignment `operator=(vector &&other)` called on the object at
address `this_` with the object at address `other`: `clear()` first, then the
identity test, then the three swaps. -/
def vector.operator_assign_move (objects : Objects T) (this_ other : Nat) (w : World) :
    Option (Objects T × World) :=
  match (objects this_).clear w with
  | none => none
  | some (v1, w1) =>
    if this_ = other then
      some (Function.update objects this_ v1, w1)
    else
      some (Function.update
              (Function.update objects this_
                { data_ := (objects other).data_, capacity_ := (objects other).capacity_,
                  size_ := (objects other).size_ })
              other { data_ := v1.data_, capacity_ := v1.capacity_, size_ := v1.size_ },
            w1)

/-- The move constructor `vector(vector &&other)` building a new object at
address `this_` from the object at address `other`: three `std::exchange`
calls and nothing else, so the world is handed back as it came. -/
def vector.vector_move_at (objects : Objects T) (this_ other : Nat) (w : World) :
    Objects T × World :=
  (Function.update
     (Function.update objects other (vector.vector_move (objects other)).2)
     this_ (vector.vector_move (objects other)).1, w)

/-! ## Observations and invariants -/

/-- The live elements `v[0], ..., v[size() - 1]`, in order. -/
def vector.elements (v : vector T) : List T :=
  match v.data_ with
  | none => []
  | some b => (b.slots.take v.size_).reduceOption

/-- The representation invariant of the class (section 3 of the
specification): `size_ <= capacity_`; `capacity_` is `0` or a power of two
(below `2 ^ 64`); `data_` is null exactly when `capacity_` is `0`; the buffer
has `capacity_` slots, of which the first `size_` are live and the others
uninitialized. -/
structure vector.WF (v : vector T) : Prop where
  size_le_capacity : v.size_ ≤ v.capacity_
  capacity_pow2 : v.capacity_ = 0 ∨ ∃ j, j < 64 ∧ v.capacity_ = 2 ^ j
  storage :
    match v.data_ with
    | none => v.capacity_ = 0
    | some b =>
      v.capacity_ ≠ 0 ∧ v.elements.length = v.size_ ∧
      b.slots = v.elements.map some ++ List.replicate (v.capacity_ - v.size_) none

/-- The events of destructing the slots `[begin_, begin_ + count)` of the
buffer `data`, in ascending order; none for a null pointer. -/
def destruct_events (data : Ptr T) (begin_ count : Nat) : List Event :=
  match data with
  | none => []
  | some b => (List.range' begin_ count).map (Event.destruct b.handle)

/-- Whether an event is a call of the allocator (`allocate`, returning or
throwing, or `deallocate`). -/
def Event.is_allocator_call : Event → Bool
  | .allocate _ _ => true
  | .allocate_throws _ => true
  | .deallocate _ _ => true
  | _ => false

/-- The allocator calls of the log, in order. -/
def World.allocator_calls (w : World) : List Event :=
  w.log.filter Event.is_allocator_call

/-- The contract of the allocator capability (section 2 of the
specification), read off a log: `allocate` is never called with count 0,
whether it returns or throws; every `deallocate(buffer, count)` has a
non-zero count and comes after an `allocate(count)` call, with that very
count, that returned `buffer`; and no buffer is returned by two `allocate`
calls, so that call is the only one.  A `deallocate` event always names a
buffer: a null pointer has no handle. -/
structure AllocatorContract (log : List Event) : Prop where
  allocate_count : ∀ c h, Event.allocate c h ∈ log → c ≠ 0
  allocate_throws_count : ∀ c, Event.allocate_throws c ∈ log → c ≠ 0
  deallocate_matches : ∀ pre post h c, log = pre ++ Event.deallocate h c :: post →
    c ≠ 0 ∧ Event.allocate c h ∈ pre
  allocate_once : ∀ pre post c h, log = pre ++ Event.allocate c h :: post →
    ∀ c1, Event.allocate c1 h ∉ pre

/-- The pointer `data`, kept together with the capacity `capacity`, is backed
by the log: if it is not null, its buffer was returned by an
`allocate(capacity)` call. -/
def Owned (data : Ptr T) (capacity : Nat) (log : List Event) : Prop :=
  ∀ b, data = some b → Event.allocate capacity b.handle ∈ log

/-- A world whose log keeps the allocator contract and whose next handle is
fresh: above every handle `allocate` has returned. -/
def World.Sound (w : World) : Prop :=
  AllocatorContract w.log ∧ ∀ c h, Event.allocate c h ∈ w.log → h < w.next_handle

/-- The world `w1` comes from `w` by element events only: no allocator call
was made, so no handle was handed out and the log grew by constructions and
destructions alone. -/
def World.Quiet (w w1 : World) : Prop :=
  w1.next_handle = w.next_handle ∧
  ∃ evs, w1.log = w.log ++ evs ∧ ∀ e, e ∈ evs → e.is_allocator_call = false

/-- The world `w1` comes later than `w`: its log continues the log of `w`
and no handle was taken back. -/
def World.Extends (w w1 : World) : Prop :=
  w.next_handle ≤ w1.next_handle ∧ ∃ evs, w1.log = w.log ++ evs

/-! ## Sample inputs

Concrete element types, allocators and containers, taken from
`vector_test.cpp`, at which the theorems below are instantiated. -/

/-- The exceptions of the test suite: the `artificial_exception` thrown by
its element types, and the `std::bad_alloc` of an allocator. -/
inductive Failure where
  | artificial_exception
  | bad_alloc
  deriving DecidableEq

/-- A world in which nothing has happened yet. -/
def World.initial : World :=
  { next_handle := 0, log := [] }

/-- An allocator that never throws. -/
def Allocator.unlimited : Allocator Failure :=
  { allocate_throws := fun _ _ => none }

/-- An allocator that always throws `std::bad_alloc`. -/
def Allocator.exhausted : Allocator Failure :=
  { allocate_throws := fun _ _ => some Failure.bad_alloc }

/-- An allocator that throws `std::bad_alloc` for `limit` elements or more. -/
def Allocator.limited (limit : Nat) : Allocator Failure :=
  { allocate_throws := fun _ count => if count ≥ limit then some Failure.bad_alloc else none }

/-- An element type like `ObjWithDefaultCtor` and `ObjWithCopyCtor` of the
tests: objects are their `id`, default construction gives `id == 100`, copy
construction copies. -/
def Element.obj : Element Nat Failure :=
  { default_ctor := .ok 100, copy_ctor := fun x => .ok x }

/-- An element type like the structs `S` of the exception-safety tests: the
default constructor always throws, the copy constructor throws for the
objects `x` with `can_copy x = false`. -/
def Element.throwing (can_copy : Nat → Bool) : Element Nat Failure :=
  { default_ctor := .error Failure.artificial_exception,
    copy_ctor := fun x => if can_copy x then .ok x else .error Failure.artificial_exception }

/-- The container holding the elements `xs` in the buffer `handle` of
`capacity` slots. -/
def vector.holding (handle : Nat) (xs : List T) (capacity : Nat) : vector T :=
  { data_ := some { handle := handle,
                    slots := xs.map some ++ List.replicate (capacity - xs.length) none },
    capacity_ := capacity, size_ := xs.length }

/-! ## Client programs -/

/-- One `push_back` call: with an rvalue (`push_back(T &&)`) or with an
lvalue (`push_back(const T &)`). -/
inductive Push (T : Type) where
  | by_move (element : T)
  | by_copy (element : T)
  deriving DecidableEq

/-- The call `v.push_back(...)` of either overload. -/
def vector.push_back (E : Element T ε) (A : Allocator ε) (v : vector T) (p : Push T)
    (w : World) : Outcome ε (vector T × World) (vector T × World) :=
  match p with
  | .by_move element => v.push_back_move A element w
  | .by_copy element => v.push_back_copy E A element w

/-- A run of `push_back` calls on one container, one after the other; the
run ends at the first call that does not return. -/
def vector.push_back_all (E : Element T ε) (A : Allocator ε) :
    List (Push T) → vector T → World → Outcome ε (vector T × World) (vector T × World)
  | [], v, w => .returns (v, w)
  | p :: rest, v, w =>
    match v.push_back E A p w with
    | .returns (v1, w1) => vector.push_back_all E A rest v1 w1
    | .throws e s => .throws e s
    | .undefined => .undefined
    | .diverges => .diverges

/-- A call of a public member function that involves one container only.
`store` is an assignment through the reference returned by the mutable
`operator[]` or `at`; the two `self` calls are the assignments `v = v` and
`v = std::move(v)`. -/
inductive Call (T : Type) where
  | push_back_move (element : T)
  | push_back_copy (element : T)
  | pop_back
  | resize_n (desired_size : Nat)
  | resize_element (desired_size : Nat) (element : T)
  | reserve (quantity : Nat)
  | clear
  | store (index : Nat) (x : T)
  | assign_copy_self
  | assign_move_self

/-- The outcome of the members that cannot throw. -/
def Outcome.of_option {σ : Type} (o : Option σ) : Outcome ε σ σ :=
  match o with
  | some s => .returns s
  | none => .undefined

/-- The outcome of a call on the container `v`. -/
def vector.call (E : Element T ε) (A : Allocator ε) (v : vector T) (c : Call T) (w : World) :
    Outcome ε (vector T × World) (vector T × World) :=
  match c with
  | .push_back_move element => v.push_back_move A element w
  | .push_back_copy element => v.push_back_copy E A element w
  | .pop_back => Outcome.of_option (v.pop_back w)
  | .resize_n desired_size => v.resize_n E A desired_size w
  | .resize_element desired_size element => v.resize_element E A desired_size element w
  | .reserve quantity => v.reserve A quantity w
  | .clear => Outcome.of_option (v.clear w)
  | .store index x => Outcome.of_option ((v.store index x).map fun v1 => (v1, w))
  | .assign_copy_self => .returns (v.assign_copy_self w)
  | .assign_move_self => Outcome.of_option (v.assign_move_self w)

/-- The container states a program can produce through the public
interface: by the constructors, and from such states by any public call that
returns or throws (a call that runs into undefined behaviour, such as
`pop_back` on an empty container, or that does not terminate, produces no
state).  The world in which a call is made is arbitrary. -/
inductive Reachable (E : Element T ε) (A : Allocator ε) : vector T → Prop
  | vector_default : Reachable E A vector.vector_default
  | vector_n (n : Nat) (w : World) (v : vector T) (w1 : World) :
      vector.vector_n E A n w = .returns (v, w1) → Reachable E A v
  | vector_n_element (n : Nat) (element : T) (w : World) (v : vector T) (w1 : World) :
      vector.vector_n_element E A n element w = .returns (v, w1) → Reachable E A v
  | vector_copy (other : vector T) (w : World) (v : vector T) (w1 : World) :
      Reachable E A other → vector.vector_copy E A other w = .returns (v, w1) →
      Reachable E A v
  | vector_move_new (other : vector T) :
      Reachable E A other → Reachable E A (vector.vector_move other).1
  | vector_move_old (other : vector T) :
      Reachable E A other → Reachable E A (vector.vector_move other).2
  | call_returns (v : vector T) (c : Call T) (w : World) (v1 : vector T) (w1 : World) :
      Reachable E A v → v.call E A c w = .returns (v1, w1) → Reachable E A v1
  | call_throws (v : vector T) (c : Call T) (w : World) (e : ε) (v1 : vector T) (w1 : World) :
      Reachable E A v → v.call E A c w = .throws e (v1, w1) → Reachable E A v1
  | assign_copy_returns (v other : vector T) (w : World) (v1 : vector T) (w1 : World) :
      Reachable E A v → Reachable E A other →
      v.assign_copy E A other w = .returns (v1, w1) → Reachable E A v1
  | assign_copy_throws (v other : vector T) (w : World) (e : ε) (v1 : vector T) (w1 : World) :
      Reachable E A v → Reachable E A other →
      v.assign_copy E A other w = .throws e (v1, w1) → Reachable E A v1
  | assign_move_this (v other : vector T) (w : World) (v1 other1 : vector T) (w1 : World) :
      Reachable E A v → Reachable E A other →
      v.assign_move other w = some (v1, other1, w1) → Reachable E A v1
  | assign_move_other (v other : vector T) (w : World) (v1 other1 : vector T) (w1 : World) :
      Reachable E A v → Reachable E A other →
      v.assign_move other w = some (v1, other1, w1) → Reachable E A other1

/-- One public operation of a program on the containers it holds, named by
their addresses: the five constructors, the destructor, the two assignment
operators, and the member calls on one container. -/
inductive Operation (T : Type) where
  | vector_default (address : Nat)
  | vector_n (address n : Nat)
  | vector_n_element (address n : Nat) (element : T)
  | vector_copy (address other : Nat)
  | vector_move (address other : Nat)
  | destructor (address : Nat)
  | assign_copy (address other : Nat)
  | assign_move (address other : Nat)
  | call (address : Nat) (c : Call T)

/-- One operation of a program.  A constructor builds its object at
`address`, whatever was there before; constructing an object from itself is
undefined behaviour.  After the destructor the address holds no container,
which the store shows as the default state. -/
def Objects.step (E : Element T ε) (A : Allocator ε) (objects : Objects T)
    (op : Operation T) (w : World) : Outcome ε (Objects T × World) (Objects T × World) :=
  match op with
  | .vector_default address =>
    .returns (Function.update objects address vector.vector_default, w)
  | .vector_n address n =>
    match vector.vector_n E A n w with
    | .returns (v, w1) => .returns (Function.update objects address v, w1)
    | .throws e w1 => .throws e (objects, w1)
    | .undefined => .undefined
    | .diverges => .diverges
  | .vector_n_element address n element =>
    match vector.vector_n_element E A n element w with
    | .returns (v, w1) => .returns (Function.update objects address v, w1)
    | .throws e w1 => .throws e (objects, w1)
    | .undefined => .undefined
    | .diverges => .diverges
  | .vector_copy address other =>
    if address = other then
      .undefined
    else
      match vector.vector_copy E A (objects other) w with
      | .returns (v, w1) => .returns (Function.update objects address v, w1)
      | .throws e w1 => .throws e (objects, w1)
      | .undefined => .undefined
      | .diverges => .diverges
  | .vector_move address other =>
    if address = other then
      .undefined
    else
      .returns (vector.vector_move_at objects address other w)
  | .destructor address =>
    match (objects address).destructor w with
    | none => .undefined
    | some w1 => .returns (Function.update objects address vector.vector_default, w1)
  | .assign_copy address other => vector.operator_assign_copy E A objects address other w
  | .assign_move address other =>
    Outcome.of_option (vector.operator_assign_move objects address other w)
  | .call address c =>
    match (objects address).call E A c w with
    | .returns (v1, w1) => .returns (Function.update objects address v1, w1)
    | .throws e (v1, w1) => .throws e (Function.update objects address v1, w1)
    | .undefined => .undefined
    | .diverges => .diverges

/-- A program: a sequence of operations, one after the other.  An exception
is caught by the program, which goes on in the state the throwing operation
left; undefined behaviour or a call that does not terminate ends the run
without a state. -/
def Objects.run (E : Element T ε) (A : Allocator ε) :
    List (Operation T) → Objects T → World → Option (Objects T × World)
  | [], objects, w => some (objects, w)
  | op :: rest, objects, w =>
    match Objects.step E A objects op w with
    | .returns (objects1, w1) => Objects.run E A rest objects1 w1
    | .throws _ (objects1, w1) => Objects.run E A rest objects1 w1
    | .undefined => none
    | .diverges => none

end Engine

/-! ## Proofs: capacity policy -/

variable {T ε : Type}

theorem calculate_capacity_loop_zero_diverges (fuel n : Nat) (hn : 0 < n) :
    calculate_capacity_loop fuel 0 n = none := by
  induction fuel with
  | zero => rfl
  | succ fuel ih => simp [calculate_capacity_loop, hn, ih]

theorem calculate_capacity_loop_diverges (fuel j n : Nat) (hj : j < 64) (hn : 2 ^ 63 < n) :
    calculate_capacity_loop fuel (2 ^ j) n = none := by
  induction fuel generalizing j with
  | zero => rfl
  | succ fuel ih =>
    have hle : 2 ^ j ≤ 2 ^ 63 := Nat.pow_le_pow_right (by norm_num) (by omega)
    have hlt : 2 ^ j < n := by omega
    simp only [calculate_capacity_loop, hlt, if_true]
    by_cases h63 : j = 63
    · subst h63
      have : 2 ^ 63 * 2 % SIZE_T_MOD = 0 := by decide
      rw [this]
      exact calculate_capacity_loop_zero_diverges fuel n (by omega)
    · have hj1 : j + 1 < 64 := by omega
      have hlt2 : 2 ^ (j + 1) < 2 ^ 64 := Nat.pow_lt_pow_right (by norm_num) hj1
      have : 2 ^ j * 2 % SIZE_T_MOD = 2 ^ (j + 1) := by
        rw [← pow_succ]
        exact Nat.mod_eq_of_lt hlt2
      rw [this]
      exact ih (j + 1) hj1

theorem calculate_capacity_loop_spec (fuel j n : Nat) (hj : j < 64) (hn : n ≤ 2 ^ 63)
    (hfuel : 63 - j < fuel) (hprev : j = 0 ∨ 2 ^ (j - 1) < n) (hn1 : 1 ≤ n) :
    ∃ k, k < 64 ∧ calculate_capacity_loop fuel (2 ^ j) n = some (2 ^ k) ∧
      n ≤ 2 ^ k ∧ 2 ^ k / 2 < n := by
  induction fuel generalizing j with
  | zero => omega
  | succ fuel ih =>
    by_cases hlt : 2 ^ j < n
    · have hj63 : j < 63 := by
        by_contra hcon
        have : j = 63 := by omega
        subst this
        omega
      have hj1 : j + 1 < 64 := by omega
      have hlt2 : 2 ^ (j + 1) < 2 ^ 64 := Nat.pow_lt_pow_right (by norm_num) hj1
      have hmod : 2 ^ j * 2 % SIZE_T_MOD = 2 ^ (j + 1) := by
        rw [← pow_succ]
        exact Nat.mod_eq_of_lt hlt2
      simp only [calculate_capacity_loop, hlt, if_true, hmod]
      exact ih (j + 1) hj1 (by omega) (Or.inr (by simpa using hlt))
    · refine ⟨j, hj, by simp [calculate_capacity_loop, hlt], by omega, ?_⟩
      rcases hprev with h0 | hp
      · subst h0
        simpa using hn1
      · have hj0 : j ≠ 0 := by
          intro h0
          subst h0
          simp at hlt
          omega
        have : 2 ^ j = 2 ^ (j - 1) * 2 := by
          rw [← pow_succ]
          congr 1
          omega
        rw [this, Nat.mul_div_cancel _ (by norm_num)]
        exact hp

theorem calculate_capacity_zero : calculate_capacity 0 = some 0 := rfl

theorem calculate_capacity_spec (n : Nat) (hn1 : 1 ≤ n) (hn : n ≤ 2 ^ 63) :
    ∃ k, k < 64 ∧ calculate_capacity n = some (2 ^ k) ∧ n ≤ 2 ^ k ∧ 2 ^ k / 2 < n := by
  have h := calculate_capacity_loop_spec CAPACITY_FUEL 0 n (by norm_num) hn
    (by simp [CAPACITY_FUEL]) (Or.inl rfl) hn1
  simpa [calculate_capacity, Nat.ne_of_gt hn1] using h

theorem calculate_capacity_diverges (n : Nat) (hn : 2 ^ 63 < n) :
    calculate_capacity n = none := by
  have hn0 : n ≠ 0 := by omega
  have h := calculate_capacity_loop_diverges CAPACITY_FUEL 0 n (by norm_num) hn
  simpa [calculate_capacity, hn0] using h

/-! ## Proofs: section lifecycle -/

theorem set_at_length (pre : List (Option T)) (m a : Option T) (rest : List (Option T)) :
    (pre ++ m :: rest).set pre.length a = pre ++ a :: rest := by
  simp [List.set_append]

theorem get_at_length (pre : List (Option T)) (m : Option T) (rest : List (Option T)) :
    (pre ++ m :: rest)[pre.length]? = some m := by
  rw [List.getElem?_append_right (le_refl _)]
  simp

theorem destruct_loop_spec (h : Nat) (ys : List T) :
    ∀ (pre post : List (Option T)) (w : World),
      destruct_loop ys.length (some ⟨h, pre ++ (ys.map some ++ post)⟩) pre.length w =
        some (some ⟨h, pre ++ (List.replicate ys.length none ++ post)⟩,
              ⟨w.next_handle,
               w.log ++ (List.range' pre.length ys.length).map (Event.destruct h)⟩) := by
  induction ys with
  | nil => intro pre post w; simp [destruct_loop]
  | cons y ys ih =>
    intro pre post w
    have hget : (pre ++ (some y :: (ys.map some ++ post)))[pre.length]? = some (some y) :=
      get_at_length pre (some y) _
    have hset : (pre ++ (some y :: (ys.map some ++ post))).set pre.length none
        = (pre ++ [none]) ++ (ys.map some ++ post) := by
      rw [set_at_length]; simp
    have ih1 := ih (pre ++ [none]) post (w.record (Event.destruct h pre.length))
    simp only [List.length_append, List.length_singleton] at ih1
    simp only [List.map_cons, List.cons_append, List.length_cons, destruct_loop, destroy_at,
      hget, hset, ih1]
    simp [World.record, List.replicate_succ, List.range'_succ]

theorem construct_section_loop_cases (init_func : InitFunc T ε) (h : Nat) (count : Nat) :
    ∀ (pre mid post : List (Option T)) (w : World), mid.length = count →
      (∃ ys : List T, ys.length = count ∧
        (∀ i y, ys[i]? = some y → init_func (pre.length + i) = .ok y) ∧
        construct_section_loop init_func count (some ⟨h, pre ++ (mid ++ post)⟩) pre.length w =
          .completed (some ⟨h, pre ++ (ys.map some ++ post)⟩)
            ⟨w.next_handle,
             w.log ++ (List.range' pre.length count).map (Event.construct h)⟩) ∨
      (∃ (ys : List T) (e : ε), ys.length < count ∧
        (∀ i y, ys[i]? = some y → init_func (pre.length + i) = .ok y) ∧
        init_func (pre.length + ys.length) = .error e ∧
        construct_section_loop init_func count (some ⟨h, pre ++ (mid ++ post)⟩) pre.length w =
          .caught e (pre.length + ys.length)
            (some ⟨h, pre ++ (ys.map some ++ (mid.drop ys.length ++ post))⟩)
            ⟨w.next_handle,
             w.log ++ ((List.range' pre.length ys.length).map (Event.construct h) ++
               [Event.construct_throws h (pre.length + ys.length)])⟩) := by
  induction count with
  | zero =>
    intro pre mid post w hlen
    left
    refine ⟨[], rfl, by simp, ?_⟩
    have : mid = [] := List.eq_nil_of_length_eq_zero hlen
    subst this
    simp [construct_section_loop]
  | succ count ih =>
    intro pre mid post w hlen
    obtain ⟨m, mid1, rfl⟩ : ∃ m mid1, mid = m :: mid1 := by
      cases mid with
      | nil => simp at hlen
      | cons m mid1 => exact ⟨m, mid1, rfl⟩
    have hlen1 : mid1.length = count := by simpa using hlen
    have hlt : pre.length < (pre ++ (m :: mid1 ++ post)).length := by simp
    cases hinit : init_func pre.length with
    | error e =>
      right
      refine ⟨[], e, by simp, by simp, by simpa using hinit, ?_⟩
      simp [construct_section_loop, hinit, World.record]
    | ok x =>
      have hset : (pre ++ (m :: mid1 ++ post)).set pre.length (some x)
          = (pre ++ [some x]) ++ (mid1 ++ post) := by
        rw [List.cons_append, set_at_length]; simp
      have hstep : construct_section_loop init_func (count + 1)
            (some ⟨h, pre ++ (m :: mid1 ++ post)⟩) pre.length w
          = construct_section_loop init_func count
              (some ⟨h, (pre ++ [some x]) ++ (mid1 ++ post)⟩) (pre.length + 1)
              (w.record (Event.construct h pre.length)) := by
        simp only [construct_section_loop, hlt, if_true, hinit, hset]
      have hpl : (pre ++ [some x]).length = pre.length + 1 := by simp
      rcases ih (pre ++ [some x]) mid1 post (w.record (Event.construct h pre.length)) hlen1 with
        ⟨ys, hys, hok, heq⟩ | ⟨ys, e, hys, hok, herr, heq⟩
      · left
        refine ⟨x :: ys, by simp [hys], ?_, ?_⟩
        · intro i y hy
          cases i with
          | zero => simp at hy; subst hy; simpa using hinit
          | succ i =>
            have := hok i y (by simpa using hy)
            rw [hpl] at this
            rw [← this]; congr 1; omega
        · rw [hstep, ← hpl, heq]
          simp [World.record, List.range'_succ]
      · right
        refine ⟨x :: ys, e, by simp [hys], ?_, ?_, ?_⟩
        · intro i y hy
          cases i with
          | zero => simp at hy; subst hy; simpa using hinit
          | succ i =>
            have := hok i y (by simpa using hy)
            rw [hpl] at this
            rw [← this]; congr 1; omega
        · rw [hpl] at herr
          rw [← herr]; congr 1; simp; omega
        · rw [hstep, ← hpl, heq]
          simp [World.record, List.range'_succ]
          omega

theorem read_at_live (hs : Nat) (xs : List T) (rest : List (Option T)) (i : Nat) (y : T)
    (hy : xs[i]? = some y) : read_at (some ⟨hs, xs.map some ++ rest⟩) i = some y := by
  have hi : i < xs.length := by
    by_contra hcon
    rw [List.getElem?_eq_none (by omega)] at hy
    cases hy
  have : (xs.map some ++ rest)[i]? = some (some y) := by
    rw [List.getElem?_append_left (by simpa using hi)]
    simp [hy]
  simp [read_at, this]

theorem construct_section_move_loop_spec (source : Ptr T) (h : Nat) (ys : List T) :
    ∀ (pre mid post : List (Option T)) (w : World), mid.length = ys.length →
      (∀ i y, ys[i]? = some y → read_at source (pre.length + i) = some y) →
      construct_section_move_loop source ys.length (some ⟨h, pre ++ (mid ++ post)⟩)
          pre.length w =
        some (some ⟨h, pre ++ (ys.map some ++ post)⟩,
              ⟨w.next_handle,
               w.log ++ (List.range' pre.length ys.length).map (Event.move_construct h)⟩) := by
  induction ys with
  | nil =>
    intro pre mid post w hlen _
    have : mid = [] := List.eq_nil_of_length_eq_zero hlen
    subst this
    simp [construct_section_move_loop]
  | cons y ys ih =>
    intro pre mid post w hlen hread
    obtain ⟨m, mid1, rfl⟩ : ∃ m mid1, mid = m :: mid1 := by
      cases mid with
      | nil => simp at hlen
      | cons m mid1 => exact ⟨m, mid1, rfl⟩
    have hlen1 : mid1.length = ys.length := by simpa using hlen
    have hlt : pre.length < (pre ++ (m :: mid1 ++ post)).length := by simp
    have hr0 : read_at source pre.length = some y := by
      simpa using hread 0 y (by simp)
    have hset : (pre ++ (m :: mid1 ++ post)).set pre.length (some y)
        = (pre ++ [some y]) ++ (mid1 ++ post) := by
      rw [List.cons_append, set_at_length]; simp
    have hpl : (pre ++ [some y]).length = pre.length + 1 := by simp
    have ih1 := ih (pre ++ [some y]) mid1 post
      (w.record (Event.move_construct h pre.length)) hlen1 (by
        intro i z hz
        have := hread (i + 1) z (by simpa using hz)
        rw [hpl, ← this]; congr 1; omega)
    rw [hpl] at ih1
    simp only [List.length_cons, construct_section_move_loop, hr0, construct_at, hlt, if_true,
      hset, ih1]
    simp [World.record, List.range'_succ]

theorem construct_section_spec (init_func : InitFunc T ε) (h n : Nat)
    (pre post : List (Option T)) (w : World) :
    (∃ ys : List T, ys.length = n ∧
      (∀ i y, ys[i]? = some y → init_func (pre.length + i) = .ok y) ∧
      construct_section (some ⟨h, pre ++ (List.replicate n none ++ post)⟩) pre.length
          (pre.length + n) init_func w =
        .returns (some ⟨h, pre ++ (ys.map some ++ post)⟩,
          ⟨w.next_handle,
           w.log ++ (List.range' pre.length n).map (Event.construct h)⟩)) ∨
    (∃ (ys : List T) (e : ε), ys.length < n ∧
      (∀ i y, ys[i]? = some y → init_func (pre.length + i) = .ok y) ∧
      init_func (pre.length + ys.length) = .error e ∧
      construct_section (some ⟨h, pre ++ (List.replicate n none ++ post)⟩) pre.length
          (pre.length + n) init_func w =
        .throws e (some ⟨h, pre ++ (List.replicate n none ++ post)⟩,
          ⟨w.next_handle,
           w.log ++ ((List.range' pre.length ys.length).map (Event.construct h) ++
             ([Event.construct_throws h (pre.length + ys.length)] ++
              (List.range' pre.length ys.length).map (Event.destruct h)))⟩)) := by
  have hsub : pre.length + n - pre.length = n := by omega
  rcases construct_section_loop_cases init_func h n pre (List.replicate n none) post w
      (by simp) with ⟨ys, hys, hok, heq⟩ | ⟨ys, e, hys, hok, herr, heq⟩
  · left
    exact ⟨ys, hys, hok, by simp [construct_section, hsub, heq]⟩
  · right
    refine ⟨ys, e, hys, hok, herr, ?_⟩
    have hsub2 : pre.length + ys.length - pre.length = ys.length := by omega
    have hd := destruct_loop_spec h ys pre
      ((List.replicate n (none : Option T)).drop ys.length ++ post)
      ⟨w.next_handle, w.log ++ ((List.range' pre.length ys.length).map (Event.construct h) ++
               [Event.construct_throws h (pre.length + ys.length)])⟩
    have hrep : List.replicate ys.length (none : Option T) ++
        ((List.replicate n (none : Option T)).drop ys.length ++ post)
        = List.replicate n none ++ post := by
      rw [List.drop_replicate, ← List.append_assoc, List.append_replicate_replicate]
      congr 2; omega
    simp only [construct_section, hsub, heq, destruct, hsub2, hd, hrep]
    simp

/-! ## Proofs: the representation invariant -/

theorem reduceOption_take_live (xs : List T) (rest : List (Option T)) :
    ((xs.map some ++ rest).take xs.length).reduceOption = xs := by
  have : (xs.map some ++ rest).take xs.length = xs.map some := by
    rw [List.take_append_of_le_length (by simp)]
    rw [List.take_of_length_le (by simp)]
  rw [this]
  simp [List.reduceOption]

theorem elements_of_buffer (h : Nat) (xs : List T) (rest : List (Option T)) (c : Nat) :
    (⟨some ⟨h, xs.map some ++ rest⟩, c, xs.length⟩ : vector T).elements = xs := by
  simp only [vector.elements]
  exact reduceOption_take_live xs rest

theorem WF_null : (⟨none, 0, 0⟩ : vector T).WF :=
  ⟨le_refl _, Or.inl rfl, rfl⟩

theorem WF_of_buffer (h : Nat) (xs : List T) (c : Nat) (hle : xs.length ≤ c) (hc0 : c ≠ 0)
    (hpow : c = 0 ∨ ∃ j, j < 64 ∧ c = 2 ^ j) :
    (⟨some ⟨h, xs.map some ++ List.replicate (c - xs.length) none⟩, c, xs.length⟩ :
      vector T).WF := by
  refine ⟨hle, hpow, ?_⟩
  have he := elements_of_buffer h xs (List.replicate (c - xs.length) none) c
  show _ ∧ _ ∧ _
  rw [he]
  exact ⟨hc0, rfl, rfl⟩

theorem WF_cases (v : vector T) (hwf : v.WF) :
    (v.data_ = none ∧ v.capacity_ = 0 ∧ v.size_ = 0 ∧ v.elements = []) ∨
    ∃ (h : Nat) (xs : List T), v.capacity_ ≠ 0 ∧ xs.length = v.size_ ∧ v.elements = xs ∧
      v.data_ = some ⟨h, xs.map some ++ List.replicate (v.capacity_ - v.size_) none⟩ := by
  obtain ⟨hle, _, hst⟩ := hwf
  cases hd : v.data_ with
  | none =>
    left
    rw [hd] at hst
    simp only at hst
    refine ⟨rfl, hst, by omega, by simp [vector.elements, hd]⟩
  | some b =>
    right
    rw [hd] at hst
    simp only at hst
    obtain ⟨hc0, hlen, hslots⟩ := hst
    refine ⟨b.handle, v.elements, hc0, hlen, rfl, ?_⟩
    cases b with
    | mk bh bs =>
      simp only at hslots
      rw [hslots]

theorem capacity_le_of_pow2 (c : Nat) (hpow : c = 0 ∨ ∃ j, j < 64 ∧ c = 2 ^ j) :
    c ≤ 2 ^ 63 := by
  rcases hpow with h0 | ⟨j, hj, rfl⟩
  · omega
  · exact Nat.pow_le_pow_right (by norm_num) (by omega)

theorem calculate_capacity_total (n : Nat) (hn : n ≤ 2 ^ 63) :
    ∃ c, calculate_capacity n = some c ∧ n ≤ c ∧ (c = 0 ∨ ∃ j, j < 64 ∧ c = 2 ^ j) ∧
      (c = 0 ↔ n = 0) := by
  by_cases h0 : n = 0
  · subst h0
    exact ⟨0, rfl, le_refl _, Or.inl rfl, by simp⟩
  · obtain ⟨k, hk, heq, hle, _⟩ := calculate_capacity_spec n (by omega) hn
    refine ⟨2 ^ k, heq, hle, Or.inr ⟨k, hk, rfl⟩, ?_⟩
    have : 0 < 2 ^ k := Nat.pos_pow_of_pos k (by norm_num)
    omega

theorem calculate_capacity_some (n c : Nat) (h : calculate_capacity n = some c) :
    n ≤ 2 ^ 63 ∧ n ≤ c ∧ (c = 0 ∨ ∃ j, j < 64 ∧ c = 2 ^ j) ∧ (c = 0 ↔ n = 0) := by
  have hn : n ≤ 2 ^ 63 := by
    by_contra hcon
    rw [calculate_capacity_diverges n (by omega)] at h
    cases h
  obtain ⟨c1, h1, hle, hpow, h0⟩ := calculate_capacity_total n hn
  rw [h] at h1
  cases h1
  exact ⟨hn, hle, hpow, h0⟩

/-! ## Proofs: resize -/

theorem split_at (xs : List T) (d : Nat) (hd : d ≤ xs.length) :
    ∃ xa xb, xs = xa ++ xb ∧ xa.length = d :=
  ⟨xs.take d, xs.drop d, (List.take_append_drop d xs).symm, by simp [hd]⟩

theorem resize_shrink (A : Allocator ε) (v : vector T) (d : Nat) (init_func : InitFunc T ε)
    (w : World) (hwf : v.WF) (hd : d ≤ v.size_) :
    ∃ v1 w1, v.resize A d init_func w = .returns (v1, w1) ∧ v1.WF ∧ v1.size_ = d ∧
      v1.capacity_ = v.capacity_ ∧ v1.elements = v.elements.take d ∧
      v1.data_.map Buffer.handle = v.data_.map Buffer.handle ∧
      (d = v.size_ → v1 = v ∧ w1 = w) := by
  have hpow := hwf.capacity_pow2
  have hle := hwf.size_le_capacity
  have hcap := capacity_le_of_pow2 _ hpow
  obtain ⟨c, hc, -, -, -⟩ := calculate_capacity_total d (by omega)
  rcases WF_cases v hwf with ⟨hdata, hc0, hs0, hel⟩ | ⟨h, xs, hc0, hlen, hel, hdata⟩
  · obtain ⟨data, cap, size⟩ := v
    simp only at hdata hc0 hs0 hd
    subst hdata hc0 hs0
    have hd0 : d = 0 := by omega
    subst hd0
    refine ⟨⟨none, 0, 0⟩, w, ?_, WF_null, rfl, rfl, ?_, rfl, fun _ => ⟨rfl, rfl⟩⟩
    · simp [vector.resize, hc, destruct, destruct_loop]
    · simp [vector.elements]
  · obtain ⟨data, cap, size⟩ := v
    simp only at hdata hc0 hlen hd hle hpow
    subst hlen
    obtain ⟨xa, xb, rfl, hxa⟩ := split_at xs d hd
    subst hxa
    subst hdata
    have hle2 : xa.length + xb.length ≤ cap := by simpa using hle
    have hspec := destruct_loop_spec h xb (xa.map some)
      (List.replicate (cap - (xa ++ xb).length) none) w
    simp only [List.length_map] at hspec
    have hcount : (xa ++ xb).length - xa.length = xb.length := by simp
    have hslots : (xa ++ xb).map some ++ List.replicate (cap - (xa ++ xb).length) none
        = xa.map some ++ (xb.map some ++ List.replicate (cap - (xa ++ xb).length) none) := by
      simp
    have hmerge : xa.map some ++ (List.replicate xb.length (none : Option T) ++
          List.replicate (cap - (xa ++ xb).length) none)
        = xa.map some ++ List.replicate (cap - xa.length) none := by
      rw [List.append_replicate_replicate]
      congr 2
      simp only [List.length_append]
      omega
    refine ⟨⟨some ⟨h, xa.map some ++ List.replicate (cap - xa.length) none⟩, cap, xa.length⟩,
      ⟨w.next_handle, w.log ++ (List.range' xa.length xb.length).map (Event.destruct h)⟩,
      ?_, WF_of_buffer h xa cap (by omega) hc0 hpow, rfl, rfl, ?_, rfl, ?_⟩
    · simp only [vector.resize, hc, hd, if_true, destruct, hcount, hslots, hspec, hmerge]
    · rw [elements_of_buffer, hel]
      simp
    · intro heq
      have hb : xb = [] := by
        have : xb.length = 0 := by simpa using heq
        exact List.eq_nil_of_length_eq_zero this
      subst hb
      simp

theorem construct_section_move_all (v : vector T) (hwf : v.WF) (nh : Nat)
    (mid post : List (Option T)) (w : World) (hmid : mid.length = v.size_) :
    v.construct_section_move (some ⟨nh, mid ++ post⟩) 0 v.size_ w =
      some (some ⟨nh, v.elements.map some ++ post⟩,
            ⟨w.next_handle,
             w.log ++ (List.range' 0 v.size_).map (Event.move_construct nh)⟩) := by
  rcases WF_cases v hwf with ⟨hdata, hc0, hs0, hel⟩ | ⟨h, xs, hc0, hlen, hel, hdata⟩
  · have : mid = [] := List.eq_nil_of_length_eq_zero (by omega)
    subst this
    simp [vector.construct_section_move, hs0, hel, construct_section_move_loop]
  · have hspec := construct_section_move_loop_spec v.data_ nh xs [] mid post w (by omega) (by
      intro i y hy
      rw [hdata]
      simpa using read_at_live h xs _ i y hy)
    simp only [List.nil_append, List.length_nil] at hspec
    simp only [vector.construct_section_move, Nat.sub_zero, ← hlen, hel, hspec]

theorem destruct_all (v : vector T) (hwf : v.WF) (w : World) :
    ∃ data1 w1, destruct v.data_ 0 v.size_ w = some (data1, w1) ∧
      data1.map Buffer.handle = v.data_.map Buffer.handle ∧
      data1.map (fun b => b.slots) =
        v.data_.map (fun _ => List.replicate v.capacity_ none) := by
  rcases WF_cases v hwf with ⟨hdata, hc0, hs0, hel⟩ | ⟨h, xs, hc0, hlen, hel, hdata⟩
  · exact ⟨none, w, by simp [destruct, hs0, hdata, destruct_loop], by simp [hdata],
      by simp [hdata]⟩
  · have hle := hwf.size_le_capacity
    have hspec := destruct_loop_spec h xs [] (List.replicate (v.capacity_ - v.size_) none) w
    simp only [List.nil_append, List.length_nil] at hspec
    refine ⟨_, _, by simp only [destruct, Nat.sub_zero, ← hlen, hdata]; rw [hlen]; exact hlen ▸ hspec,
      by simp [hdata], ?_⟩
    simp only [hdata, Option.map_some', List.append_replicate_replicate]
    congr 2
    omega

theorem vector_eq_of_buffer (h : Nat) (xs : List T) (c n : Nat) (slots : List (Option T))
    (hn : n = xs.length) (hslots : slots = xs.map some ++ List.replicate (c - xs.length) none) :
    (⟨some ⟨h, slots⟩, c, n⟩ : vector T) =
      ⟨some ⟨h, xs.map some ++ List.replicate (c - xs.length) none⟩, c, xs.length⟩ := by
  subst hn hslots
  rfl

theorem resize_in_place (A : Allocator ε) (v : vector T) (d : Nat) (init_func : InitFunc T ε)
    (w : World) (hwf : v.WF) (h1 : v.size_ < d) (h2 : d ≤ v.capacity_) :
    (∃ (ys : List T) (v1 : vector T) (w1 : World), ys.length = d - v.size_ ∧
      (∀ i y, ys[i]? = some y → init_func (v.size_ + i) = .ok y) ∧
      v.resize A d init_func w = .returns (v1, w1) ∧ v1.WF ∧ v1.size_ = d ∧
      v1.capacity_ = v.capacity_ ∧ v1.elements = v.elements ++ ys ∧
      v1.data_.map Buffer.handle = v.data_.map Buffer.handle) ∨
    (∃ (ys : List T) (e : ε) (w1 : World), ys.length < d - v.size_ ∧
      (∀ i y, ys[i]? = some y → init_func (v.size_ + i) = .ok y) ∧
      init_func (v.size_ + ys.length) = .error e ∧
      v.resize A d init_func w = .throws e (v, w1)) := by
  have hpow := hwf.capacity_pow2
  have hcap := capacity_le_of_pow2 _ hpow
  obtain ⟨c, hc, -, -, -⟩ := calculate_capacity_total d (by omega)
  rcases WF_cases v hwf with ⟨hdata, hc0, hs0, hel⟩ | ⟨h, xs, hc0, hlen, hel, hdata⟩
  · omega
  · obtain ⟨data, cap, size⟩ := v
    simp only at hdata hc0 hlen h1 h2 hpow hel
    subst hlen
    obtain ⟨n, rfl⟩ : ∃ n, d = xs.length + n := ⟨d - xs.length, by omega⟩
    have hnot : ¬ (xs.length + n ≤ xs.length) := by omega
    have hsplit : List.replicate (cap - xs.length) (none : Option T)
        = List.replicate n none ++ List.replicate (cap - (xs.length + n)) none := by
      rw [List.append_replicate_replicate]
      congr 1
      omega
    rw [hsplit] at hdata
    subst hdata
    have hspec := construct_section_spec init_func h n (xs.map some)
      (List.replicate (cap - (xs.length + n)) none) w
    simp only [List.length_map] at hspec
    rcases hspec with ⟨ys, hys, hok, heq⟩ | ⟨ys, e, hys, hok, herr, heq⟩
    · left
      refine ⟨ys, ⟨some ⟨h, xs.map some ++
          (ys.map some ++ List.replicate (cap - (xs.length + n)) none)⟩, cap, xs.length + n⟩,
        ⟨w.next_handle, w.log ++ (List.range' xs.length n).map (Event.construct h)⟩,
        by dsimp only; omega, hok, ?_, ?_, rfl, rfl, ?_, rfl⟩
      · simp only [vector.resize, hc, hnot, if_false, h2, if_true, heq]
      · rw [vector_eq_of_buffer h (xs ++ ys) cap (xs.length + n) _ (by simp [hys])
          (by simp [hys])]
        exact WF_of_buffer h (xs ++ ys) cap (by simp [hys]; omega) hc0 hpow
      · rw [vector_eq_of_buffer h (xs ++ ys) cap (xs.length + n) _ (by simp [hys])
          (by simp [hys])]
        rw [elements_of_buffer, hel]
    · right
      refine ⟨ys, e, ⟨w.next_handle,
           w.log ++ ((List.range' xs.length ys.length).map (Event.construct h) ++
             ([Event.construct_throws h (xs.length + ys.length)] ++
              (List.range' xs.length ys.length).map (Event.destruct h)))⟩,
        by dsimp only; omega, hok, herr, ?_⟩
      simp only [vector.resize, hc, hnot, if_false, h2, if_true, heq]

theorem elements_length (v : vector T) (hwf : v.WF) : v.elements.length = v.size_ := by
  rcases WF_cases v hwf with ⟨_, _, hs0, hel⟩ | ⟨h, xs, _, hlen, hel, _⟩
  · simp [hel, hs0]
  · rw [hel, hlen]

theorem resize_realloc (A : Allocator ε) (v : vector T) (d : Nat) (init_func : InitFunc T ε)
    (w : World) (hwf : v.WF) (h1 : v.capacity_ < d) :
    (calculate_capacity d = none ∧ v.resize A d init_func w = .diverges) ∨
    ∃ c, calculate_capacity d = some c ∧
      ((∃ (e : ε) (w1 : World), A.allocate_throws w c = some e ∧
          v.resize A d init_func w = .throws e (v, w1)) ∨
       (A.allocate_throws w c = none ∧
        ((∃ (ys : List T) (v1 : vector T) (w1 : World), ys.length = d - v.size_ ∧
            (∀ i y, ys[i]? = some y → init_func (v.size_ + i) = .ok y) ∧
            v.resize A d init_func w = .returns (v1, w1) ∧ v1.WF ∧ v1.size_ = d ∧
            v1.capacity_ = c ∧ v1.elements = v.elements ++ ys ∧
            v1.data_.map Buffer.handle = some w.next_handle) ∨
         (∃ (ys : List T) (e : ε) (w1 : World), ys.length < d - v.size_ ∧
            (∀ i y, ys[i]? = some y → init_func (v.size_ + i) = .ok y) ∧
            init_func (v.size_ + ys.length) = .error e ∧
            v.resize A d init_func w = .throws e (v, w1))))) := by
  have hle := hwf.size_le_capacity
  cases hc : calculate_capacity d with
  | none =>
    left
    exact ⟨rfl, by simp [vector.resize, hc]⟩
  | some c =>
    right
    refine ⟨c, rfl, ?_⟩
    obtain ⟨-, hdc, hpow, hc0⟩ := calculate_capacity_some d c hc
    have hcne : c ≠ 0 := by
      intro h0
      have := hc0.mp h0
      omega
    have hnot1 : ¬ (d ≤ v.size_) := by omega
    have hnot2 : ¬ (d ≤ v.capacity_) := by omega
    cases ha : A.allocate_throws w c with
    | some e =>
      left
      refine ⟨e, w.record (Event.allocate_throws c), rfl, ?_⟩
      simp only [vector.resize, hc, hnot1, hnot2, if_false, alloc, hcne, ha]
    | none =>
      right
      refine ⟨rfl, ?_⟩
      obtain ⟨n, hn⟩ : ∃ n, d = v.size_ + n := ⟨d - v.size_, by omega⟩
      have hsplit : List.replicate c (none : Option T)
          = List.replicate v.size_ none ++
              (List.replicate n none ++ List.replicate (c - d) none) := by
        rw [List.append_replicate_replicate, List.append_replicate_replicate]
        congr 1
        omega
      have hspec := construct_section_spec init_func w.next_handle n
        (List.replicate v.size_ (none : Option T)) (List.replicate (c - d) none)
        ⟨w.next_handle + 1, w.log ++ [Event.allocate c w.next_handle]⟩
      simp only [List.length_replicate, ← hn] at hspec
      rcases hspec with ⟨ys, hys, hok, heq⟩ | ⟨ys, e, hys, hok, herr, heq⟩
      · left
        have hmove := construct_section_move_all v hwf w.next_handle
          (List.replicate v.size_ none) (ys.map some ++ List.replicate (c - d) none)
          ⟨w.next_handle + 1,
            w.log ++ [Event.allocate c w.next_handle] ++
              (List.range' v.size_ n).map (Event.construct w.next_handle)⟩ (by simp)
        obtain ⟨data1, w4, hdes, -, -⟩ := destruct_all v hwf
          ⟨w.next_handle + 1,
            w.log ++ [Event.allocate c w.next_handle] ++
              (List.range' v.size_ n).map (Event.construct w.next_handle) ++
              (List.range' 0 v.size_).map (Event.move_construct w.next_handle)⟩
        have hel := elements_length v hwf
        refine ⟨ys, ⟨some ⟨w.next_handle, v.elements.map some ++
            (ys.map some ++ List.replicate (c - d) none)⟩, c, d⟩,
          dealloc data1 v.capacity_ w4, by omega, hok, ?_, ?_, rfl, rfl, ?_, rfl⟩
        · simp only [vector.resize, hc, hnot1, hnot2, if_false, alloc, hcne, ha, hsplit, heq,
            hmove, hdes]
        · rw [vector_eq_of_buffer w.next_handle (v.elements ++ ys) c d _
            (by simp [hys, hel, hn]) (by simp [hys, hel, hn])]
          exact WF_of_buffer _ (v.elements ++ ys) c (by simp [hys, hel]; omega) hcne hpow
        · rw [vector_eq_of_buffer w.next_handle (v.elements ++ ys) c d _
            (by simp [hys, hel, hn]) (by simp [hys, hel, hn])]
          rw [elements_of_buffer]
      · right
        have hres : ∃ w1, v.resize A d init_func w = .throws e (v, w1) := by
          simp only [vector.resize, hc, hnot1, hnot2, if_false, alloc, hcne, ha, hsplit, heq]
          exact ⟨_, rfl⟩
        obtain ⟨w1, hw1⟩ := hres
        exact ⟨ys, e, w1, by omega, hok, herr, hw1⟩

theorem WF_holding (h : Nat) (xs : List T) (c : Nat) (hle : xs.length ≤ c) (hc0 : c ≠ 0)
    (hpow : c = 0 ∨ ∃ j, j < 64 ∧ c = 2 ^ j) : (vector.holding h xs c).WF :=
  WF_of_buffer h xs c hle hc0 hpow

theorem elements_holding (h : Nat) (xs : List T) (c : Nat) :
    (vector.holding h xs c).elements = xs :=
  elements_of_buffer h xs _ c

theorem operator_index_elements (v : vector T) (hwf : v.WF) (i : Nat) (hi : i < v.size_) :
    v.operator_index i = v.elements[i]? := by
  rcases WF_cases v hwf with ⟨_, _, hs0, _⟩ | ⟨h, xs, _, hlen, hel, hdata⟩
  · omega
  · obtain ⟨y, hy⟩ : ∃ y, xs[i]? = some y := ⟨xs[i], by simp [List.getElem?_eq_getElem, hlen, hi]⟩
    rw [hel, hy, vector.operator_index, hdata]
    exact read_at_live h xs _ i y hy

theorem pow2_minimal (k i n : Nat) (h1 : n ≤ 2 ^ i) (h2 : 2 ^ k / 2 < n) : 2 ^ k ≤ 2 ^ i := by
  by_contra hcon
  have hlt : 2 ^ i < 2 ^ k := by omega
  have hik : i < k := (Nat.pow_lt_pow_iff_right (by norm_num)).mp hlt
  have hk : 2 ^ k = 2 ^ (k - 1) * 2 := by
    rw [← pow_succ]
    congr 1
    omega
  have hle : 2 ^ i ≤ 2 ^ (k - 1) := Nat.pow_le_pow_right (by norm_num) (by omega)
  rw [hk, Nat.mul_div_cancel _ (by norm_num)] at h2
  omega

/-- C6: `calculate_capacity(0)` is `0`, and for every `n` with `1 <= n <= 2^63`
the function returns a power of two `p` with `n <= p` and `p / 2 < n`, which
is the smallest power of two that is at least `n`; in particular
`5 -> 8`, `8 -> 8`, `9 -> 16` and `100 -> 128`. -/
theorem calculate_capacity_reference :
    calculate_capacity 0 = some 0 ∧
    (∀ n, 1 ≤ n → n ≤ 2 ^ 63 →
      ∃ p, calculate_capacity n = some p ∧ (∃ j, p = 2 ^ j) ∧ n ≤ p ∧ p / 2 < n ∧
        ∀ q, (∃ i, q = 2 ^ i) → n ≤ q → p ≤ q) ∧
    calculate_capacity 5 = some 8 ∧ calculate_capacity 8 = some 8 ∧
    calculate_capacity 9 = some 16 ∧ calculate_capacity 100 = some 128 := by
  refine ⟨rfl, ?_, by decide, by decide, by decide, by decide⟩
  intro n h1 h2
  obtain ⟨k, -, heq, hle, hhalf⟩ := calculate_capacity_spec n h1 h2
  refine ⟨2 ^ k, heq, ⟨k, rfl⟩, hle, hhalf, ?_⟩
  rintro q ⟨i, rfl⟩ hq
  exact pow2_minimal k i n hq hhalf

/-- Witness of C6 at `n = 100`. -/
theorem calculate_capacity_reference_witness :
    1 ≤ 100 ∧ 100 ≤ 2 ^ 63 ∧
    ∃ p, calculate_capacity 100 = some p ∧ (∃ j, p = 2 ^ j) ∧ 100 ≤ p ∧ p / 2 < 100 ∧
      ∀ q, (∃ i, q = 2 ^ i) → 100 ≤ q → p ≤ q :=
  ⟨by decide, by decide, calculate_capacity_reference.2.1 100 (by decide) (by decide)⟩

theorem all_ok_contra (init_func : InitFunc T ε) (ys : List T) (s d k : Nat) (e : ε)
    (hlen : ys.length = d - s) (hk1 : s ≤ k) (hk2 : k < d)
    (hok : ∀ i y, ys[i]? = some y → init_func (s + i) = .ok y)
    (hfail : init_func k = .error e) : False := by
  have hi : k - s < ys.length := by omega
  have := hok (k - s) ys[k - s] (by simp [List.getElem?_eq_getElem, hi])
  have hks : s + (k - s) = k := by omega
  rw [hks, hfail] at this
  cases this

theorem first_failure_unique (init_func : InitFunc T ε) (ys : List T) (s k : Nat) (e e1 : ε)
    (hk1 : s ≤ k)
    (hok1 : ∀ i y, ys[i]? = some y → init_func (s + i) = .ok y)
    (herr : init_func (s + ys.length) = .error e1)
    (hok : ∀ i, s ≤ i → i < k → ∃ x, init_func i = .ok x)
    (hfail : init_func k = .error e) : e1 = e := by
  rcases Nat.lt_trichotomy (s + ys.length) k with hlt | heq | hgt
  · obtain ⟨x, hx⟩ := hok (s + ys.length) (by omega) hlt
    rw [hx] at herr
    cases herr
  · rw [heq, hfail] at herr
    cases herr
    rfl
  · have hi : k - s < ys.length := by omega
    have := hok1 (k - s) ys[k - s] (by simp [List.getElem?_eq_getElem, hi])
    have hks : s + (k - s) = k := by omega
    rw [hks, hfail] at this
    cases this

/-- C1: strong guarantee of `resize`.  For a container `v` and a
`desired_size` above its size, let the initializer succeed at the new indices
below `k` and fail with `e` at the new index `k` (so the initializer is
reached: the capacity computation returns, and `allocate` does not throw when
a reallocation is needed).  Then `resize` throws `e`, and the container is
exactly what it was: same size, same capacity, same elements (the whole
state is unchanged), whether `desired_size <= capacity` or not. -/
theorem resize_strong_guarantee (A : Allocator ε) (v : vector T) (w : World)
    (desired_size k : Nat) (init_func : InitFunc T ε) (e : ε)
    (hwf : v.WF) (hk1 : v.size_ ≤ k) (hk2 : k < desired_size)
    (hok : ∀ i, v.size_ ≤ i → i < k → ∃ x, init_func i = .ok x)
    (hfail : init_func k = .error e)
    (hcap : desired_size ≤ 2 ^ 63)
    (halloc : v.capacity_ < desired_size →
      ∀ c, calculate_capacity desired_size = some c → A.allocate_throws w c = none) :
    ∃ v1 w1, v.resize A desired_size init_func w = .throws e (v1, w1) ∧
      v1.size_ = v.size_ ∧ v1.capacity_ = v.capacity_ ∧ v1.elements = v.elements ∧
      v1 = v := by
  by_cases hin : desired_size ≤ v.capacity_
  · rcases resize_in_place A v desired_size init_func w hwf (by omega) hin with
      ⟨ys, v1, w1, hlen, hok1, -⟩ | ⟨ys, e1, w1, hlen, hok1, herr, heq⟩
    · exact (all_ok_contra init_func ys v.size_ desired_size k e hlen hk1 hk2 hok1 hfail).elim
    · have := first_failure_unique init_func ys v.size_ k e e1 hk1 hok1 herr hok hfail
      subst this
      exact ⟨v, w1, heq, rfl, rfl, rfl, rfl⟩
  · rcases resize_realloc A v desired_size init_func w hwf (by omega) with
      ⟨hnone, -⟩ | ⟨c, hc, hrest⟩
    · obtain ⟨c, hc, -⟩ := calculate_capacity_total desired_size hcap
      rw [hc] at hnone
      cases hnone
    · rcases hrest with ⟨e1, w1, hthrows, -⟩ | ⟨-, hrest⟩
      · rw [halloc (by omega) c hc] at hthrows
        cases hthrows
      · rcases hrest with ⟨ys, v1, w1, hlen, hok1, -⟩ | ⟨ys, e1, w1, hlen, hok1, herr, heq⟩
        · exact (all_ok_contra init_func ys v.size_ desired_size k e hlen hk1 hk2 hok1
            hfail).elim
        · have := first_failure_unique init_func ys v.size_ k e e1 hk1 hok1 herr hok hfail
          subst this
          exact ⟨v, w1, heq, rfl, rfl, rfl, rfl⟩

/-- Witness of C1: the test of `vector_test.cpp` (size 2, capacity 2, `resize(10)` with a
throwing default constructor, reallocating path); the same without reallocation (size 5,
capacity 8, `resize(7)`); and an initializer that fails at index 7 after two successful
constructions at 5 and 6. -/
theorem resize_strong_guarantee_witness :
    (∃ w1, (vector.holding 0 [10, 10] 2).resize_n (Element.throwing fun _ => true)
        Allocator.unlimited 10 World.initial =
      .throws Failure.artificial_exception (vector.holding 0 [10, 10] 2, w1)) ∧
    (∃ w1, (vector.holding 0 [10, 11, 12, 13, 14] 8).resize_n (Element.throwing fun _ => true)
        Allocator.unlimited 7 World.initial =
      .throws Failure.artificial_exception (vector.holding 0 [10, 11, 12, 13, 14] 8, w1)) ∧
    (∃ w1, (vector.holding 0 [10, 11, 12, 13, 14] 8).resize Allocator.unlimited 8
        (fun i => if i < 7 then .ok 50 else .error Failure.artificial_exception)
        World.initial =
      .throws Failure.artificial_exception (vector.holding 0 [10, 11, 12, 13, 14] 8, w1)) := by
  refine ⟨?_, ?_, ?_⟩
  · obtain ⟨v1, w1, h, -, -, -, rfl⟩ := resize_strong_guarantee Allocator.unlimited
      (vector.holding 0 [10, 10] 2) World.initial 10 2
      (fun _ => (Element.throwing fun _ => true).default_ctor) Failure.artificial_exception
      (WF_holding 0 [10, 10] 2 (by decide) (by decide) (Or.inr ⟨1, by decide, by decide⟩))
      (by decide) (by decide) (fun i h1 h2 => absurd h2 (not_lt_of_le h1)) rfl (by decide)
      (fun _ _ _ => rfl)
    exact ⟨w1, h⟩
  · obtain ⟨v1, w1, h, -, -, -, rfl⟩ := resize_strong_guarantee Allocator.unlimited
      (vector.holding 0 [10, 11, 12, 13, 14] 8) World.initial 7 5
      (fun _ => (Element.throwing fun _ => true).default_ctor) Failure.artificial_exception
      (WF_holding 0 [10, 11, 12, 13, 14] 8 (by decide) (by decide)
        (Or.inr ⟨3, by decide, by decide⟩))
      (by decide) (by decide) (fun i h1 h2 => absurd h2 (not_lt_of_le h1)) rfl (by decide)
      (fun _ _ _ => rfl)
    exact ⟨w1, h⟩
  · obtain ⟨v1, w1, h, -, -, -, rfl⟩ := resize_strong_guarantee Allocator.unlimited
      (vector.holding 0 [10, 11, 12, 13, 14] 8) World.initial 8 7
      (fun i => if i < 7 then .ok 50 else .error Failure.artificial_exception)
      Failure.artificial_exception
      (WF_holding 0 [10, 11, 12, 13, 14] 8 (by decide) (by decide)
        (Or.inr ⟨3, by decide, by decide⟩))
      (by decide) (by decide) (fun i _ h2 => ⟨50, if_pos h2⟩) rfl (by decide)
      (fun _ _ _ => rfl)
    exact ⟨w1, h⟩

/-- C10: `resize` to a size that is not above the current one.  For a
container `v` and `desired_size <= size`, both `resize(desired_size)` and
`resize(desired_size, element)` return; the size becomes `desired_size`, the
capacity is unchanged and the elements are the first `desired_size` old
elements; `resize(size())` changes nothing at all. -/
theorem resize_shrinks (E : Element T ε) (A : Allocator ε) (v : vector T) (w : World)
    (desired_size : Nat) (element : T) (hwf : v.WF) (hle : desired_size ≤ v.size_) :
    (∃ v1 w1, v.resize_n E A desired_size w = .returns (v1, w1) ∧
      v1.size_ = desired_size ∧ v1.capacity_ = v.capacity_ ∧
      v1.elements = v.elements.take desired_size ∧
      (desired_size = v.size_ → v1 = v ∧ w1 = w)) ∧
    (∃ v1 w1, v.resize_element E A desired_size element w = .returns (v1, w1) ∧
      v1.size_ = desired_size ∧ v1.capacity_ = v.capacity_ ∧
      v1.elements = v.elements.take desired_size ∧
      (desired_size = v.size_ → v1 = v ∧ w1 = w)) := by
  constructor
  · obtain ⟨v1, w1, h, -, hs, hc, hel, -, hsame⟩ :=
      resize_shrink A v desired_size (fun _ => E.default_ctor) w hwf hle
    exact ⟨v1, w1, h, hs, hc, hel, hsame⟩
  · obtain ⟨v1, w1, h, -, hs, hc, hel, -, hsame⟩ :=
      resize_shrink A v desired_size (fun _ => E.copy_ctor element) w hwf hle
    exact ⟨v1, w1, h, hs, hc, hel, hsame⟩

/-- Witness of C10: the five-element container of the tests (capacity 8) resized to 3. -/
theorem resize_shrinks_witness :
    (∃ v1 w1, (vector.holding 0 [10, 11, 12, 13, 14] 8).resize_n Element.obj
        Allocator.unlimited 3 World.initial = .returns (v1, w1) ∧
      v1.size_ = 3 ∧ v1.capacity_ = 8 ∧ v1.elements = [10, 11, 12]) ∧
    (∃ v1 w1, (vector.holding 0 [10, 11, 12, 13, 14] 8).resize_element Element.obj
        Allocator.unlimited 3 50 World.initial = .returns (v1, w1) ∧
      v1.size_ = 3 ∧ v1.capacity_ = 8 ∧ v1.elements = [10, 11, 12]) := by
  have h := resize_shrinks Element.obj Allocator.unlimited
    (vector.holding 0 [10, 11, 12, 13, 14] 8) World.initial 3 50
    (WF_holding 0 [10, 11, 12, 13, 14] 8 (by decide) (by decide)
      (Or.inr ⟨3, by decide, by decide⟩)) (by decide)
  rw [elements_holding] at h
  obtain ⟨⟨v1, w1, h1, h2, h3, h4, -⟩, ⟨v2, w2, g1, g2, g3, g4, -⟩⟩ := h
  exact ⟨⟨v1, w1, h1, h2, h3, h4⟩, ⟨v2, w2, g1, g2, g3, g4⟩⟩

theorem constructed_values (init_func : InitFunc T ε) (g : Nat → T) (ys : List T) (s n : Nat)
    (hlen : ys.length = n)
    (hok : ∀ i y, ys[i]? = some y → init_func (s + i) = .ok y)
    (hinit : ∀ i, s ≤ i → i < s + n → init_func i = .ok (g i)) :
    ys = (List.range' s n).map g := by
  apply List.ext_getElem
  · simp [hlen]
  · intro i h1 h2
    have ha := hok i ys[i] (by simp [List.getElem?_eq_getElem, h1])
    have hb := hinit (s + i) (by omega) (by omega)
    rw [ha] at hb
    simp only [List.getElem_map, List.getElem_range', one_mul]
    injection hb

theorem no_failure (init_func : InitFunc T ε) (g : Nat → T) (s d j : Nat) (e : ε)
    (hj : j < d - s)
    (hinit : ∀ i, s ≤ i → i < d → init_func i = .ok (g i))
    (herr : init_func (s + j) = .error e) : False := by
  rw [hinit (s + j) (by omega) (by omega)] at herr
  cases herr

/-- C9: `resize` to a larger size, when it succeeds.  For a container `v`, a
`desired_size` above its size and an initializer that gives the value `g i`
at every new index `i`: whenever `resize` returns, the size is
`desired_size`, the old elements are unchanged and in order and are followed
by the initializer's values for the indices `[old size, desired_size)`, the
capacity is unchanged if `desired_size <= capacity` and
`calculate_capacity(desired_size)` otherwise.  And `resize` does return when
`desired_size <= 2^63` and `allocate` does not throw. -/
theorem resize_grows (A : Allocator ε) (v : vector T) (w : World) (desired_size : Nat)
    (init_func : InitFunc T ε) (g : Nat → T) (hwf : v.WF) (hgrow : v.size_ < desired_size)
    (hinit : ∀ i, v.size_ ≤ i → i < desired_size → init_func i = .ok (g i)) :
    (∀ v1 w1, v.resize A desired_size init_func w = .returns (v1, w1) →
      v1.size_ = desired_size ∧
      v1.elements = v.elements ++ (List.range' v.size_ (desired_size - v.size_)).map g ∧
      (desired_size ≤ v.capacity_ → v1.capacity_ = v.capacity_) ∧
      (v.capacity_ < desired_size → calculate_capacity desired_size = some v1.capacity_)) ∧
    (desired_size ≤ 2 ^ 63 →
      (v.capacity_ < desired_size →
        ∀ c, calculate_capacity desired_size = some c → A.allocate_throws w c = none) →
      ∃ v1 w1, v.resize A desired_size init_func w = .returns (v1, w1)) := by
  have hinit1 : ∀ i, v.size_ ≤ i → i < v.size_ + (desired_size - v.size_) →
      init_func i = .ok (g i) := fun i h1 h2 => hinit i h1 (by omega)
  by_cases hin : desired_size ≤ v.capacity_
  · rcases resize_in_place A v desired_size init_func w hwf hgrow hin with
      ⟨ys, v1, w1, hlen, hok1, heq, -, hs, hc, hel, -⟩ | ⟨ys, e1, w1, hlen, -, herr, -⟩
    · have hys := constructed_values init_func g ys v.size_ _ hlen hok1 hinit1
      refine ⟨?_, fun _ _ => ⟨v1, w1, heq⟩⟩
      intro v2 w2 h2
      rw [heq] at h2
      cases h2
      exact ⟨hs, by rw [hel, hys], fun _ => hc, fun h => absurd hin (by omega)⟩
    · exact (no_failure init_func g v.size_ desired_size ys.length e1 hlen hinit herr).elim
  · rcases resize_realloc A v desired_size init_func w hwf (by omega) with
      ⟨hnone, hdiv⟩ | ⟨c, hc, hrest⟩
    · refine ⟨?_, ?_⟩
      · intro v2 w2 h2
        rw [hdiv] at h2
        cases h2
      · intro hcap _
        obtain ⟨c, hc, -⟩ := calculate_capacity_total desired_size hcap
        rw [hc] at hnone
        cases hnone
    · rcases hrest with ⟨e1, w1, hthrows, heq⟩ | ⟨-, hrest⟩
      · refine ⟨?_, ?_⟩
        · intro v2 w2 h2
          rw [heq] at h2
          cases h2
        · intro _ halloc
          rw [halloc (by omega) c hc] at hthrows
          cases hthrows
      · rcases hrest with ⟨ys, v1, w1, hlen, hok1, heq, -, hs, hcp, hel, -⟩ |
          ⟨ys, e1, w1, hlen, -, herr, -⟩
        · have hys := constructed_values init_func g ys v.size_ _ hlen hok1 hinit1
          refine ⟨?_, fun _ _ => ⟨v1, w1, heq⟩⟩
          intro v2 w2 h2
          rw [heq] at h2
          cases h2
          exact ⟨hs, by rw [hel, hys], fun h => absurd h hin, fun _ => by rw [hc, hcp]⟩
        · exact (no_failure init_func g v.size_ desired_size ys.length e1 hlen hinit herr).elim

/-- Witness of C9: the five-element container of the tests (capacity 8) resized to 9 with
default-constructed elements (reallocation to capacity 16) and to 7 with copies of 50 (no
reallocation); and the container left by `resize(2)` of that container, grown again to 4:
the slots that held 12 and 13 now hold default-constructed elements. -/
theorem resize_grows_witness :
    (∃ v1 w1, (vector.holding 0 [10, 11, 12, 13, 14] 8).resize_n Element.obj
        Allocator.unlimited 9 World.initial = .returns (v1, w1) ∧
      v1.size_ = 9 ∧ v1.elements = [10, 11, 12, 13, 14, 100, 100, 100, 100] ∧
      v1.capacity_ = 16) ∧
    (∃ v1 w1, (vector.holding 0 [10, 11, 12, 13, 14] 8).resize_element Element.obj
        Allocator.unlimited 7 50 World.initial = .returns (v1, w1) ∧
      v1.size_ = 7 ∧ v1.elements = [10, 11, 12, 13, 14, 50, 50] ∧ v1.capacity_ = 8) ∧
    (∃ v0 w0 v1 w1, (vector.holding 0 [10, 11, 12, 13, 14] 8).resize_n Element.obj
        Allocator.unlimited 2 World.initial = .returns (v0, w0) ∧
      v0.resize_n Element.obj Allocator.unlimited 4 w0 = .returns (v1, w1) ∧
      v1.size_ = 4 ∧ v1.elements = [10, 11, 100, 100] ∧ v1.capacity_ = 8) := by
  have hwf := WF_holding 0 [10, 11, 12, 13, 14] 8 (by decide) (by decide)
    (Or.inr ⟨3, by decide, by decide⟩)
  refine ⟨?_, ?_, ?_⟩
  · have h := resize_grows Allocator.unlimited (vector.holding 0 [10, 11, 12, 13, 14] 8)
      World.initial 9 (fun _ => Element.obj.default_ctor) (fun _ => 100) hwf (by decide)
      (fun _ _ _ => rfl)
    obtain ⟨v1, w1, heq⟩ := h.2 (by decide) (fun _ _ _ => rfl)
    obtain ⟨h1, h2, -, h4⟩ := h.1 v1 w1 heq
    refine ⟨v1, w1, heq, h1, h2, ?_⟩
    have h5 := h4 (by decide)
    have h6 : calculate_capacity 9 = some 16 := by decide
    rw [h6] at h5
    exact (Option.some.inj h5).symm
  · have h := resize_grows Allocator.unlimited (vector.holding 0 [10, 11, 12, 13, 14] 8)
      World.initial 7 (fun _ => Element.obj.copy_ctor 50) (fun _ => 50) hwf (by decide)
      (fun _ _ _ => rfl)
    obtain ⟨v1, w1, heq⟩ := h.2 (by decide) (fun _ _ _ => rfl)
    obtain ⟨h1, h2, h3, -⟩ := h.1 v1 w1 heq
    exact ⟨v1, w1, heq, h1, h2, h3 (by decide)⟩
  · have hwf0 := WF_holding 0 [10, 11] 8 (by decide) (by decide)
      (Or.inr ⟨3, by decide, by decide⟩)
    have h := resize_grows Allocator.unlimited (vector.holding 0 [10, 11] 8)
      ⟨0, [Event.destruct 0 2, Event.destruct 0 3, Event.destruct 0 4]⟩ 4
      (fun _ => Element.obj.default_ctor) (fun _ => 100) hwf0 (by decide)
      (fun _ _ _ => rfl)
    obtain ⟨v1, w1, heq⟩ := h.2 (by decide) (fun _ _ _ => rfl)
    obtain ⟨h1, h2, h3, -⟩ := h.1 v1 w1 heq
    exact ⟨vector.holding 0 [10, 11] 8, _, v1, w1, by decide, heq, h1, h2, h3 (by decide)⟩

/-! ## Proofs: push_back -/

theorem increase_capacity_spec (A : Allocator ε) (v : vector T) (nc : Nat) (w : World)
    (hwf : v.WF) (hnc0 : nc ≠ 0) (hle : v.size_ ≤ nc) :
    (∃ (e : ε) (w1 : World), A.allocate_throws w nc = some e ∧
      v.increase_capacity A nc w = .throws e (v, w1)) ∨
    (A.allocate_throws w nc = none ∧
      ∃ w1, v.increase_capacity A nc w =
        .returns (⟨some ⟨w.next_handle,
                    v.elements.map some ++ List.replicate (nc - v.size_) none⟩,
                  v.capacity_, v.size_⟩, w1)) := by
  cases ha : A.allocate_throws w nc with
  | some e =>
    left
    exact ⟨e, w.record (Event.allocate_throws nc), rfl,
      by simp only [vector.increase_capacity, alloc, hnc0, if_false, ha]⟩
  | none =>
    right
    refine ⟨rfl, ?_⟩
    have hsplit : List.replicate nc (none : Option T)
        = List.replicate v.size_ none ++ List.replicate (nc - v.size_) none := by
      rw [List.append_replicate_replicate]
      congr 1
      omega
    have hmove := construct_section_move_all v hwf w.next_handle
      (List.replicate v.size_ none) (List.replicate (nc - v.size_) none)
      ⟨w.next_handle + 1, w.log ++ [Event.allocate nc w.next_handle]⟩ (by simp)
    obtain ⟨data1, w4, hdes, -, -⟩ := destruct_all v hwf
      ⟨w.next_handle + 1,
        w.log ++ [Event.allocate nc w.next_handle] ++
          (List.range' 0 v.size_).map (Event.move_construct w.next_handle)⟩
    refine ⟨dealloc data1 v.capacity_ w4, ?_⟩
    simp only [vector.increase_capacity, alloc, hnc0, if_false, ha, hsplit, hmove, hdes]

theorem increase_capacity_zero (A : Allocator ε) (v : vector T) (w : World)
    (hsize : v.size_ ≠ 0) :
    v.increase_capacity A 0 w = .undefined := by
  obtain ⟨n, hn⟩ : ∃ n, v.size_ = n + 1 := ⟨v.size_ - 1, by omega⟩
  simp only [vector.increase_capacity, alloc, if_true, vector.construct_section_move,
    Nat.sub_zero, hn, construct_section_move_loop]
  cases read_at v.data_ 0 with
  | none => rfl
  | some x => simp [construct_at]

theorem push_back_place_spec (v : vector T) (h : Nat) (xs : List T) (k nc : Nat) (x : T)
    (w : World) (hdata : v.data_ = some ⟨h, xs.map some ++ List.replicate (k + 1) none⟩)
    (hsize : v.size_ = xs.length) :
    (v.push_back_place nc x w : Outcome ε (vector T × World) (vector T × World)) =
      .returns (⟨some ⟨h, (xs ++ [x]).map some ++ List.replicate k none⟩, nc,
                 (xs.length + 1) % SIZE_T_MOD⟩,
                w.record (Event.move_construct h xs.length)) := by
  have hlt : xs.length < (xs.map some ++ List.replicate (k + 1) (none : Option T)).length := by
    simp
  have hset : (xs.map some ++ List.replicate (k + 1) (none : Option T)).set xs.length (some x)
      = (xs ++ [x]).map some ++ List.replicate k none := by
    have := set_at_length (xs.map some) (none : Option T) (some x) (List.replicate k none)
    simp only [List.length_map] at this
    rw [List.replicate_succ, this]
    simp
  simp only [vector.push_back_place, hdata, hsize, construct_at, hlt, if_true, hset]

theorem doubled_capacity (c : Nat) (hpow : c = 0 ∨ ∃ j, j < 64 ∧ c = 2 ^ j) (hlt : c < 2 ^ 63) :
    (if c ≠ 0 then c * 2 % SIZE_T_MOD else 1) = max 1 (2 * c) ∧
    max 1 (2 * c) ≠ 0 ∧ c < max 1 (2 * c) ∧
    (max 1 (2 * c) = 0 ∨ ∃ j, j < 64 ∧ max 1 (2 * c) = 2 ^ j) := by
  rcases hpow with h0 | ⟨j, hj, rfl⟩
  · subst h0
    exact ⟨by simp, by simp, by simp, Or.inr ⟨0, by norm_num, by simp⟩⟩
  · have hpos : 0 < 2 ^ j := Nat.pos_pow_of_pos j (by norm_num)
    have hj63 : j < 63 := (Nat.pow_lt_pow_iff_right (by norm_num)).mp hlt
    have hmax : max 1 (2 * 2 ^ j) = 2 ^ (j + 1) := by
      rw [pow_succ]
      omega
    have hmod : 2 ^ j * 2 % SIZE_T_MOD = 2 ^ (j + 1) := by
      rw [← pow_succ]
      exact Nat.mod_eq_of_lt (Nat.pow_lt_pow_right (by norm_num) (by omega))
    refine ⟨?_, by omega, by omega, Or.inr ⟨j + 1, by omega, hmax⟩⟩
    rw [if_pos (by omega), hmod, hmax]

theorem push_back_move_spec (A : Allocator ε) (v : vector T) (x : T) (w : World)
    (hwf : v.WF) :
    (v.size_ = v.capacity_ ∧ v.capacity_ = 2 ^ 63 ∧ v.push_back_move A x w = .undefined) ∨
    (∃ (e : ε) (w1 : World), v.size_ = v.capacity_ ∧ v.capacity_ < 2 ^ 63 ∧
      A.allocate_throws w (max 1 (2 * v.capacity_)) = some e ∧
      v.push_back_move A x w = .throws e (v, w1)) ∨
    (∃ (v1 : vector T) (w1 : World), v.push_back_move A x w = .returns (v1, w1) ∧ v1.WF ∧
      v1.size_ = v.size_ + 1 ∧ v1.elements = v.elements ++ [x] ∧
      (v.size_ < v.capacity_ → v1.capacity_ = v.capacity_ ∧
        ∃ h, v.data_.map Buffer.handle = some h ∧ v1.data_.map Buffer.handle = some h ∧
          w1 = w.record (Event.move_construct h v.size_)) ∧
      (v.size_ = v.capacity_ → v.capacity_ < 2 ^ 63 ∧ v1.capacity_ = max 1 (2 * v.capacity_) ∧
        A.allocate_throws w (max 1 (2 * v.capacity_)) = none)) := by
  have hpow := hwf.capacity_pow2
  have hle := hwf.size_le_capacity
  have hcap := capacity_le_of_pow2 _ hpow
  have hmodlt : (2 : Nat) ^ 63 < SIZE_T_MOD := by decide
  by_cases hfull : v.size_ = v.capacity_
  · by_cases h63 : v.capacity_ = 2 ^ 63
    · left
      refine ⟨hfull, h63, ?_⟩
      have hnc : (if v.capacity_ ≠ 0 then v.capacity_ * 2 % SIZE_T_MOD else 1) = 0 := by
        rw [h63]
        decide
      have hs : v.size_ ≠ 0 := by
        rw [hfull, h63]
        decide
      simp only [vector.push_back_move, hfull, if_true, hnc]
      rw [increase_capacity_zero A v w hs]
    · have hlt : v.capacity_ < 2 ^ 63 := by omega
      obtain ⟨hnc, hnc0, hgt, hncpow⟩ := doubled_capacity v.capacity_ hpow hlt
      have hncle := capacity_le_of_pow2 _ hncpow
      rcases increase_capacity_spec A v (max 1 (2 * v.capacity_)) w hwf hnc0 (by omega) with
        ⟨e, w1, ha, heq⟩ | ⟨ha, w1, heq⟩
      · right; left
        refine ⟨e, w1, hfull, hlt, ha, ?_⟩
        rw [vector.push_back_move, if_pos hfull]
        simp only [hnc]
        rw [heq]
      · right; right
        obtain ⟨k, hk⟩ : ∃ k, max 1 (2 * v.capacity_) - v.size_ = k + 1 :=
          ⟨max 1 (2 * v.capacity_) - v.size_ - 1, by omega⟩
        have hel := elements_length v hwf
        have hplace := push_back_place_spec (ε := ε)
          (⟨some ⟨w.next_handle, v.elements.map some ++
              List.replicate (max 1 (2 * v.capacity_) - v.size_) none⟩,
            v.capacity_, v.size_⟩ : vector T)
          w.next_handle v.elements k (max 1 (2 * v.capacity_)) x w1 (by rw [hk]) hel.symm
        have hsz : (v.elements.length + 1) % SIZE_T_MOD = v.size_ + 1 := by
          rw [hel]
          exact Nat.mod_eq_of_lt (by omega)
        rw [hsz] at hplace
        have hveq := vector_eq_of_buffer w.next_handle (v.elements ++ [x])
          (max 1 (2 * v.capacity_)) (v.size_ + 1)
          ((v.elements ++ [x]).map some ++ List.replicate k none)
          (by simp [hel]) (by
            congr 2
            simp only [List.length_append, List.length_singleton, hel]
            omega)
        refine ⟨⟨some ⟨w.next_handle, (v.elements ++ [x]).map some ++ List.replicate k none⟩,
            max 1 (2 * v.capacity_), v.size_ + 1⟩,
          w1.record (Event.move_construct w.next_handle v.elements.length),
          ?_, ?_, rfl, ?_, fun h => absurd hfull (by omega), fun _ => ⟨hlt, rfl, ha⟩⟩
        · rw [vector.push_back_move, if_pos hfull]
          simp only [hnc]
          rw [heq]
          exact hplace
        · rw [hveq]
          exact WF_of_buffer _ _ _ (by simp [hel]; omega) hnc0 hncpow
        · rw [hveq, elements_of_buffer]
  · right; right
    have hlt : v.size_ < v.capacity_ := by omega
    rcases WF_cases v hwf with ⟨_, hc0, _, _⟩ | ⟨h, xs, hc0, hlen, hel, hdata⟩
    · omega
    · obtain ⟨k, hk⟩ : ∃ k, v.capacity_ - v.size_ = k + 1 :=
        ⟨v.capacity_ - v.size_ - 1, by omega⟩
      have hplace := push_back_place_spec (ε := ε) v h xs k v.capacity_ x w
        (by rw [hdata, hk]) hlen.symm
      have hsz : (xs.length + 1) % SIZE_T_MOD = v.size_ + 1 := by
        rw [hlen]
        exact Nat.mod_eq_of_lt (by omega)
      rw [hsz] at hplace
      have hveq := vector_eq_of_buffer h (xs ++ [x]) v.capacity_ (v.size_ + 1)
        ((xs ++ [x]).map some ++ List.replicate k none)
        (by simp [hlen]) (by
          congr 2
          simp only [List.length_append, List.length_singleton, hlen]
          omega)
      refine ⟨⟨some ⟨h, (xs ++ [x]).map some ++ List.replicate k none⟩, v.capacity_,
          v.size_ + 1⟩, w.record (Event.move_construct h xs.length),
        ?_, ?_, rfl, ?_, fun _ => ⟨rfl, h, by rw [hdata]; rfl, rfl, by rw [hlen]⟩,
        fun h => absurd h hfull⟩
      · rw [vector.push_back_move, if_neg hfull]
        exact hplace
      · rw [hveq]
        exact WF_of_buffer _ _ _ (by simp [hlen]; omega) hc0 hpow
      · rw [hveq, elements_of_buffer, hel]

theorem calculate_capacity_eq (n k : Nat) (hk : k < 64) (h1 : 1 ≤ n) (hle : n ≤ 2 ^ k)
    (hhalf : 2 ^ k / 2 < n) : calculate_capacity n = some (2 ^ k) := by
  have h63 : 2 ^ k ≤ 2 ^ 63 := Nat.pow_le_pow_right (by norm_num) (by omega)
  obtain ⟨k1, -, heq, hle1, hhalf1⟩ := calculate_capacity_spec n h1 (by omega)
  have ha := pow2_minimal k k1 n hle1 hhalf
  have hb := pow2_minimal k1 k n hle hhalf1
  rw [heq]
  congr 1
  omega

theorem calculate_capacity_succ_full (c : Nat) (hpow : c = 0 ∨ ∃ j, j < 64 ∧ c = 2 ^ j)
    (hlt : c < 2 ^ 63) : calculate_capacity (c + 1) = some (max 1 (2 * c)) := by
  rcases hpow with h0 | ⟨j, hj, rfl⟩
  · subst h0
    decide
  · have hpos : 0 < 2 ^ j := Nat.pos_pow_of_pos j (by norm_num)
    have hj63 : j < 63 := (Nat.pow_lt_pow_iff_right (by norm_num)).mp hlt
    have hmax : max 1 (2 * 2 ^ j) = 2 ^ (j + 1) := by
      rw [pow_succ]
      omega
    rw [hmax]
    apply calculate_capacity_eq _ _ (by omega) (by omega)
    · rw [pow_succ]
      omega
    · rw [pow_succ, Nat.mul_div_cancel _ (by norm_num)]
      omega

theorem calculate_capacity_succ_room (n c : Nat) (h : calculate_capacity n = some c)
    (hlt : n < c) : calculate_capacity (n + 1) = some c := by
  obtain ⟨hn, hle, hpow, h0⟩ := calculate_capacity_some n c h
  have hn1 : 1 ≤ n := by
    by_contra hcon
    have : n = 0 := by omega
    have := h0.mpr this
    omega
  obtain ⟨k, hk, heq, hle1, hhalf⟩ := calculate_capacity_spec n hn1 hn
  rw [h] at heq
  cases heq
  exact calculate_capacity_eq (n + 1) k hk (by omega) (by omega) (by omega)

theorem push_back_copy_spec (E : Element T ε) (A : Allocator ε) (v : vector T) (x : T)
    (w : World) (hwf : v.WF) :
    (v.size_ = v.capacity_ ∧ v.capacity_ = 2 ^ 63 ∧ v.push_back_copy E A x w = .diverges) ∨
    (∃ (e : ε) (w1 : World), v.size_ = v.capacity_ ∧ v.capacity_ < 2 ^ 63 ∧
      A.allocate_throws w (max 1 (2 * v.capacity_)) = some e ∧
      v.push_back_copy E A x w = .throws e (v, w1)) ∨
    (∃ (e : ε) (w1 : World), E.copy_ctor x = .error e ∧
      (v.size_ = v.capacity_ → v.capacity_ < 2 ^ 63 ∧
        A.allocate_throws w (max 1 (2 * v.capacity_)) = none) ∧
      v.push_back_copy E A x w = .throws e (v, w1)) ∨
    (∃ (y : T) (v1 : vector T) (w1 : World), E.copy_ctor x = .ok y ∧
      v.push_back_copy E A x w = .returns (v1, w1) ∧ v1.WF ∧
      v1.size_ = v.size_ + 1 ∧ v1.elements = v.elements ++ [y] ∧
      (v.size_ < v.capacity_ → v1.capacity_ = v.capacity_ ∧
        v1.data_.map Buffer.handle = v.data_.map Buffer.handle) ∧
      (v.size_ = v.capacity_ → v.capacity_ < 2 ^ 63 ∧ v1.capacity_ = max 1 (2 * v.capacity_) ∧
        A.allocate_throws w (max 1 (2 * v.capacity_)) = none)) := by
  have hpow := hwf.capacity_pow2
  have hle := hwf.size_le_capacity
  have hcap := capacity_le_of_pow2 _ hpow
  have hmodlt : (2 : Nat) ^ 63 + 1 < SIZE_T_MOD := by decide
  have hd : (v.size_ + 1) % SIZE_T_MOD = v.size_ + 1 := Nat.mod_eq_of_lt (by omega)
  have hunfold : v.push_back_copy E A x w
      = v.resize A (v.size_ + 1) (fun _ => E.copy_ctor x) w := by
    simp only [vector.push_back_copy, vector.resize_element, hd]
  have hsub : v.size_ + 1 - v.size_ = 1 := by omega
  rw [hunfold]
  by_cases hfull : v.size_ = v.capacity_
  · by_cases h63 : v.capacity_ = 2 ^ 63
    · left
      refine ⟨hfull, h63, ?_⟩
      have : calculate_capacity (v.size_ + 1) = none :=
        calculate_capacity_diverges _ (by omega)
      simp only [vector.resize, this]
    · have hlt : v.capacity_ < 2 ^ 63 := by omega
      have hcalc := calculate_capacity_succ_full v.capacity_ hpow hlt
      rw [← hfull] at hcalc
      rcases resize_realloc A v (v.size_ + 1) (fun _ => E.copy_ctor x) w hwf (by omega) with
        ⟨hnone, -⟩ | ⟨c, hc, hrest⟩
      · rw [hcalc] at hnone
        cases hnone
      · rw [hcalc] at hc
        cases hc
        rw [hfull] at hrest
        rcases hrest with ⟨e1, w1, hthrows, heq⟩ | ⟨hnothrow, hrest⟩
        · right; left
          exact ⟨e1, w1, hfull, hlt, hthrows, by rw [hfull]; exact heq⟩
        · rcases hrest with ⟨ys, v1, w1, hlen, hok1, heq, hwf1, hs, hcp, hel, -⟩ |
            ⟨ys, e1, w1, hlen, -, herr, heq⟩
          · right; right; right
            obtain ⟨y, rfl⟩ : ∃ y, ys = [y] := by
              match ys, hlen with
              | [y], _ => exact ⟨y, rfl⟩
              | [], h => simp at h
              | _ :: _ :: _, h => simp at h
            have hy := hok1 0 y rfl
            refine ⟨y, v1, w1, hy, by rw [hfull]; exact heq, hwf1, by rw [hs, hfull], ?_,
              fun h => absurd hfull (by omega), fun _ => ⟨hlt, hcp, hnothrow⟩⟩
            rw [hel]
          · right; right; left
            exact ⟨e1, w1, herr, fun _ => ⟨hlt, hnothrow⟩, by rw [hfull]; exact heq⟩
  · have hlt : v.size_ < v.capacity_ := by omega
    rcases resize_in_place A v (v.size_ + 1) (fun _ => E.copy_ctor x) w hwf (by omega)
        (by omega) with
      ⟨ys, v1, w1, hlen, hok1, heq, hwf1, hs, hcp, hel, hh⟩ | ⟨ys, e1, w1, hlen, -, herr, heq⟩
    · right; right; right
      obtain ⟨y, rfl⟩ : ∃ y, ys = [y] := by
        match ys, hlen with
        | [y], _ => exact ⟨y, rfl⟩
        | [], h => simp at h
        | _ :: _ :: _, h => simp at h
      have hy := hok1 0 y rfl
      exact ⟨y, v1, w1, hy, heq, hwf1, hs, hel, fun _ => ⟨hcp, hh⟩, fun h => absurd h hfull⟩
    · right; right; left
      exact ⟨e1, w1, herr, fun h => absurd h hfull, heq⟩

theorem operator_index_append (v v1 : vector T) (hwf : v.WF) (hwf1 : v1.WF) (ys : List T)
    (hel : v1.elements = v.elements ++ ys) (i : Nat) (hi : i < v.size_) :
    v1.operator_index i = v.operator_index i := by
  have hl := elements_length v hwf
  have hl1 := elements_length v1 hwf1
  have hi1 : i < v1.size_ := by
    rw [← hl1, hel, List.length_append, hl]
    omega
  rw [operator_index_elements v hwf i hi, operator_index_elements v1 hwf1 i hi1, hel,
    List.getElem?_append_left (by omega)]

theorem operator_index_last (v v1 : vector T) (hwf : v.WF) (hwf1 : v1.WF) (x : T)
    (hel : v1.elements = v.elements ++ [x]) : v1.operator_index v.size_ = some x := by
  have hl := elements_length v hwf
  have hl1 := elements_length v1 hwf1
  have hi1 : v.size_ < v1.size_ := by
    rw [← hl1, hel, List.length_append, hl]
    simp
  rw [operator_index_elements v1 hwf1 _ hi1, hel,
    List.getElem?_append_right (by omega), hl]
  simp

/-- C7: `push_back` appends.  For a container `v` satisfying the invariants
and an element `x`: whenever `push_back(T &&)` returns, the size has grown
by one, the old elements are unchanged and in order, `x` is the element at
index `old size`, and the capacity is unchanged if `size < capacity` and
`max(1, 2 * capacity)` if `size == capacity`.  The same holds for
`push_back(const T &)`, with the copy `y` of `x` made by the copy
constructor in place of `x`.  Both calls do return when `allocate` does not
throw (and the copy constructor does not throw) and, for a full container,
`capacity < 2^63`. -/
theorem push_back_appends (E : Element T ε) (A : Allocator ε) (v : vector T) (w : World)
    (x : T) (hwf : v.WF) :
    (∀ v1 w1, v.push_back_move A x w = .returns (v1, w1) →
      v1.size_ = v.size_ + 1 ∧ v1.elements = v.elements ++ [x] ∧
      (∀ i, i < v.size_ → v1.operator_index i = v.operator_index i) ∧
      v1.operator_index v.size_ = some x ∧
      (v.size_ < v.capacity_ → v1.capacity_ = v.capacity_) ∧
      (v.size_ = v.capacity_ → v1.capacity_ = max 1 (2 * v.capacity_))) ∧
    (∀ v1 w1, v.push_back_copy E A x w = .returns (v1, w1) →
      ∃ y, E.copy_ctor x = .ok y ∧
      v1.size_ = v.size_ + 1 ∧ v1.elements = v.elements ++ [y] ∧
      (∀ i, i < v.size_ → v1.operator_index i = v.operator_index i) ∧
      v1.operator_index v.size_ = some y ∧
      (v.size_ < v.capacity_ → v1.capacity_ = v.capacity_) ∧
      (v.size_ = v.capacity_ → v1.capacity_ = max 1 (2 * v.capacity_))) ∧
    ((v.size_ = v.capacity_ →
        v.capacity_ < 2 ^ 63 ∧ A.allocate_throws w (max 1 (2 * v.capacity_)) = none) →
      (∃ v1 w1, v.push_back_move A x w = .returns (v1, w1)) ∧
      (∀ y, E.copy_ctor x = .ok y → ∃ v1 w1, v.push_back_copy E A x w = .returns (v1, w1))) := by
  refine ⟨?_, ?_, ?_⟩
  · intro v2 w2 h2
    rcases push_back_move_spec A v x w hwf with
      ⟨-, -, heq⟩ | ⟨e, w1, -, -, -, heq⟩ | ⟨v1, w1, heq, hwf1, hs, hel, hroom, hfull⟩
    · rw [heq] at h2; cases h2
    · rw [heq] at h2; cases h2
    · rw [heq] at h2
      injection h2 with h2
      injection h2 with hv hw
      subst hv hw
      exact ⟨hs, hel, fun i hi => operator_index_append v v1 hwf hwf1 [x] hel i hi,
        operator_index_last v v1 hwf hwf1 x hel, fun h => (hroom h).1, fun h => (hfull h).2.1⟩
  · intro v2 w2 h2
    rcases push_back_copy_spec E A v x w hwf with
      ⟨-, -, heq⟩ | ⟨e, w1, -, -, -, heq⟩ | ⟨e, w1, -, -, heq⟩ |
      ⟨y, v1, w1, hy, heq, hwf1, hs, hel, hroom, hfull⟩
    · rw [heq] at h2; cases h2
    · rw [heq] at h2; cases h2
    · rw [heq] at h2; cases h2
    · rw [heq] at h2
      injection h2 with h2
      injection h2 with hv hw
      subst hv hw
      exact ⟨y, hy, hs, hel, fun i hi => operator_index_append v v1 hwf hwf1 [y] hel i hi,
        operator_index_last v v1 hwf hwf1 y hel, fun h => (hroom h).1, fun h => (hfull h).2.1⟩
  · intro hreach
    constructor
    · rcases push_back_move_spec A v x w hwf with
        ⟨hf, h63, -⟩ | ⟨e, w1, hf, -, ha, -⟩ | ⟨v1, w1, heq, -⟩
      · have := (hreach hf).1
        omega
      · rw [(hreach hf).2] at ha
        cases ha
      · exact ⟨v1, w1, heq⟩
    · intro y hy
      rcases push_back_copy_spec E A v x w hwf with
        ⟨hf, h63, -⟩ | ⟨e, w1, hf, -, ha, -⟩ | ⟨e, w1, herr, -, -⟩ | ⟨y1, v1, w1, -, heq, -⟩
      · have := (hreach hf).1
        omega
      · rw [(hreach hf).2] at ha
        cases ha
      · rw [hy] at herr
        cases herr
      · exact ⟨v1, w1, heq⟩

/-- Witness of C7: a full container (size 4, capacity 4) and one with room (size 3,
capacity 4), pushed to by move and by copy. -/
theorem push_back_appends_witness :
    (∃ v1 w1, (vector.holding 0 [10, 11, 12, 13] 4).push_back_move Allocator.unlimited 14
        World.initial = .returns (v1, w1) ∧
      v1.size_ = 5 ∧ v1.elements = [10, 11, 12, 13, 14] ∧ v1.capacity_ = 8) ∧
    (∃ v1 w1, (vector.holding 0 [10, 11, 12] 4).push_back_copy Element.obj
        Allocator.unlimited 13 World.initial = .returns (v1, w1) ∧
      v1.size_ = 4 ∧ v1.elements = [10, 11, 12, 13] ∧ v1.capacity_ = 4) := by
  constructor
  · have h := push_back_appends Element.obj Allocator.unlimited
      (vector.holding 0 [10, 11, 12, 13] 4) World.initial 14
      (WF_holding 0 [10, 11, 12, 13] 4 (by decide) (by decide)
        (Or.inr ⟨2, by decide, by decide⟩))
    obtain ⟨v1, w1, heq⟩ := (h.2.2 (fun _ => ⟨by decide, rfl⟩)).1
    obtain ⟨h1, h2, -, -, -, h3⟩ := h.1 v1 w1 heq
    exact ⟨v1, w1, heq, h1, h2, h3 rfl⟩
  · have h := push_back_appends Element.obj Allocator.unlimited
      (vector.holding 0 [10, 11, 12] 4) World.initial 13
      (WF_holding 0 [10, 11, 12] 4 (by decide) (by decide)
        (Or.inr ⟨2, by decide, by decide⟩))
    obtain ⟨v1, w1, heq⟩ := (h.2.2 (fun hf => absurd hf (by decide))).2 13 rfl
    obtain ⟨y, hy, h1, h2, -, -, h3, -⟩ := h.2.1 v1 w1 heq
    cases hy
    exact ⟨v1, w1, heq, h1, h2, h3 (by decide)⟩

/-- C2: strong guarantee of `push_back(const T &)`.  For a container `v`,
full or not, and an element `x` whose copy construction fails with `e` (the
copy constructor is reached: for a full container the capacity is below
`2^63` and `allocate` does not throw): the call throws `e` and leaves the
container exactly as it was: same size, same capacity, same elements. -/
theorem push_back_copy_strong_guarantee (E : Element T ε) (A : Allocator ε) (v : vector T)
    (w : World) (x : T) (e : ε) (hwf : v.WF) (hfail : E.copy_ctor x = .error e)
    (hreach : v.size_ = v.capacity_ →
      v.capacity_ < 2 ^ 63 ∧ A.allocate_throws w (max 1 (2 * v.capacity_)) = none) :
    ∃ v1 w1, v.push_back_copy E A x w = .throws e (v1, w1) ∧
      v1.size_ = v.size_ ∧ v1.capacity_ = v.capacity_ ∧ v1.elements = v.elements ∧
      v1 = v := by
  rcases push_back_copy_spec E A v x w hwf with
    ⟨hf, h63, -⟩ | ⟨e1, w1, hf, -, ha, -⟩ | ⟨e1, w1, herr, -, heq⟩ | ⟨y, v1, w1, hy, -⟩
  · have := (hreach hf).1
    omega
  · rw [(hreach hf).2] at ha
    cases ha
  · rw [hfail] at herr
    cases herr
    exact ⟨v, w1, heq, rfl, rfl, rfl, rfl⟩
  · rw [hfail] at hy
    cases hy

/-- Witness of C2: the test of `vector_test.cpp` (size 4, capacity 4, the pushed object
cannot be copied), and the same with room left (size 3, capacity 4). -/
theorem push_back_copy_strong_guarantee_witness :
    (∃ w1, (vector.holding 0 [1, 1, 1, 1] 4).push_back_copy (Element.throwing fun x => x != 0)
        Allocator.unlimited 0 World.initial =
      .throws Failure.artificial_exception (vector.holding 0 [1, 1, 1, 1] 4, w1)) ∧
    (∃ w1, (vector.holding 0 [1, 1, 1] 4).push_back_copy (Element.throwing fun x => x != 0)
        Allocator.unlimited 0 World.initial =
      .throws Failure.artificial_exception (vector.holding 0 [1, 1, 1] 4, w1)) := by
  constructor
  · obtain ⟨v1, w1, h, -, -, -, rfl⟩ := push_back_copy_strong_guarantee
      (Element.throwing fun x => x != 0) Allocator.unlimited
      (vector.holding 0 [1, 1, 1, 1] 4) World.initial 0 Failure.artificial_exception
      (WF_holding 0 [1, 1, 1, 1] 4 (by decide) (by decide)
        (Or.inr ⟨2, by decide, by decide⟩)) rfl (fun _ => ⟨by decide, rfl⟩)
    exact ⟨w1, h⟩
  · obtain ⟨v1, w1, h, -, -, -, rfl⟩ := push_back_copy_strong_guarantee
      (Element.throwing fun x => x != 0) Allocator.unlimited
      (vector.holding 0 [1, 1, 1] 4) World.initial 0 Failure.artificial_exception
      (WF_holding 0 [1, 1, 1] 4 (by decide) (by decide)
        (Or.inr ⟨2, by decide, by decide⟩)) rfl (fun hf => absurd hf (by decide))
    exact ⟨w1, h⟩

theorem push_back_step (E : Element T ε) (A : Allocator ε) (v : vector T) (p : Push T)
    (w : World) (v1 : vector T) (w1 : World) (hwf : v.WF)
    (hcap : calculate_capacity v.size_ = some v.capacity_)
    (h : v.push_back E A p w = .returns (v1, w1)) :
    v1.WF ∧ calculate_capacity v1.size_ = some v1.capacity_ ∧ v1.size_ = v.size_ + 1 := by
  have hpow := hwf.capacity_pow2
  have hle := hwf.size_le_capacity
  have key : ∀ (hs : v1.size_ = v.size_ + 1)
      (hroom : v.size_ < v.capacity_ → v1.capacity_ = v.capacity_)
      (hfull : v.size_ = v.capacity_ →
        v.capacity_ < 2 ^ 63 ∧ v1.capacity_ = max 1 (2 * v.capacity_)),
      calculate_capacity v1.size_ = some v1.capacity_ := by
    intro hs hroom hfull
    rw [hs]
    by_cases hf : v.size_ = v.capacity_
    · obtain ⟨hlt, hc⟩ := hfull hf
      rw [hc, hf]
      exact calculate_capacity_succ_full v.capacity_ hpow hlt
    · rw [hroom (by omega)]
      exact calculate_capacity_succ_room v.size_ v.capacity_ hcap (by omega)
  cases p with
  | by_move x =>
    rcases push_back_move_spec A v x w hwf with
      ⟨-, -, heq⟩ | ⟨e, w2, -, -, -, heq⟩ | ⟨v2, w2, heq, hwf2, hs, -, hroom, hfull⟩
    · rw [vector.push_back, heq] at h; cases h
    · rw [vector.push_back, heq] at h; cases h
    · rw [vector.push_back, heq] at h
      injection h with h
      injection h with hv hw
      subst hv hw
      exact ⟨hwf2, key hs (fun h => (hroom h).1) (fun h => ⟨(hfull h).1, (hfull h).2.1⟩), hs⟩
  | by_copy x =>
    rcases push_back_copy_spec E A v x w hwf with
      ⟨-, -, heq⟩ | ⟨e, w2, -, -, -, heq⟩ | ⟨e, w2, -, -, heq⟩ |
      ⟨y, v2, w2, -, heq, hwf2, hs, -, hroom, hfull⟩
    · rw [vector.push_back, heq] at h; cases h
    · rw [vector.push_back, heq] at h; cases h
    · rw [vector.push_back, heq] at h; cases h
    · rw [vector.push_back, heq] at h
      injection h with h
      injection h with hv hw
      subst hv hw
      exact ⟨hwf2, key hs (fun h => (hroom h).1) (fun h => ⟨(hfull h).1, (hfull h).2.1⟩), hs⟩

theorem push_back_all_invariant (E : Element T ε) (A : Allocator ε) (pushes : List (Push T)) :
    ∀ (v : vector T) (w : World) (v1 : vector T) (w1 : World), v.WF →
      calculate_capacity v.size_ = some v.capacity_ →
      vector.push_back_all E A pushes v w = .returns (v1, w1) →
      v1.WF ∧ calculate_capacity v1.size_ = some v1.capacity_ ∧
        v1.size_ = v.size_ + pushes.length := by
  induction pushes with
  | nil =>
    intro v w v1 w1 hwf hcap h
    rw [vector.push_back_all] at h
    injection h with h
    injection h with hv hw
    subst hv hw
    exact ⟨hwf, hcap, rfl⟩
  | cons p rest ih =>
    intro v w v1 w1 hwf hcap h
    rw [vector.push_back_all] at h
    cases hstep : v.push_back E A p w with
    | returns r =>
      obtain ⟨v2, w2⟩ := r
      rw [hstep] at h
      obtain ⟨hwf2, hcap2, hs2⟩ := push_back_step E A v p w v2 w2 hwf hcap hstep
      obtain ⟨hwf1, hcap1, hs1⟩ := ih v2 w2 v1 w1 hwf2 hcap2 h
      refine ⟨hwf1, hcap1, ?_⟩
      rw [hs1, hs2, List.length_cons]
      omega
    | throws e s => rw [hstep] at h; cases h
    | undefined => rw [hstep] at h; cases h
    | diverges => rw [hstep] at h; cases h

theorem push_back_returns (E : Element T ε) (A : Allocator ε) (v : vector T) (p : Push T)
    (w : World) (hwf : v.WF)
    (hreach : v.size_ = v.capacity_ →
      v.capacity_ < 2 ^ 63 ∧ A.allocate_throws w (max 1 (2 * v.capacity_)) = none)
    (hcopy : ∀ x, ∃ y, E.copy_ctor x = .ok y) :
    ∃ v1 w1, v.push_back E A p w = .returns (v1, w1) := by
  cases p with
  | by_move x =>
    rcases push_back_move_spec A v x w hwf with
      ⟨hf, h63, -⟩ | ⟨e, w1, hf, -, ha, -⟩ | ⟨v1, w1, heq, -⟩
    · have := (hreach hf).1
      omega
    · rw [(hreach hf).2] at ha
      cases ha
    · exact ⟨v1, w1, heq⟩
  | by_copy x =>
    obtain ⟨y, hy⟩ := hcopy x
    rcases push_back_copy_spec E A v x w hwf with
      ⟨hf, h63, -⟩ | ⟨e, w1, hf, -, ha, -⟩ | ⟨e, w1, herr, -, -⟩ | ⟨y1, v1, w1, -, heq, -⟩
    · have := (hreach hf).1
      omega
    · rw [(hreach hf).2] at ha
      cases ha
    · rw [hy] at herr
      cases herr
    · exact ⟨v1, w1, heq⟩

theorem push_back_all_returns (E : Element T ε) (A : Allocator ε)
    (halloc : ∀ w c, A.allocate_throws w c = none)
    (hcopy : ∀ x, ∃ y, E.copy_ctor x = .ok y) (pushes : List (Push T)) :
    ∀ (v : vector T) (w : World), v.WF → calculate_capacity v.size_ = some v.capacity_ →
      v.size_ + pushes.length ≤ 2 ^ 63 →
      ∃ v1 w1, vector.push_back_all E A pushes v w = .returns (v1, w1) := by
  induction pushes with
  | nil => intro v w _ _ _; exact ⟨v, w, rfl⟩
  | cons p rest ih =>
    intro v w hwf hcap hlen
    have hle := hwf.size_le_capacity
    rw [List.length_cons] at hlen
    have hreach : v.size_ = v.capacity_ →
        v.capacity_ < 2 ^ 63 ∧ A.allocate_throws w (max 1 (2 * v.capacity_)) = none :=
      fun hf => ⟨by omega, halloc _ _⟩
    have hstep : ∃ v2 w2, v.push_back E A p w = .returns (v2, w2) :=
      push_back_returns E A v p w hwf hreach hcopy
    obtain ⟨v2, w2, hstep⟩ := hstep
    obtain ⟨hwf2, hcap2, hs2⟩ := push_back_step E A v p w v2 w2 hwf hcap hstep
    obtain ⟨v1, w1, h1⟩ := ih v2 w2 hwf2 hcap2 (by omega)
    exact ⟨v1, w1, by rw [vector.push_back_all, hstep]; exact h1⟩

/-- C8: capacity sequence of pushes from empty.  Starting from a
default-constructed container, whenever a run of `k` `push_back` calls (by
move or by copy, in any mix) returns, the container has `size() = k` and
`capacity() = calculate_capacity(k)`; for `k = 1, ..., 5` these capacities
are `1, 2, 4, 4, 8`.  Such a run does return when `k <= 2^63` and neither
`allocate` nor the copy constructor throws. -/
theorem push_back_capacity_sequence (E : Element T ε) (A : Allocator ε)
    (pushes : List (Push T)) (w : World) :
    (∀ v1 w1, vector.push_back_all E A pushes vector.vector_default w = .returns (v1, w1) →
      v1.size_ = pushes.length ∧ calculate_capacity pushes.length = some v1.capacity_) ∧
    ((∀ w c, A.allocate_throws w c = none) → (∀ x, ∃ y, E.copy_ctor x = .ok y) →
      pushes.length ≤ 2 ^ 63 →
      ∃ v1 w1, vector.push_back_all E A pushes vector.vector_default w = .returns (v1, w1)) ∧
    [1, 2, 3, 4, 5].map calculate_capacity = [some 1, some 2, some 4, some 4, some 8] := by
  refine ⟨?_, ?_, by decide⟩
  · intro v1 w1 h
    obtain ⟨-, hcap, hs⟩ := push_back_all_invariant E A pushes vector.vector_default w v1 w1
      WF_null rfl h
    have hs1 : v1.size_ = pushes.length := by
      rw [hs]
      exact Nat.zero_add _
    rw [hs1] at hcap
    exact ⟨hs1, hcap⟩
  · intro halloc hcopy hlen
    exact push_back_all_returns E A halloc hcopy pushes vector.vector_default w WF_null rfl
      (by
        show 0 + pushes.length ≤ 2 ^ 63
        omega)

/-- Witness of C8: the five pushes of the test `push_back moves`, and a mixed run of
three pushes; the capacities after 1, ..., 5 pushes are 1, 2, 4, 4, 8. -/
theorem push_back_capacity_sequence_witness :
    (∃ v1 w1, vector.push_back_all Element.obj Allocator.unlimited
        [.by_move 10, .by_move 11, .by_move 12, .by_move 13, .by_move 14]
        vector.vector_default World.initial = .returns (v1, w1) ∧
      v1.size_ = 5 ∧ v1.capacity_ = 8) ∧
    (∃ v1 w1, vector.push_back_all Element.obj Allocator.unlimited
        [.by_copy 10, .by_move 11, .by_copy 12]
        vector.vector_default World.initial = .returns (v1, w1) ∧
      v1.size_ = 3 ∧ v1.capacity_ = 4) := by
  constructor
  · have h := push_back_capacity_sequence Element.obj Allocator.unlimited
      [.by_move 10, .by_move 11, .by_move 12, .by_move 13, .by_move 14] World.initial
    obtain ⟨v1, w1, heq⟩ := h.2.1 (fun _ _ => rfl) (fun x => ⟨x, rfl⟩) (by decide)
    obtain ⟨h1, h2⟩ := h.1 v1 w1 heq
    have h3 : calculate_capacity 5 = some 8 := by decide
    exact ⟨v1, w1, heq, h1, (Option.some.inj (h3.symm.trans h2)).symm⟩
  · have h := push_back_capacity_sequence Element.obj Allocator.unlimited
      [.by_copy 10, .by_move 11, .by_copy 12] World.initial
    obtain ⟨v1, w1, heq⟩ := h.2.1 (fun _ _ => rfl) (fun x => ⟨x, rfl⟩) (by decide)
    obtain ⟨h1, h2⟩ := h.1 v1 w1 heq
    have h3 : calculate_capacity 3 = some 4 := by decide
    exact ⟨v1, w1, heq, h1, (Option.some.inj (h3.symm.trans h2)).symm⟩

/-! ## Proofs: copy and move -/

/-- On a well-formed source the loop of the copy constructor is the loop of
`construct_section` for the initializer that copies `other[index]`. -/
theorem copy_loop_eq (E : Element T ε) (other : vector T) (hwf : other.WF) (count : Nat) :
    ∀ (data : Ptr T) (index : Nat) (w : World), index + count ≤ other.size_ →
      copy_loop E other count data index w =
        construct_section_loop
          (fun i => match other.operator_index i with
            | some x => E.copy_ctor x
            | none => E.default_ctor) count data index w := by
  induction count with
  | zero => intro data index w _; rfl
  | succ count ih =>
    intro data index w hle
    have hi : index < other.size_ := by omega
    have hl := elements_length other hwf
    obtain ⟨x, hx⟩ : ∃ x, other.operator_index index = some x := by
      rw [operator_index_elements other hwf index hi]
      exact ⟨other.elements[index], by simp [List.getElem?_eq_getElem, hl, hi]⟩
    cases data with
    | none => simp [copy_loop, construct_section_loop, hx]
    | some b =>
      by_cases hb : index < b.slots.length
      · simp only [copy_loop, construct_section_loop, hx, hb, if_true]
        cases E.copy_ctor x with
        | error e => rfl
        | ok y => exact ih _ _ _ (by omega)
      · simp [copy_loop, construct_section_loop, hx, hb]

theorem copy_init_ok (E : Element T ε) (other : vector T) (hwf : other.WF) (i : Nat)
    (hi : i < other.size_) (r : Except ε T)
    (h : (match other.operator_index i with
            | some x => E.copy_ctor x
            | none => E.default_ctor) = r) :
    ∃ x, other.elements[i]? = some x ∧ E.copy_ctor x = r := by
  have hl := elements_length other hwf
  rw [operator_index_elements other hwf i hi] at h
  have hx : other.elements[i]? = some other.elements[i] := by
    simp [List.getElem?_eq_getElem, hl, hi]
  rw [hx] at h
  exact ⟨_, hx, h⟩

theorem vector_copy_spec (E : Element T ε) (A : Allocator ε) (other : vector T) (w : World)
    (hwf : other.WF) :
    ∃ c, calculate_capacity other.size_ = some c ∧
      ((∃ (e : ε) (w1 : World), c ≠ 0 ∧ A.allocate_throws w c = some e ∧
          vector.vector_copy E A other w = .throws e w1) ∨
       ((c = 0 ∨ A.allocate_throws w c = none) ∧
        ((∃ (ys : List T) (v1 : vector T) (w1 : World), ys.length = other.size_ ∧
            (∀ (i : Nat) (y : T), ys[i]? = some y →
              ∃ x, other.elements[i]? = some x ∧ E.copy_ctor x = .ok y) ∧
            vector.vector_copy E A other w = .returns (v1, w1) ∧ v1.WF ∧
            v1.size_ = other.size_ ∧ v1.capacity_ = c ∧ v1.elements = ys) ∨
         (∃ (ys : List T) (e : ε) (w1 : World), ys.length < other.size_ ∧
            (∀ (i : Nat) (y : T), ys[i]? = some y →
              ∃ x, other.elements[i]? = some x ∧ E.copy_ctor x = .ok y) ∧
            (∃ x, other.elements[ys.length]? = some x ∧ E.copy_ctor x = .error e) ∧
            vector.vector_copy E A other w = .throws e w1)))) := by
  have hpow := hwf.capacity_pow2
  have hle := hwf.size_le_capacity
  have hcap := capacity_le_of_pow2 _ hpow
  obtain ⟨c, hc, hnc, hcpow, hc0⟩ := calculate_capacity_total other.size_ (by omega)
  refine ⟨c, hc, ?_⟩
  have hloop := fun data w => copy_loop_eq E other hwf other.size_ data 0 w (by omega)
  by_cases hz : c = 0
  · right
    refine ⟨Or.inl hz, Or.inl ⟨[], ⟨none, 0, 0⟩, w, ?_, by simp, ?_, WF_null, ?_, hz.symm, ?_⟩⟩
    · have := hc0.mp hz
      simp [this]
    · have hs := hc0.mp hz
      simp only [vector.vector_copy, hc]
      simp only [hz, alloc, if_true, hs, copy_loop]
    · exact (hc0.mp hz).symm
    · simp [vector.elements]
  · cases ha : A.allocate_throws w c with
    | some e =>
      left
      exact ⟨e, w.record (Event.allocate_throws c), hz, rfl,
        by simp only [vector.vector_copy, hc, alloc, hz, if_false, ha]⟩
    | none =>
      right
      refine ⟨Or.inr rfl, ?_⟩
      have hsplit : List.replicate c (none : Option T)
          = [] ++ (List.replicate other.size_ none ++ List.replicate (c - other.size_) none) := by
        rw [List.nil_append, List.append_replicate_replicate]
        congr 1
        omega
      rcases construct_section_loop_cases
          (fun i => match other.operator_index i with
            | some x => E.copy_ctor x
            | none => E.default_ctor) w.next_handle other.size_ []
          (List.replicate other.size_ none) (List.replicate (c - other.size_) none)
          ⟨w.next_handle + 1, w.log ++ [Event.allocate c w.next_handle]⟩ (by simp) with
        ⟨ys, hys, hok, heq⟩ | ⟨ys, e, hys, hok, herr, heq⟩
      · left
        have hok1 : ∀ (i : Nat) (y : T), ys[i]? = some y →
            ∃ x, other.elements[i]? = some x ∧ E.copy_ctor x = .ok y := by
          intro i y hy
          have hi : i < ys.length := by
            by_contra hcon
            rw [List.getElem?_eq_none (by omega)] at hy
            cases hy
          have := hok i y hy
          simp only [List.length_nil, Nat.zero_add] at this
          exact copy_init_ok E other hwf i (by omega) _ this
        simp only [List.length_nil, List.nil_append] at heq
        have hveq := vector_eq_of_buffer w.next_handle ys c other.size_
          (ys.map some ++ List.replicate (c - other.size_) none) hys.symm (by rw [hys])
        have hres : ∃ w1, vector.vector_copy E A other w =
            .returns (⟨some ⟨w.next_handle,
              ys.map some ++ List.replicate (c - other.size_) none⟩, c, other.size_⟩, w1) := by
          simp only [vector.vector_copy, hc, alloc, hz, if_false, ha, hloop]
          rw [hsplit, List.nil_append, heq]
          exact ⟨_, rfl⟩
        obtain ⟨w1, hw1⟩ := hres
        refine ⟨ys, _, w1, hys, hok1, hw1, ?_, rfl, rfl, ?_⟩
        · rw [hveq]
          exact WF_of_buffer _ ys c (by omega) hz hcpow
        · rw [hveq, elements_of_buffer]
      · right
        have hok1 : ∀ (i : Nat) (y : T), ys[i]? = some y →
            ∃ x, other.elements[i]? = some x ∧ E.copy_ctor x = .ok y := by
          intro i y hy
          have hi : i < ys.length := by
            by_contra hcon
            rw [List.getElem?_eq_none (by omega)] at hy
            cases hy
          have := hok i y hy
          simp only [List.length_nil, Nat.zero_add] at this
          exact copy_init_ok E other hwf i (by omega) _ this
        simp only [List.length_nil, Nat.zero_add, List.nil_append] at heq herr
        have herr1 := copy_init_ok E other hwf ys.length hys _ herr
        have hd := fun w2 => destruct_loop_spec w.next_handle ys []
          ((List.replicate other.size_ (none : Option T)).drop ys.length ++
            List.replicate (c - other.size_) none) w2
        simp only [List.length_nil, List.nil_append] at hd
        have hres : ∃ w1, vector.vector_copy E A other w = .throws e w1 := by
          simp only [vector.vector_copy, hc, alloc, hz, if_false, ha, hloop]
          rw [hsplit, List.nil_append, heq]
          simp only [destruct, Nat.sub_zero]
          rw [hd]
          exact ⟨_, rfl⟩
        obtain ⟨w1, hw1⟩ := hres
        exact ⟨ys, e, w1, hys, hok1, herr1, hw1⟩

theorem clear_spec (v : vector T) (w : World) (hwf : v.WF) :
    ∃ v1 w1, v.clear w = some (v1, w1) ∧ v1.WF ∧ v1.size_ = 0 ∧
      v1.capacity_ = v.capacity_ ∧ v1.elements = [] ∧
      v1.data_.map Buffer.handle = v.data_.map Buffer.handle := by
  have hpow := hwf.capacity_pow2
  obtain ⟨data1, w1, hdes, hh, hsl⟩ := destruct_all v hwf w
  refine ⟨⟨data1, v.capacity_, 0⟩, w1, by simp only [vector.clear, hdes], ?_, rfl, rfl, ?_, hh⟩
  · rcases WF_cases v hwf with ⟨hdata, hc0, -, -⟩ | ⟨h, xs, hc0, -, -, hdata⟩
    · rw [hdata] at hh
      cases data1 with
      | none => rw [hc0]; exact WF_null
      | some b => simp at hh
    · rw [hdata] at hh hsl
      cases data1 with
      | none => simp at hh
      | some b =>
        obtain ⟨bh, bs⟩ := b
        simp only [Option.map_some', Option.some.injEq] at hh hsl
        subst hh hsl
        exact WF_of_buffer bh [] v.capacity_ (Nat.zero_le _) hc0 hpow
  · cases data1 with
    | none => rfl
    | some b => simp [vector.elements, List.reduceOption]

theorem destructor_spec (v : vector T) (w : World) (hwf : v.WF) :
    ∃ w1, v.destructor w = some w1 := by
  obtain ⟨data1, w1, hdes, -, -⟩ := destruct_all v hwf w
  simp only [destruct, Nat.sub_zero] at hdes
  cases data1 with
  | none => exact ⟨w1, by simp only [vector.destructor, hdes]⟩
  | some b => exact ⟨dealloc (some b) v.capacity_ w1, by simp only [vector.destructor, hdes]⟩

theorem assign_move_spec (v other : vector T) (w : World) (hwf : v.WF) :
    ∃ other1 w1, v.assign_move other w = some (other, other1, w1) ∧ other1.WF ∧
      other1.size_ = 0 ∧ other1.capacity_ = v.capacity_ ∧
      other1.data_.map Buffer.handle = v.data_.map Buffer.handle := by
  obtain ⟨v1, w1, hcl, hwf1, hs, hc, -, hh⟩ := clear_spec v w hwf
  exact ⟨v1, w1, by simp only [vector.assign_move, hcl], hwf1, hs, hc, hh⟩

theorem assign_copy_spec (E : Element T ε) (A : Allocator ε) (v other : vector T) (w : World)
    (hv : v.WF) (ho : other.WF) :
    ∃ c, calculate_capacity other.size_ = some c ∧
      ((∃ (e : ε) (w1 : World), c ≠ 0 ∧ A.allocate_throws w c = some e ∧
          v.assign_copy E A other w = .throws e (v, w1)) ∨
       ((c = 0 ∨ A.allocate_throws w c = none) ∧
        ((∃ (ys : List T) (v1 : vector T) (w1 : World), ys.length = other.size_ ∧
            (∀ (i : Nat) (y : T), ys[i]? = some y →
              ∃ x, other.elements[i]? = some x ∧ E.copy_ctor x = .ok y) ∧
            v.assign_copy E A other w = .returns (v1, w1) ∧ v1.WF ∧
            v1.size_ = other.size_ ∧ v1.capacity_ = c ∧ v1.elements = ys) ∨
         (∃ (ys : List T) (e : ε) (w1 : World), ys.length < other.size_ ∧
            (∀ (i : Nat) (y : T), ys[i]? = some y →
              ∃ x, other.elements[i]? = some x ∧ E.copy_ctor x = .ok y) ∧
            (∃ x, other.elements[ys.length]? = some x ∧ E.copy_ctor x = .error e) ∧
            v.assign_copy E A other w = .throws e (v, w1))))) := by
  obtain ⟨c, hc, hrest⟩ := vector_copy_spec E A other w ho
  refine ⟨c, hc, ?_⟩
  rcases hrest with ⟨e, w1, hc0, ha, heq⟩ | ⟨ha, hrest⟩
  · left
    exact ⟨e, w1, hc0, ha, by simp only [vector.assign_copy, heq]⟩
  · right
    refine ⟨ha, ?_⟩
    rcases hrest with ⟨ys, v1, w1, hlen, hok, heq, hwf1, hs, hcp, hel⟩ |
      ⟨ys, e, w1, hlen, hok, herr, heq⟩
    · left
      obtain ⟨t1, w2, hmv, hwft, -⟩ := assign_move_spec v v1 w1 hv
      obtain ⟨w3, hd⟩ := destructor_spec t1 w2 hwft
      exact ⟨ys, v1, w3, hlen, hok, by simp only [vector.assign_copy, heq, hmv, hd], hwf1,
        hs, hcp, hel⟩
    · right
      exact ⟨ys, e, w1, hlen, hok, herr, by simp only [vector.assign_copy, heq]⟩

/-- C3: strong guarantee of copy assignment.  For distinct containers `v`
(the destination) and `other` (the source): if copying the element at index
`k` of the source fails with `e`, the elements before it having been copied
(and the copy constructor is reached: `allocate` does not throw), then
`v = other` throws `e` and the destination is exactly what it was: same
size, same capacity, same elements.  The source is passed by reference to
const and is not changed by any outcome. -/
theorem assign_copy_strong_guarantee (E : Element T ε) (A : Allocator ε) (v other : vector T)
    (w : World) (k : Nat) (x : T) (e : ε) (hv : v.WF) (ho : other.WF)
    (hk : other.elements[k]? = some x) (hfail : E.copy_ctor x = .error e)
    (hok : ∀ (i : Nat) (z : T), i < k → other.elements[i]? = some z →
      ∃ y, E.copy_ctor z = .ok y)
    (halloc : ∀ c, calculate_capacity other.size_ = some c → A.allocate_throws w c = none) :
    ∃ v1 w1, v.assign_copy E A other w = .throws e (v1, w1) ∧
      v1.size_ = v.size_ ∧ v1.capacity_ = v.capacity_ ∧ v1.elements = v.elements ∧
      v1 = v := by
  have hl := elements_length other ho
  have hklt : k < other.size_ := by
    by_contra hcon
    rw [List.getElem?_eq_none (by omega)] at hk
    cases hk
  obtain ⟨c, hc, hrest⟩ := assign_copy_spec E A v other w hv ho
  rcases hrest with ⟨e1, w1, -, ha, -⟩ | ⟨-, hrest⟩
  · rw [halloc c hc] at ha
    cases ha
  · rcases hrest with ⟨ys, v1, w1, hlen, hok1, -⟩ | ⟨ys, e1, w1, hlen, hok1, ⟨x1, hx1, herr⟩, heq⟩
    · obtain ⟨x2, hx2, hcopy⟩ := hok1 k ys[k] (by simp [List.getElem?_eq_getElem, hlen, hklt])
      rw [hk] at hx2
      cases hx2
      rw [hfail] at hcopy
      cases hcopy
    · rcases Nat.lt_trichotomy ys.length k with hlt | heq1 | hgt
      · obtain ⟨y, hy⟩ := hok ys.length x1 hlt hx1
        rw [hy] at herr
        cases herr
      · rw [heq1, hk] at hx1
        cases hx1
        rw [hfail] at herr
        cases herr
        exact ⟨v, w1, heq, rfl, rfl, rfl, rfl⟩
      · obtain ⟨x2, hx2, hcopy⟩ := hok1 k ys[k] (by simp [List.getElem?_eq_getElem, hgt])
        rw [hk] at hx2
        cases hx2
        rw [hfail] at hcopy
        cases hcopy

/-- Witness of C3: the test of `vector_test.cpp`: the source holds three elements of
which the second cannot be copied, the destination holds three elements at capacity 4. -/
theorem assign_copy_strong_guarantee_witness :
    ∃ w1, (vector.holding 1 [4, 5, 6] 4).assign_copy (Element.throwing fun x => x != 0)
        Allocator.unlimited (vector.holding 0 [1, 0, 3] 4) ⟨2, []⟩ =
      .throws Failure.artificial_exception (vector.holding 1 [4, 5, 6] 4, w1) := by
  obtain ⟨v1, w1, h, -, -, -, rfl⟩ := assign_copy_strong_guarantee
    (Element.throwing fun x => x != 0) Allocator.unlimited
    (vector.holding 1 [4, 5, 6] 4) (vector.holding 0 [1, 0, 3] 4) ⟨2, []⟩ 1 0
    Failure.artificial_exception
    (WF_holding 1 [4, 5, 6] 4 (by decide) (by decide) (Or.inr ⟨2, by decide, by decide⟩))
    (WF_holding 0 [1, 0, 3] 4 (by decide) (by decide) (Or.inr ⟨2, by decide, by decide⟩))
    (by decide) rfl
    (by
      intro i z hi hz
      have hi0 : i = 0 := by omega
      subst hi0
      have hz1 : z = 1 := by
        have h1 : (vector.holding 0 [1, 0, 3] 4).elements[0]? = some 1 := by decide
        rw [h1] at hz
        exact (Option.some.inj hz).symm
      subst hz1
      exact ⟨1, rfl⟩)
    (fun _ _ => rfl)
  exact ⟨w1, h⟩

/-! ## Proofs: the remaining members -/

theorem vector_init_spec (A : Allocator ε) (n : Nat) (init_func : InitFunc T ε) (w : World) :
    (calculate_capacity n = none ∧
      (vector.vector_init A n init_func w : Outcome ε (vector T × World) World) = .diverges) ∨
    ∃ c, calculate_capacity n = some c ∧
      ((∃ (e : ε) (w1 : World), c ≠ 0 ∧ A.allocate_throws w c = some e ∧
          vector.vector_init A n init_func w = .throws e w1) ∨
       ((c = 0 ∨ A.allocate_throws w c = none) ∧
        ((∃ (ys : List T) (v1 : vector T) (w1 : World), ys.length = n ∧
            (∀ i y, ys[i]? = some y → init_func i = .ok y) ∧
            vector.vector_init A n init_func w = .returns (v1, w1) ∧ v1.WF ∧
            v1.size_ = n ∧ v1.capacity_ = c ∧ v1.elements = ys) ∨
         (∃ (ys : List T) (e : ε) (w1 : World), ys.length < n ∧
            (∀ i y, ys[i]? = some y → init_func i = .ok y) ∧
            init_func ys.length = .error e ∧
            vector.vector_init A n init_func w = .throws e w1)))) := by
  cases hc : calculate_capacity n with
  | none =>
    left
    exact ⟨rfl, by simp only [vector.vector_init, hc]⟩
  | some c =>
    right
    refine ⟨c, rfl, ?_⟩
    obtain ⟨-, hnc, hcpow, hc0⟩ := calculate_capacity_some n c hc
    by_cases hz : c = 0
    · right
      have hn := hc0.mp hz
      subst hn
      refine ⟨Or.inl hz, Or.inl ⟨[], ⟨none, 0, 0⟩, w, rfl, by simp, ?_, WF_null, rfl, hz.symm,
        by simp [vector.elements]⟩⟩
      simp only [vector.vector_init, hc]
      simp only [hz, alloc, if_true, construct_section, Nat.sub_zero, construct_section_loop]
    · cases ha : A.allocate_throws w c with
      | some e =>
        left
        exact ⟨e, w.record (Event.allocate_throws c), hz, rfl,
          by simp only [vector.vector_init, hc, alloc, hz, if_false, ha]⟩
      | none =>
        right
        refine ⟨Or.inr rfl, ?_⟩
        have hsplit : List.replicate c (none : Option T)
            = [] ++ (List.replicate n none ++ List.replicate (c - n) none) := by
          rw [List.nil_append, List.append_replicate_replicate]
          congr 1
          omega
        rcases construct_section_spec init_func w.next_handle n []
            (List.replicate (c - n) none)
            ⟨w.next_handle + 1, w.log ++ [Event.allocate c w.next_handle]⟩ with
          ⟨ys, hys, hok, heq⟩ | ⟨ys, e, hys, hok, herr, heq⟩
        · left
          simp only [List.length_nil, Nat.zero_add, List.nil_append] at heq hok
          have hveq := vector_eq_of_buffer w.next_handle ys c n
            (ys.map some ++ List.replicate (c - n) none) hys.symm (by rw [hys])
          have hres : ∃ w1, vector.vector_init A n init_func w =
              .returns (⟨some ⟨w.next_handle,
                ys.map some ++ List.replicate (c - n) none⟩, c, n⟩, w1) := by
            simp only [vector.vector_init, hc, alloc, hz, if_false, ha]
            rw [hsplit, List.nil_append, heq]
            exact ⟨_, rfl⟩
          obtain ⟨w1, hw1⟩ := hres
          refine ⟨ys, _, w1, hys, hok, hw1, ?_, rfl, rfl, ?_⟩
          · rw [hveq]
            exact WF_of_buffer _ ys c (by omega) hz hcpow
          · rw [hveq, elements_of_buffer]
        · right
          simp only [List.length_nil, Nat.zero_add, List.nil_append] at heq hok herr
          have hres : ∃ w1, vector.vector_init A n init_func w = .throws e w1 := by
            simp only [vector.vector_init, hc, alloc, hz, if_false, ha]
            rw [hsplit, List.nil_append, heq]
            exact ⟨_, rfl⟩
          obtain ⟨w1, hw1⟩ := hres
          exact ⟨ys, e, w1, hys, hok, herr, hw1⟩

theorem pop_back_spec (v : vector T) (w : World) (hwf : v.WF) (hne : v.size_ ≠ 0) :
    ∃ v1 w1, v.pop_back w = some (v1, w1) ∧ v1.WF ∧ v1.size_ = v.size_ - 1 ∧
      v1.capacity_ = v.capacity_ ∧ v1.elements = v.elements.take (v.size_ - 1) ∧
      v1.data_.map Buffer.handle = v.data_.map Buffer.handle := by
  have hpow := hwf.capacity_pow2
  have hle := hwf.size_le_capacity
  rcases WF_cases v hwf with ⟨_, _, hs0, _⟩ | ⟨h, xs, hc0, hlen, hel, hdata⟩
  · omega
  · obtain ⟨xa, xb, rfl, hxa⟩ := split_at xs (v.size_ - 1) (by omega)
    obtain ⟨x, rfl⟩ : ∃ x, xb = [x] := by
      have hb : xb.length = 1 := by
        rw [List.length_append] at hlen
        omega
      match xb, hb with
      | [x], _ => exact ⟨x, rfl⟩
    have hslots : (xa ++ [x]).map some ++ List.replicate (v.capacity_ - v.size_) none
        = xa.map some ++ some x :: List.replicate (v.capacity_ - v.size_) none := by
      simp
    have hget := get_at_length (xa.map some) (some x)
      (List.replicate (v.capacity_ - v.size_) none)
    have hset := set_at_length (xa.map some) (some x) none
      (List.replicate (v.capacity_ - v.size_) none)
    rw [List.length_map, hxa] at hget hset
    have hmerge : xa.map some ++ none :: List.replicate (v.capacity_ - v.size_) none
        = xa.map some ++ List.replicate (v.capacity_ - xa.length) none := by
      rw [← List.replicate_succ]
      congr 2
      omega
    have hveq := vector_eq_of_buffer h xa v.capacity_ (v.size_ - 1)
      (xa.map some ++ none :: List.replicate (v.capacity_ - v.size_) none) hxa.symm hmerge
    refine ⟨⟨some ⟨h, xa.map some ++ none :: List.replicate (v.capacity_ - v.size_) none⟩,
      v.capacity_, v.size_ - 1⟩, w.record (Event.destruct h (v.size_ - 1)), ?_, ?_, rfl, rfl,
      ?_, by rw [hdata]; rfl⟩
    · simp only [vector.pop_back, hne, if_false, hdata, destroy_at, hslots, hget, hset]
    · rw [hveq]
      exact WF_of_buffer h xa v.capacity_ (by omega) hc0 hpow
    · rw [hveq, elements_of_buffer, hel, ← hxa]
      simp

theorem reserve_spec (A : Allocator ε) (v : vector T) (quantity : Nat) (w : World)
    (hwf : v.WF) :
    (calculate_capacity quantity = none ∧ v.reserve A quantity w = .diverges) ∨
    ∃ c, calculate_capacity quantity = some c ∧
      ((c ≤ v.capacity_ ∧ v.reserve A quantity w = .returns (v, w)) ∨
       (v.capacity_ < c ∧
        ((∃ (e : ε) (w1 : World), A.allocate_throws w c = some e ∧
            v.reserve A quantity w = .throws e (v, w1)) ∨
         (A.allocate_throws w c = none ∧
          ∃ (v1 : vector T) (w1 : World), v.reserve A quantity w = .returns (v1, w1) ∧
            v1.WF ∧ v1.size_ = v.size_ ∧ v1.capacity_ = c ∧ v1.elements = v.elements ∧
            v1.data_.map Buffer.handle = some w.next_handle)))) := by
  have hle := hwf.size_le_capacity
  cases hc : calculate_capacity quantity with
  | none =>
    left
    exact ⟨rfl, by simp only [vector.reserve, hc]⟩
  | some c =>
    right
    refine ⟨c, rfl, ?_⟩
    obtain ⟨-, -, hcpow, -⟩ := calculate_capacity_some quantity c hc
    by_cases hcle : c ≤ v.capacity_
    · left
      exact ⟨hcle, by simp only [vector.reserve, hc, hcle, if_true]⟩
    · right
      refine ⟨by omega, ?_⟩
      have hc0 : c ≠ 0 := by omega
      have hel := elements_length v hwf
      rcases increase_capacity_spec A v c w hwf hc0 (by omega) with
        ⟨e, w1, ha, heq⟩ | ⟨ha, w1, heq⟩
      · left
        exact ⟨e, w1, ha, by simp only [vector.reserve, hc, hcle, if_false, heq]⟩
      · right
        have hveq := vector_eq_of_buffer w.next_handle v.elements c v.size_
          (v.elements.map some ++ List.replicate (c - v.size_) none) hel.symm (by rw [hel])
        refine ⟨ha, ⟨some ⟨w.next_handle,
            v.elements.map some ++ List.replicate (c - v.size_) none⟩, c, v.size_⟩, w1,
          by simp only [vector.reserve, hc, hcle, if_false, heq], ?_, rfl, rfl, ?_, rfl⟩
        · rw [hveq]
          exact WF_of_buffer _ _ c (by omega) hc0 hcpow
        · rw [hveq, elements_of_buffer]

theorem store_spec (v : vector T) (index : Nat) (x : T) (v1 : vector T) (hwf : v.WF)
    (h : v.store index x = some v1) :
    v1.WF ∧ index < v.size_ ∧ v1.size_ = v.size_ ∧ v1.capacity_ = v.capacity_ ∧
      v1.elements = v.elements.set index x := by
  have hpow := hwf.capacity_pow2
  have hle := hwf.size_le_capacity
  rcases WF_cases v hwf with ⟨hdata, _, _, _⟩ | ⟨hd, xs, hc0, hlen, hel, hdata⟩
  · simp [vector.store, hdata] at h
  · have hidx : index < xs.length := by
      by_contra hcon
      have hnone : (xs.map some ++ List.replicate (v.capacity_ - v.size_) none)[index]?
          = none ∨ (xs.map some ++ List.replicate (v.capacity_ - v.size_) none)[index]?
          = some none := by
        rw [List.getElem?_append_right (by simp; omega), List.length_map,
          List.getElem?_replicate]
        by_cases hr : index - xs.length < v.capacity_ - v.size_
        · right
          rw [if_pos hr]
        · left
          rw [if_neg hr]
      rcases hnone with hn | hn <;> simp [vector.store, hdata, hn] at h
    have hget : (xs.map some ++ List.replicate (v.capacity_ - v.size_) none)[index]?
        = some (some xs[index]) := by
      rw [List.getElem?_append_left (by simpa using hidx)]
      simp [List.getElem?_eq_getElem, hidx]
    have hset : (xs.map some ++ List.replicate (v.capacity_ - v.size_) none).set index (some x)
        = (xs.set index x).map some ++ List.replicate (v.capacity_ - v.size_) none := by
      rw [List.set_append_left _ _ (by simpa using hidx), List.map_set]
    simp only [vector.store, hdata, hget, hset, Option.some.injEq] at h
    subst h
    have hveq := vector_eq_of_buffer hd (xs.set index x) v.capacity_ v.size_
      ((xs.set index x).map some ++ List.replicate (v.capacity_ - v.size_) none)
      (by simp [hlen]) (by simp [hlen])
    refine ⟨?_, by omega, rfl, rfl, ?_⟩
    · show (⟨_, _, _⟩ : vector T).WF
      rw [hveq]
      exact WF_of_buffer hd _ v.capacity_ (by simp [hlen]; omega) hc0 hpow
    · show (⟨_, _, _⟩ : vector T).elements = _
      rw [hveq, elements_of_buffer, hel]

/-! ## Proofs: reachable states -/

/-- A `resize` that returns leaves a well-formed container, and one that throws
leaves the container it started from. -/
theorem resize_preserves (A : Allocator ε) (v : vector T) (d : Nat) (init_func : InitFunc T ε)
    (w : World) (hwf : v.WF) :
    (∀ v1 w1, v.resize A d init_func w = .returns (v1, w1) → v1.WF) ∧
    (∀ e v1 w1, v.resize A d init_func w = .throws e (v1, w1) → v1 = v) := by
  by_cases h1 : d ≤ v.size_
  · obtain ⟨v2, w2, heq, hwf2, -⟩ := resize_shrink A v d init_func w hwf h1
    constructor
    · intro v1 w1 h
      rw [heq] at h
      injection h with h
      injection h with hv hw
      subst hv
      exact hwf2
    · intro e v1 w1 h
      rw [heq] at h
      cases h
  · by_cases h2 : d ≤ v.capacity_
    · rcases resize_in_place A v d init_func w hwf (by omega) h2 with
        ⟨ys, v2, w2, -, -, heq, hwf2, -⟩ | ⟨ys, e2, w2, -, -, -, heq⟩
      · constructor
        · intro v1 w1 h
          rw [heq] at h
          injection h with h
          injection h with hv hw
          subst hv
          exact hwf2
        · intro e v1 w1 h
          rw [heq] at h
          cases h
      · constructor
        · intro v1 w1 h
          rw [heq] at h
          cases h
        · intro e v1 w1 h
          rw [heq] at h
          injection h with _ h
          injection h with hv hw
          exact hv.symm
    · rcases resize_realloc A v d init_func w hwf (by omega) with
        ⟨-, heq⟩ | ⟨c, -, ⟨e2, w2, -, heq⟩ | ⟨-, ⟨ys, v2, w2, -, -, heq, hwf2, -⟩ |
          ⟨ys, e2, w2, -, -, -, heq⟩⟩⟩
      · constructor <;> intros <;> simp_all
      · constructor
        · intro v1 w1 h
          rw [heq] at h
          cases h
        · intro e v1 w1 h
          rw [heq] at h
          injection h with _ h
          injection h with hv hw
          exact hv.symm
      · constructor
        · intro v1 w1 h
          rw [heq] at h
          injection h with h
          injection h with hv hw
          subst hv
          exact hwf2
        · intro e v1 w1 h
          rw [heq] at h
          cases h
      · constructor
        · intro v1 w1 h
          rw [heq] at h
          cases h
        · intro e v1 w1 h
          rw [heq] at h
          injection h with _ h
          injection h with hv hw
          exact hv.symm

theorem call_preserves (E : Element T ε) (A : Allocator ε) (v : vector T) (c : Call T)
    (w : World) (hwf : v.WF) :
    (∀ v1 w1, v.call E A c w = .returns (v1, w1) → v1.WF) ∧
    (∀ e v1 w1, v.call E A c w = .throws e (v1, w1) → v1.WF) := by
  cases c with
  | push_back_move x =>
    rcases push_back_move_spec A v x w hwf with
      ⟨-, -, heq⟩ | ⟨e2, w2, -, -, -, heq⟩ | ⟨v2, w2, heq, hwf2, -⟩
    · constructor <;> intros <;> simp_all [vector.call]
    · constructor
      · intro v1 w1 h
        rw [vector.call, heq] at h
        cases h
      · intro e v1 w1 h
        rw [vector.call, heq] at h
        injection h with _ h
        injection h with hv hw
        subst hv
        exact hwf
    · constructor
      · intro v1 w1 h
        rw [vector.call, heq] at h
        injection h with h
        injection h with hv hw
        subst hv
        exact hwf2
      · intro e v1 w1 h
        rw [vector.call, heq] at h
        cases h
  | push_back_copy x =>
    rcases push_back_copy_spec E A v x w hwf with
      ⟨-, -, heq⟩ | ⟨e2, w2, -, -, -, heq⟩ | ⟨e2, w2, -, -, heq⟩ | ⟨y, v2, w2, -, heq, hwf2, -⟩
    · constructor <;> intros <;> simp_all [vector.call]
    · constructor
      · intro v1 w1 h
        rw [vector.call, heq] at h
        cases h
      · intro e v1 w1 h
        rw [vector.call, heq] at h
        injection h with _ h
        injection h with hv hw
        subst hv
        exact hwf
    · constructor
      · intro v1 w1 h
        rw [vector.call, heq] at h
        cases h
      · intro e v1 w1 h
        rw [vector.call, heq] at h
        injection h with _ h
        injection h with hv hw
        subst hv
        exact hwf
    · constructor
      · intro v1 w1 h
        rw [vector.call, heq] at h
        injection h with h
        injection h with hv hw
        subst hv
        exact hwf2
      · intro e v1 w1 h
        rw [vector.call, heq] at h
        cases h
  | pop_back =>
    by_cases hne : v.size_ = 0
    · constructor <;> intros <;> simp_all [vector.call, vector.pop_back, Outcome.of_option]
    · obtain ⟨v2, w2, heq, hwf2, -⟩ := pop_back_spec v w hwf hne
      constructor
      · intro v1 w1 h
        rw [vector.call, heq, Outcome.of_option] at h
        injection h with h
        injection h with hv hw
        subst hv
        exact hwf2
      · intro e v1 w1 h
        rw [vector.call, heq, Outcome.of_option] at h
        cases h
  | resize_n d =>
    obtain ⟨h1, h2⟩ := resize_preserves A v d (fun _ => E.default_ctor) w hwf
    exact ⟨fun v1 w1 h => h1 v1 w1 h, fun e v1 w1 h => (h2 e v1 w1 h) ▸ hwf⟩
  | resize_element d x =>
    obtain ⟨h1, h2⟩ := resize_preserves A v d (fun _ => E.copy_ctor x) w hwf
    exact ⟨fun v1 w1 h => h1 v1 w1 h, fun e v1 w1 h => (h2 e v1 w1 h) ▸ hwf⟩
  | reserve q =>
    rcases reserve_spec A v q w hwf with
      ⟨-, heq⟩ | ⟨c, -, ⟨-, heq⟩ | ⟨-, ⟨e2, w2, -, heq⟩ | ⟨-, v2, w2, heq, hwf2, -⟩⟩⟩
    · constructor <;> intros <;> simp_all [vector.call]
    · constructor
      · intro v1 w1 h
        rw [vector.call, heq] at h
        injection h with h
        injection h with hv hw
        subst hv
        exact hwf
      · intro e v1 w1 h
        rw [vector.call, heq] at h
        cases h
    · constructor
      · intro v1 w1 h
        rw [vector.call, heq] at h
        cases h
      · intro e v1 w1 h
        rw [vector.call, heq] at h
        injection h with _ h
        injection h with hv hw
        subst hv
        exact hwf
    · constructor
      · intro v1 w1 h
        rw [vector.call, heq] at h
        injection h with h
        injection h with hv hw
        subst hv
        exact hwf2
      · intro e v1 w1 h
        rw [vector.call, heq] at h
        cases h
  | clear =>
    obtain ⟨v2, w2, heq, hwf2, -⟩ := clear_spec v w hwf
    constructor
    · intro v1 w1 h
      rw [vector.call, heq, Outcome.of_option] at h
      injection h with h
      injection h with hv hw
      subst hv
      exact hwf2
    · intro e v1 w1 h
      rw [vector.call, heq, Outcome.of_option] at h
      cases h
  | store index x =>
    cases hst : v.store index x with
    | none => constructor <;> intros <;> simp_all [vector.call, Outcome.of_option]
    | some v2 =>
      obtain ⟨hwf2, -⟩ := store_spec v index x v2 hwf hst
      constructor
      · intro v1 w1 h
        rw [vector.call, hst] at h
        simp only [Option.map_some', Outcome.of_option] at h
        injection h with h
        injection h with hv hw
        subst hv
        exact hwf2
      · intro e v1 w1 h
        rw [vector.call, hst] at h
        simp only [Option.map_some', Outcome.of_option] at h
        cases h
  | assign_copy_self =>
    constructor
    · intro v1 w1 h
      rw [vector.call, vector.assign_copy_self] at h
      injection h with h
      injection h with hv hw
      subst hv
      exact hwf
    · intro e v1 w1 h
      rw [vector.call] at h
      cases h
  | assign_move_self =>
    obtain ⟨v2, w2, heq, hwf2, -⟩ := clear_spec v w hwf
    constructor
    · intro v1 w1 h
      rw [vector.call, vector.assign_move_self, heq, Outcome.of_option] at h
      injection h with h
      injection h with hv hw
      subst hv
      exact hwf2
    · intro e v1 w1 h
      rw [vector.call, vector.assign_move_self, heq, Outcome.of_option] at h
      cases h

theorem vector_init_preserves (A : Allocator ε) (n : Nat) (init_func : InitFunc T ε) (w : World)
    (v : vector T) (w1 : World) (h : vector.vector_init A n init_func w = .returns (v, w1)) :
    v.WF := by
  rcases vector_init_spec A n init_func w with
    ⟨-, heq⟩ | ⟨c, -, ⟨e2, w2, -, -, heq⟩ | ⟨-, ⟨ys, v2, w2, -, -, heq, hwf2, -⟩ |
      ⟨ys, e2, w2, -, -, -, heq⟩⟩⟩
  · rw [heq] at h; cases h
  · rw [heq] at h; cases h
  · rw [heq] at h
    injection h with h
    injection h with hv hw
    subst hv
    exact hwf2
  · rw [heq] at h; cases h

theorem vector_copy_preserves (E : Element T ε) (A : Allocator ε) (other : vector T) (w : World)
    (v : vector T) (w1 : World) (ho : other.WF)
    (h : vector.vector_copy E A other w = .returns (v, w1)) : v.WF := by
  obtain ⟨c, -, hrest⟩ := vector_copy_spec E A other w ho
  rcases hrest with ⟨e2, w2, -, -, heq⟩ | ⟨-, ⟨ys, v2, w2, -, -, heq, hwf2, -⟩ |
      ⟨ys, e2, w2, -, -, -, heq⟩⟩
  · rw [heq] at h; cases h
  · rw [heq] at h
    injection h with h
    injection h with hv hw
    subst hv
    exact hwf2
  · rw [heq] at h; cases h

theorem assign_copy_preserves (E : Element T ε) (A : Allocator ε) (v other : vector T)
    (w : World) (hv : v.WF) (ho : other.WF) :
    (∀ v1 w1, v.assign_copy E A other w = .returns (v1, w1) → v1.WF) ∧
    (∀ e v1 w1, v.assign_copy E A other w = .throws e (v1, w1) → v1 = v) := by
  obtain ⟨c, -, hrest⟩ := assign_copy_spec E A v other w hv ho
  rcases hrest with ⟨e2, w2, -, -, heq⟩ | ⟨-, ⟨ys, v2, w2, -, -, heq, hwf2, -⟩ |
      ⟨ys, e2, w2, -, -, -, heq⟩⟩
  · constructor
    · intro v1 w1 h
      rw [heq] at h
      cases h
    · intro e v1 w1 h
      rw [heq] at h
      injection h with _ h
      injection h with hv1 hw
      exact hv1.symm
  · constructor
    · intro v1 w1 h
      rw [heq] at h
      injection h with h
      injection h with hv1 hw
      subst hv1
      exact hwf2
    · intro e v1 w1 h
      rw [heq] at h
      cases h
  · constructor
    · intro v1 w1 h
      rw [heq] at h
      cases h
    · intro e v1 w1 h
      rw [heq] at h
      injection h with _ h
      injection h with hv1 hw
      exact hv1.symm

theorem Reachable_WF (E : Element T ε) (A : Allocator ε) (v : vector T)
    (h : Reachable E A v) : v.WF := by
  induction h with
  | vector_default => exact WF_null
  | vector_n n w v w1 heq => exact vector_init_preserves A n _ w v w1 heq
  | vector_n_element n element w v w1 heq => exact vector_init_preserves A n _ w v w1 heq
  | vector_copy other w v w1 _ heq ih => exact vector_copy_preserves E A other w v w1 ih heq
  | vector_move_new other _ ih => exact ih
  | vector_move_old other _ _ => exact WF_null
  | call_returns v c w v1 w1 _ heq ih => exact (call_preserves E A v c w ih).1 v1 w1 heq
  | call_throws v c w e v1 w1 _ heq ih => exact (call_preserves E A v c w ih).2 e v1 w1 heq
  | assign_copy_returns v other w v1 w1 _ _ heq ihv iho =>
    exact (assign_copy_preserves E A v other w ihv iho).1 v1 w1 heq
  | assign_copy_throws v other w e v1 w1 _ _ heq ihv iho =>
    exact ((assign_copy_preserves E A v other w ihv iho).2 e v1 w1 heq) ▸ ihv
  | assign_move_this v other w v1 other1 w1 _ _ heq ihv iho =>
    obtain ⟨o2, w2, heq2, -⟩ := assign_move_spec v other w ihv
    rw [heq2] at heq
    injection heq with heq
    injection heq with h1 h2
    exact h1 ▸ iho
  | assign_move_other v other w v1 other1 w1 _ _ heq ihv iho =>
    obtain ⟨o2, w2, heq2, hwf2, -⟩ := assign_move_spec v other w ihv
    rw [heq2] at heq
    injection heq with heq
    injection heq with h1 h2
    injection h2 with h3 h4
    exact h3 ▸ hwf2

/-- C4: the invariant `size() <= capacity()`.  Every container state
reachable from a constructor (empty, sized, sized with a value, copy, move)
by public operations that respect their preconditions, the calls that end in
a propagated element or allocator exception included, has
`size() <= capacity()`. -/
theorem size_le_capacity_invariant (E : Element T ε) (A : Allocator ε) (v : vector T)
    (h : Reachable E A v) : v.size ≤ v.capacity :=
  (Reachable_WF E A v h).size_le_capacity

/-- C5: the invariant that the capacity is `0` or a power of two.  Every
container state reachable from a constructor by public operations has
`capacity()` equal to `0` or to `2^j` for some `j`; this covers both objects
after a move construction and after a move assignment. -/
theorem capacity_power_of_two_invariant (E : Element T ε) (A : Allocator ε) (v : vector T)
    (h : Reachable E A v) : v.capacity = 0 ∨ ∃ j, v.capacity = 2 ^ j := by
  rcases (Reachable_WF E A v h).capacity_pow2 with h0 | ⟨j, -, hj⟩
  · exact Or.inl h0
  · exact Or.inr ⟨j, hj⟩

/-- Witness of C4: the container built by `vector(4, element)` and then hit by a
`push_back(const T &)` whose copy constructor throws (the test of `vector_test.cpp`). -/
theorem size_le_capacity_invariant_witness :
    (vector.holding 0 [1, 1, 1, 1] 4).size ≤ (vector.holding 0 [1, 1, 1, 1] 4).capacity :=
  size_le_capacity_invariant (Element.throwing fun x => x != 0) Allocator.unlimited
    (vector.holding 0 [1, 1, 1, 1] 4)
    (Reachable.call_throws (vector.holding 0 [1, 1, 1, 1] 4) (Call.push_back_copy 0)
      World.initial Failure.artificial_exception (vector.holding 0 [1, 1, 1, 1] 4)
      ⟨1, [Event.allocate 8 0, Event.construct_throws 0 4, Event.deallocate 0 8]⟩
      (Reachable.vector_n_element 4 1 World.initial (vector.holding 0 [1, 1, 1, 1] 4)
        ⟨1, [Event.allocate 4 0, Event.construct 0 0, Event.construct 0 1,
             Event.construct 0 2, Event.construct 0 3]⟩ (by decide))
      (by decide))

/-- Witness of C5: the container built by `vector(5)`, of capacity 8, and the source it
leaves behind when it is moved from, of capacity 0. -/
theorem capacity_power_of_two_invariant_witness :
    ((vector.holding 0 [100, 100, 100, 100, 100] 8).capacity = 0 ∨
      ∃ j, (vector.holding 0 [100, 100, 100, 100, 100] 8).capacity = 2 ^ j) ∧
    ((vector.vector_move (vector.holding 0 [100, 100, 100, 100, 100] 8)).2.capacity = 0 ∨
      ∃ j, (vector.vector_move (vector.holding 0 [100, 100, 100, 100, 100] 8)).2.capacity
        = 2 ^ j) :=
  have hr : Reachable Element.obj Allocator.unlimited
      (vector.holding 0 [100, 100, 100, 100, 100] 8) :=
    Reachable.vector_n 5 World.initial _
      ⟨1, [Event.allocate 8 0, Event.construct 0 0, Event.construct 0 1,
           Event.construct 0 2, Event.construct 0 3, Event.construct 0 4]⟩ (by decide)
  ⟨capacity_power_of_two_invariant Element.obj Allocator.unlimited _ hr,
   capacity_power_of_two_invariant Element.obj Allocator.unlimited _
     (Reachable.vector_move_old _ hr)⟩

/-! ## Proofs: remarks on the embedding -/

/-- The bound `CAPACITY_FUEL` loses nothing: when `calculate_capacity` is `none`, the
doubling loop is still running after any number of tests. -/
theorem calculate_capacity_none_diverges (n : Nat) (h : calculate_capacity n = none) :
    n ≠ 0 ∧ ∀ fuel, calculate_capacity_loop fuel 1 n = none := by
  have hn : 2 ^ 63 < n := by
    by_contra hcon
    obtain ⟨c, hc, -⟩ := calculate_capacity_total n (by omega)
    rw [hc] at h
    cases h
  exact ⟨by omega, fun fuel => calculate_capacity_loop_diverges fuel 0 n (by norm_num) hn⟩

/-- The public `resize(desired_size)` is the private template at the initializer that
default-constructs. -/
theorem resize_n_eq (E : Element T ε) (A : Allocator ε) (v : vector T) (d : Nat) (w : World) :
    v.resize_n E A d w = v.resize A d (fun _ => E.default_ctor) w :=
  rfl

/-- The public `resize(desired_size, element)` is the private template at the initializer
that copy-constructs from `element`. -/
theorem resize_element_eq (E : Element T ε) (A : Allocator ε) (v : vector T) (d : Nat)
    (x : T) (w : World) :
    v.resize_element E A d x w = v.resize A d (fun _ => E.copy_ctor x) w :=
  rfl

/-! ## Proofs: reserve and checked access -/

theorem clear_log (v : vector T) (w : World) (hwf : v.WF) :
    ∃ v1, v.clear w =
        some (v1, ⟨w.next_handle, w.log ++ destruct_events v.data_ 0 v.size_⟩) ∧
      v1.WF ∧ v1.size_ = 0 ∧ v1.capacity_ = v.capacity_ ∧ v1.elements = [] ∧
      v1.data_.map Buffer.handle = v.data_.map Buffer.handle := by
  have hpow := hwf.capacity_pow2
  have hle := hwf.size_le_capacity
  rcases WF_cases v hwf with ⟨hdata, hc0, hs0, hel⟩ | ⟨h, xs, hc0, hlen, hel, hdata⟩
  · refine ⟨⟨none, v.capacity_, 0⟩, ?_, ?_, rfl, rfl, rfl, by simp [hdata]⟩
    · simp [vector.clear, destruct, hs0, hdata, destruct_loop, destruct_events]
    · rw [hc0]; exact WF_null
  · have hspec := destruct_loop_spec h xs [] (List.replicate (v.capacity_ - v.size_) none) w
    simp only [List.nil_append, List.length_nil] at hspec
    refine ⟨⟨some ⟨h, List.replicate v.capacity_ none⟩, v.capacity_, 0⟩, ?_, ?_, rfl, rfl, ?_,
      by simp [hdata]⟩
    · have hrep : List.replicate xs.length (none : Option T) ++
          List.replicate (v.capacity_ - v.size_) none = List.replicate v.capacity_ none := by
        rw [List.append_replicate_replicate]
        congr 1
        omega
      simp only [vector.clear, destruct, Nat.sub_zero, hdata, destruct_events]
      rw [← hlen] at hspec hrep ⊢
      rw [hspec, hrep]
    · exact WF_of_buffer h [] v.capacity_ (Nat.zero_le _) hc0 hpow
    · simp [vector.elements, List.reduceOption]

/-- C11: `reserve(n)` on a container `v`.  Whenever the call returns, with
`c = calculate_capacity(n)`: the capacity is the old capacity if
`c <= old capacity` and `c` otherwise, so it never decreases; size and
elements are unchanged in value and order; when nothing grows the container
and the world are untouched, and when the capacity grows the elements live in
a freshly allocated buffer.  And the call does return when `n <= 2^63` and
`allocate` does not throw. -/
theorem reserve_capacity_rule (A : Allocator ε) (v : vector T) (n : Nat) (w : World)
    (hwf : v.WF) :
    (∀ v1 w1, v.reserve A n w = .returns (v1, w1) →
      ∃ c, calculate_capacity n = some c ∧
        v1.capacity_ = (if c ≤ v.capacity_ then v.capacity_ else c) ∧
        v.capacity_ ≤ v1.capacity_ ∧ v1.size_ = v.size_ ∧ v1.elements = v.elements ∧
        (c ≤ v.capacity_ → v1 = v ∧ w1 = w) ∧
        (v.capacity_ < c → v1.data_.map Buffer.handle = some w.next_handle)) ∧
    (n ≤ 2 ^ 63 →
      (∀ c, calculate_capacity n = some c → v.capacity_ < c →
        A.allocate_throws w c = none) →
      ∃ v1 w1, v.reserve A n w = .returns (v1, w1)) := by
  rcases reserve_spec A v n w hwf with ⟨hnone, hdiv⟩ | ⟨c, hc, hrest⟩
  · refine ⟨?_, ?_⟩
    · intro v1 w1 h1
      rw [hdiv] at h1
      cases h1
    · intro hcap _
      obtain ⟨c, hc, -⟩ := calculate_capacity_total n hcap
      rw [hc] at hnone
      cases hnone
  · rcases hrest with ⟨hle, heq⟩ | ⟨hlt, hrest⟩
    · refine ⟨?_, fun _ _ => ⟨v, w, heq⟩⟩
      intro v1 w1 h1
      rw [heq] at h1
      injection h1 with h1
      injection h1 with hv hw
      subst hv hw
      exact ⟨c, hc, by rw [if_pos hle], le_refl _, rfl, rfl, fun _ => ⟨rfl, rfl⟩,
        fun h => absurd hle (by omega)⟩
    · rcases hrest with ⟨e, w2, hthrows, heq⟩ | ⟨hok, v2, w2, heq, -, hs, hcp, hel, hh⟩
      · refine ⟨?_, ?_⟩
        · intro v1 w1 h1
          rw [heq] at h1
          cases h1
        · intro _ halloc
          rw [halloc c hc hlt] at hthrows
          cases hthrows
      · refine ⟨?_, fun _ _ => ⟨v2, w2, heq⟩⟩
        intro v1 w1 h1
        rw [heq] at h1
        injection h1 with h1
        injection h1 with hv hw
        subst hv hw
        exact ⟨c, hc, by rw [if_neg (by omega), hcp], by omega, hs, hel,
          fun h => absurd h (by omega), fun _ => hh⟩

/-- Witness of C11: the five-element container of the `reserve` test (capacity 8, buffer 0).
`reserve(1)`, `reserve(5)` and `reserve(8)` keep capacity 8 and the container as it is,
`reserve(9)` gives capacity 16 and `reserve(100)` capacity 128, both in the new buffer 1
and with the same five elements. -/
theorem reserve_capacity_rule_witness :
    (vector.holding 0 [10, 11, 12, 13, 14] 8).WF ∧
    (∀ n, n = 1 ∨ n = 5 ∨ n = 8 →
      (vector.holding 0 [10, 11, 12, 13, 14] 8).reserve Allocator.unlimited n ⟨1, []⟩ =
        .returns (vector.holding 0 [10, 11, 12, 13, 14] 8, ⟨1, []⟩)) ∧
    (∃ v1 w1, (vector.holding 0 [10, 11, 12, 13, 14] 8).reserve Allocator.unlimited 9 ⟨1, []⟩ =
        .returns (v1, w1) ∧ v1.capacity_ = 16 ∧ v1.size_ = 5 ∧
      v1.elements = [10, 11, 12, 13, 14] ∧ v1.data_.map Buffer.handle = some 1) ∧
    (∃ v1 w1, (vector.holding 0 [10, 11, 12, 13, 14] 8).reserve Allocator.unlimited 100
        ⟨1, []⟩ = .returns (v1, w1) ∧ v1.capacity_ = 128 ∧ v1.size_ = 5 ∧
      v1.elements = [10, 11, 12, 13, 14] ∧ v1.data_.map Buffer.handle = some 1) := by
  have hwf := WF_holding 0 [10, 11, 12, 13, 14] 8 (by decide) (by decide)
    (Or.inr ⟨3, by decide, by decide⟩)
  have key : ∀ n c, n ≤ 2 ^ 63 → calculate_capacity n = some c →
      ∃ v1 w1, (vector.holding 0 [10, 11, 12, 13, 14] 8).reserve Allocator.unlimited n
          ⟨1, []⟩ = .returns (v1, w1) ∧
        v1.capacity_ = (if c ≤ 8 then 8 else c) ∧ v1.size_ = 5 ∧
        v1.elements = [10, 11, 12, 13, 14] ∧
        (c ≤ 8 → v1 = vector.holding 0 [10, 11, 12, 13, 14] 8 ∧ w1 = ⟨1, []⟩) ∧
        (8 < c → v1.data_.map Buffer.handle = some 1) := by
    intro n c hn hc
    have h := reserve_capacity_rule Allocator.unlimited
      (vector.holding 0 [10, 11, 12, 13, 14] 8) n ⟨1, []⟩ hwf
    obtain ⟨v1, w1, heq⟩ := h.2 hn (fun _ _ _ => rfl)
    obtain ⟨c1, hc1, h1, -, h3, h4, h5, h6⟩ := h.1 v1 w1 heq
    rw [hc] at hc1
    injection hc1 with hc1
    subst hc1
    exact ⟨v1, w1, heq, h1, h3, h4, h5, h6⟩
  refine ⟨hwf, ?_, ?_, ?_⟩
  · intro n hn
    rcases hn with rfl | rfl | rfl
    · obtain ⟨v1, w1, heq, -, -, -, h5, -⟩ := key 1 1 (by decide) (by decide)
      obtain ⟨hv, hw⟩ := h5 (by decide)
      rw [heq, hv, hw]
    · obtain ⟨v1, w1, heq, -, -, -, h5, -⟩ := key 5 8 (by decide) (by decide)
      obtain ⟨hv, hw⟩ := h5 (by decide)
      rw [heq, hv, hw]
    · obtain ⟨v1, w1, heq, -, -, -, h5, -⟩ := key 8 8 (by decide) (by decide)
      obtain ⟨hv, hw⟩ := h5 (by decide)
      rw [heq, hv, hw]
  · obtain ⟨v1, w1, heq, h1, h3, h4, -, h6⟩ := key 9 16 (by decide) (by decide)
    exact ⟨v1, w1, heq, h1, h3, h4, h6 (by decide)⟩
  · obtain ⟨v1, w1, heq, h1, h3, h4, -, h6⟩ := key 100 128 (by decide) (by decide)
    exact ⟨v1, w1, heq, h1, h3, h4, h6 (by decide)⟩

theorem subscript_read_at (b : Buffer T) (index : Nat) :
    subscript (some b) index =
      (read_at (some b) index).map (fun x => ⟨b.handle, index, x⟩) := by
  simp only [subscript, read_at]
  cases hb : b.slots[index]? with
  | none => rfl
  | some o =>
    cases o with
    | none => rfl
    | some x => rfl

theorem subscript_live (v : vector T) (index : Nat) (hwf : v.WF) (hi : index < v.size_) :
    ∃ r : Ref T, subscript v.data_ index = some r ∧ r.index = index ∧
      v.data_.map Buffer.handle = some r.handle ∧ v.elements[index]? = some r.object := by
  have hel := operator_index_elements v hwf index hi
  have hlen := elements_length v hwf
  rcases WF_cases v hwf with ⟨-, -, hs0, -⟩ | ⟨h, xs, -, -, -, hdata⟩
  · omega
  · have hx : v.elements[index]? = some (v.elements[index]) :=
      List.getElem?_eq_getElem (by omega)
    rw [hx] at hel
    simp only [vector.operator_index, hdata] at hel
    refine ⟨⟨h, index, v.elements[index]⟩, ?_, rfl, by rw [hdata]; rfl, hx⟩
    rw [hdata, subscript_read_at, hel]
    rfl

/-- C12: checked access.  For every container `v` and every index, each of
the three overloads of `at` (mutable, const, rvalue) ends in `out_of_range`
exactly when `index >= size()`; for an index below the size of a container
in a valid state the three overloads return a reference, the very reference
the matching overload of `operator[]` returns: the slot `index` of the
container's buffer, holding the element `index`; on a container of size 0
every index is out of range. -/
theorem at_checked (v : vector T) (index : Nat) :
    (v.at_mutable index = .out_of_range ↔ index ≥ v.size_) ∧
    (v.at_const index = .out_of_range ↔ index ≥ v.size_) ∧
    (v.at_rvalue index = .out_of_range ↔ index ≥ v.size_) ∧
    (v.WF → index < v.size_ →
      ∃ r : Ref T,
        v.at_mutable index = .value r ∧ v.operator_index_mutable index = some r ∧
        v.at_const index = .value r ∧ v.operator_index_const index = some r ∧
        v.at_rvalue index = .value r ∧ v.operator_index_rvalue index = some r ∧
        r.index = index ∧ v.data_.map Buffer.handle = some r.handle ∧
        v.elements[index]? = some r.object) ∧
    (v.size_ = 0 →
      ∀ i, v.at_mutable i = .out_of_range ∧ v.at_const i = .out_of_range ∧
        v.at_rvalue i = .out_of_range) := by
  have hiff :
      ((if index ≥ v.size_ then Checked.out_of_range
        else match subscript v.data_ index with
          | some r => .value r
          | none => .undefined) = .out_of_range ↔ index ≥ v.size_) := by
    by_cases h : index ≥ v.size_
    · simp [h]
    · simp only [if_neg h, h, iff_false]
      cases subscript v.data_ index with
      | none => intro hc; cases hc
      | some r => intro hc; cases hc
  refine ⟨hiff, hiff, hiff, ?_, ?_⟩
  · intro hwf hi
    obtain ⟨r, hr, h1, h2, h3⟩ := subscript_live v index hwf hi
    have hn : ¬ (index ≥ v.size_) := by omega
    exact ⟨r, by simp only [vector.at_mutable, if_neg hn, hr], hr,
      by simp only [vector.at_const, if_neg hn, hr], hr,
      by simp only [vector.at_rvalue, if_neg hn, hr], hr, h1, h2, h3⟩
  · intro h0 i
    have hge : i ≥ v.size_ := by omega
    exact ⟨by simp only [vector.at_mutable, if_pos hge],
      by simp only [vector.at_const, if_pos hge],
      by simp only [vector.at_rvalue, if_pos hge]⟩

/-- Witness of C12: in the five-element container of the tests (capacity 8, buffer 0),
`at(4)` and `operator[](4)` give the same reference, to slot 4 of buffer 0 holding 14,
while `at(5)` is out of range although slot 5 is inside the buffer; and in a
default-constructed container `at(0)` and `at(1)` are out of range. -/
theorem at_checked_witness :
    (vector.holding 0 [10, 11, 12, 13, 14] 8).WF ∧
    (vector.holding 0 [10, 11, 12, 13, 14] 8).at_mutable 4 = .value ⟨0, 4, 14⟩ ∧
    (vector.holding 0 [10, 11, 12, 13, 14] 8).operator_index_mutable 4 = some ⟨0, 4, 14⟩ ∧
    (vector.holding 0 [10, 11, 12, 13, 14] 8).at_const 4 = .value ⟨0, 4, 14⟩ ∧
    (vector.holding 0 [10, 11, 12, 13, 14] 8).at_rvalue 4 = .value ⟨0, 4, 14⟩ ∧
    (vector.holding 0 [10, 11, 12, 13, 14] 8).at_mutable 5 = .out_of_range ∧
    (vector.vector_default : vector Nat).at_mutable 0 = .out_of_range ∧
    (vector.vector_default : vector Nat).at_const 1 = .out_of_range := by
  have hwf := WF_holding 0 [10, 11, 12, 13, 14] 8 (by decide) (by decide)
    (Or.inr ⟨3, by decide, by decide⟩)
  obtain ⟨-, -, -, hlive, -⟩ := at_checked (vector.holding 0 [10, 11, 12, 13, 14] 8) 4
  obtain ⟨r, h1, h2, h3, -, h5, -, h7, h8, h9⟩ := hlive hwf (by decide)
  have hr : r = ⟨0, 4, 14⟩ := by
    obtain ⟨rh, ri, ro⟩ := r
    have hh : rh = 0 := by
      have : some (0 : Nat) = some rh := h8
      injection this with this
      exact this.symm
    have ho : ro = 14 := by
      have : some (14 : Nat) = some ro := h9
      injection this with this
      exact this.symm
    have hi : ri = 4 := h7
    subst hh ho hi
    rfl
  subst hr
  exact ⟨hwf, h1, h2, h3, h5,
    ((at_checked (vector.holding 0 [10, 11, 12, 13, 14] 8) 5).1).mpr (by decide),
    ((at_checked (vector.vector_default : vector Nat) 0).2.2.2.2 rfl 0).1,
    ((at_checked (vector.vector_default : vector Nat) 1).2.2.2.2 rfl 1).2.1⟩

/-! ## Proofs: the constructors -/

theorem first_failure_index (init_func : InitFunc T ε) (ys : List T) (k : Nat) (e e1 : ε)
    (hok1 : ∀ i y, ys[i]? = some y → init_func i = .ok y)
    (herr : init_func ys.length = .error e1)
    (hok : ∀ i, i < k → ∃ x, init_func i = .ok x)
    (hfail : init_func k = .error e) : ys.length = k ∧ e1 = e := by
  have hlen : ys.length = k := by
    rcases Nat.lt_trichotomy ys.length k with h | h | h
    · obtain ⟨x, hx⟩ := hok ys.length h
      rw [hx] at herr
      cases herr
    · exact h
    · have := hok1 k ys[k] (List.getElem?_eq_getElem h)
      rw [this] at hfail
      cases hfail
  refine ⟨hlen, ?_⟩
  rw [hlen, hfail] at herr
  injection herr with herr
  exact herr.symm

theorem vector_init_zero (A : Allocator ε) (init_func : InitFunc T ε) (w : World) :
    vector.vector_init A 0 init_func w = .returns (⟨none, 0, 0⟩, w) := by
  simp only [vector.vector_init, calculate_capacity_zero]
  simp only [alloc, if_true, construct_section, Nat.sub_zero, construct_section_loop]

theorem vector_init_success (A : Allocator ε) (n : Nat) (init_func : InitFunc T ε)
    (g : Nat → T) (w : World) (hinit : ∀ i, i < n → init_func i = .ok (g i)) :
    (∀ v1 w1, vector.vector_init A n init_func w = .returns (v1, w1) →
      v1.WF ∧ v1.size_ = n ∧ calculate_capacity n = some v1.capacity_ ∧
      v1.elements = (List.range' 0 n).map g) ∧
    (n ≤ 2 ^ 63 →
      (∀ c, calculate_capacity n = some c → c ≠ 0 → A.allocate_throws w c = none) →
      ∃ v1 w1, vector.vector_init A n init_func w = .returns (v1, w1)) := by
  have hinit1 : ∀ i, 0 ≤ i → i < 0 + n → init_func i = .ok (g i) :=
    fun i _ h2 => hinit i (by omega)
  rcases vector_init_spec A n init_func w with ⟨hnone, hdiv⟩ | ⟨c, hc, hrest⟩
  · refine ⟨?_, ?_⟩
    · intro v1 w1 h1
      rw [hdiv] at h1
      cases h1
    · intro hcap _
      obtain ⟨c, hc, -⟩ := calculate_capacity_total n hcap
      rw [hc] at hnone
      cases hnone
  · rcases hrest with ⟨e, w2, hc0, hthrows, heq⟩ | ⟨-, hrest⟩
    · refine ⟨?_, ?_⟩
      · intro v1 w1 h1
        rw [heq] at h1
        cases h1
      · intro _ halloc
        rw [halloc c hc hc0] at hthrows
        cases hthrows
    · rcases hrest with ⟨ys, v2, w2, hlen, hok, heq, hwf, hs, hcp, hel⟩ |
        ⟨ys, e, w2, hlen, -, herr, -⟩
      · have hok0 : ∀ i y, ys[i]? = some y → init_func (0 + i) = .ok y := by
          intro i y h
          rw [Nat.zero_add]
          exact hok i y h
        have hys := constructed_values init_func g ys 0 n hlen hok0 hinit1
        refine ⟨?_, fun _ _ => ⟨v2, w2, heq⟩⟩
        intro v1 w1 h1
        rw [heq] at h1
        injection h1 with h1
        injection h1 with hv hw
        subst hv hw
        exact ⟨hwf, hs, by rw [hc, hcp], by rw [hel, hys]⟩
      · rw [hinit ys.length hlen] at herr
        cases herr

theorem vector_init_failure_log (A : Allocator ε) (n : Nat) (init_func : InitFunc T ε)
    (w : World) (c k : Nat) (e : ε) (hc : calculate_capacity n = some c) (hk : k < n)
    (hok : ∀ i, i < k → ∃ x, init_func i = .ok x) (hfail : init_func k = .error e)
    (halloc : A.allocate_throws w c = none) :
    vector.vector_init A n init_func w =
      .throws e ⟨w.next_handle + 1,
        w.log ++ ([Event.allocate c w.next_handle] ++
          ((List.range' 0 k).map (Event.construct w.next_handle) ++
            ([Event.construct_throws w.next_handle k] ++
              ((List.range' 0 k).map (Event.destruct w.next_handle) ++
                [Event.deallocate w.next_handle c]))))⟩ := by
  obtain ⟨-, hnc, -, hc0⟩ := calculate_capacity_some n c hc
  have hz : c ≠ 0 := by
    intro h0
    have := hc0.mp h0
    omega
  have hsplit : List.replicate c (none : Option T)
      = [] ++ (List.replicate n none ++ List.replicate (c - n) none) := by
    rw [List.nil_append, List.append_replicate_replicate]
    congr 1
    omega
  rcases construct_section_spec init_func w.next_handle n []
      (List.replicate (c - n) none)
      ⟨w.next_handle + 1, w.log ++ [Event.allocate c w.next_handle]⟩ with
    ⟨ys, hys, hok1, -⟩ | ⟨ys, e1, hys, hok1, herr, heq⟩
  · simp only [List.length_nil, Nat.zero_add] at hok1
    obtain ⟨x, hx⟩ : ∃ x, init_func k = .ok x :=
      ⟨ys[k], hok1 k ys[k] (List.getElem?_eq_getElem (by omega))⟩
    rw [hx] at hfail
    cases hfail
  · simp only [List.length_nil, Nat.zero_add, List.nil_append] at heq hok1 herr
    obtain ⟨hlen, he⟩ := first_failure_index init_func ys k e e1 hok1 herr hok hfail
    subst he
    simp only [vector.vector_init, hc, alloc, hz, if_false, halloc]
    rw [hsplit, List.nil_append, heq]
    simp only [dealloc, hz, if_false, World.record, hlen, List.append_assoc]

theorem range_map_const (n : Nat) (d : T) :
    (List.range' 0 n).map (fun _ => d) = List.replicate n d := by
  rw [List.map_const']
  simp

/-- C13: sized construction.  For every `n`, whenever `vector(n)` returns,
with `d` the value default construction gives, the container has size `n`,
capacity `calculate_capacity(n)` and the `n` elements `d`; whenever
`vector(n, value)` returns, with `y` the copy of `value`, it has size `n`,
capacity `calculate_capacity(n)` and the `n` elements `y`.  Both
constructors do return when `n <= 2^63` and `allocate` does not throw.  For
`n = 0` both return, for every element type and allocator, the empty
container with capacity 0 and no buffer, and the world is untouched. -/
theorem sized_construction (E : Element T ε) (A : Allocator ε) (n : Nat) (w : World) :
    (∀ d, E.default_ctor = .ok d →
      (∀ v1 w1, vector.vector_n E A n w = .returns (v1, w1) →
        v1.WF ∧ v1.size_ = n ∧ calculate_capacity n = some v1.capacity_ ∧
        v1.elements = List.replicate n d) ∧
      (n ≤ 2 ^ 63 →
        (∀ c, calculate_capacity n = some c → c ≠ 0 → A.allocate_throws w c = none) →
        ∃ v1 w1, vector.vector_n E A n w = .returns (v1, w1))) ∧
    (∀ value y, E.copy_ctor value = .ok y →
      (∀ v1 w1, vector.vector_n_element E A n value w = .returns (v1, w1) →
        v1.WF ∧ v1.size_ = n ∧ calculate_capacity n = some v1.capacity_ ∧
        v1.elements = List.replicate n y) ∧
      (n ≤ 2 ^ 63 →
        (∀ c, calculate_capacity n = some c → c ≠ 0 → A.allocate_throws w c = none) →
        ∃ v1 w1, vector.vector_n_element E A n value w = .returns (v1, w1))) ∧
    vector.vector_n E A 0 w = .returns (⟨none, 0, 0⟩, w) ∧
    (∀ value, vector.vector_n_element E A 0 value w = .returns (⟨none, 0, 0⟩, w)) ∧
    (⟨none, 0, 0⟩ : vector T).empty = true := by
  refine ⟨?_, ?_, vector_init_zero A _ w, fun _ => vector_init_zero A _ w, rfl⟩
  · intro d hd
    have h := vector_init_success A n (fun _ => E.default_ctor) (fun _ => d) w
      (fun _ _ => hd)
    rw [range_map_const] at h
    exact h
  · intro value y hy
    have h := vector_init_success A n (fun _ => E.copy_ctor value) (fun _ => y) w
      (fun _ _ => hy)
    rw [range_map_const] at h
    exact h

/-- Witness of C13: the three construction tests.  `vector(5)` over an element type whose
default constructor gives 100 has size 5, capacity 8 and five elements 100; `vector(5, 10)`
has size 5, capacity 8 and five elements 10; `vector(0)` is empty with capacity 0. -/
theorem sized_construction_witness :
    (∃ v1 w1, vector.vector_n Element.obj Allocator.unlimited 5 World.initial =
        .returns (v1, w1) ∧
      v1.size_ = 5 ∧ v1.capacity_ = 8 ∧ v1.elements = [100, 100, 100, 100, 100]) ∧
    (∃ v1 w1, vector.vector_n_element Element.obj Allocator.unlimited 5 10 World.initial =
        .returns (v1, w1) ∧
      v1.size_ = 5 ∧ v1.capacity_ = 8 ∧ v1.elements = [10, 10, 10, 10, 10]) ∧
    vector.vector_n Element.obj Allocator.unlimited 0 World.initial =
      .returns (⟨none, 0, 0⟩, World.initial) := by
  have h := sized_construction Element.obj Allocator.unlimited 5 World.initial
  have h0 := sized_construction Element.obj Allocator.unlimited 0 World.initial
  have hcap : calculate_capacity 5 = some 8 := by decide
  refine ⟨?_, ?_, h0.2.2.1⟩
  · obtain ⟨hpost, hret⟩ := h.1 100 rfl
    obtain ⟨v1, w1, heq⟩ := hret (by decide) (fun _ _ _ => rfl)
    obtain ⟨-, h1, h2, h3⟩ := hpost v1 w1 heq
    rw [hcap] at h2
    injection h2 with h2
    exact ⟨v1, w1, heq, h1, h2.symm, h3⟩
  · obtain ⟨hpost, hret⟩ := h.2.1 10 10 rfl
    obtain ⟨v1, w1, heq⟩ := hret (by decide) (fun _ _ _ => rfl)
    obtain ⟨-, h1, h2, h3⟩ := hpost v1 w1 heq
    rw [hcap] at h2
    injection h2 with h2
    exact ⟨v1, w1, heq, h1, h2.symm, h3⟩

/-- C14: failed sized construction.  Let the private constructor
`vector(n, init_func)`, of which `vector(n)` and `vector(n, value)` are the
two instances, run with an initializer that succeeds at the indices below
`k < n` and fails with `e` at `k`, with `c = calculate_capacity(n)` and an
`allocate` that does not throw.  Then the constructor throws `e`, leaving no
container but only the world, whose log has grown by exactly: the allocation
of a buffer of `c` elements, the construction of the elements `0, ..., k - 1`
in it, the failed construction at `k`, the destruction of the elements
`0, ..., k - 1`, and the deallocation of that buffer with the same count
`c`. -/
theorem sized_construction_failure (A : Allocator ε) (n : Nat) (init_func : InitFunc T ε)
    (w : World) (c k : Nat) (e : ε) (hc : calculate_capacity n = some c) (hk : k < n)
    (hok : ∀ i, i < k → ∃ x, init_func i = .ok x) (hfail : init_func k = .error e)
    (halloc : A.allocate_throws w c = none) :
    vector.vector_init A n init_func w =
      .throws e ⟨w.next_handle + 1,
        w.log ++ ([Event.allocate c w.next_handle] ++
          ((List.range' 0 k).map (Event.construct w.next_handle) ++
            ([Event.construct_throws w.next_handle k] ++
              ((List.range' 0 k).map (Event.destruct w.next_handle) ++
                [Event.deallocate w.next_handle c]))))⟩ :=
  vector_init_failure_log A n init_func w c k e hc hk hok hfail halloc

/-- Witness of C14: constructing 5 elements with an initializer that fails at index 2:
buffer 0 is allocated for 8 elements, elements 0 and 1 are constructed, the construction
at 2 fails, elements 0 and 1 are destructed and buffer 0 is deallocated with count 8; and
`vector(5)` over an element type whose default constructor throws: the buffer is
allocated, the first construction fails, the buffer is deallocated. -/
theorem sized_construction_failure_witness :
    calculate_capacity 5 = some 8 ∧
    (vector.vector_init Allocator.unlimited 5
        (fun i => if i = 2 then .error Failure.artificial_exception else .ok (10 + i))
        World.initial : Outcome Failure (vector Nat × World) World) =
      .throws Failure.artificial_exception ⟨1,
        [Event.allocate 8 0, Event.construct 0 0, Event.construct 0 1,
         Event.construct_throws 0 2, Event.destruct 0 0, Event.destruct 0 1,
         Event.deallocate 0 8]⟩ ∧
    vector.vector_n (Element.throwing (fun _ => true)) Allocator.unlimited 5 World.initial =
      .throws Failure.artificial_exception ⟨1,
        [Event.allocate 8 0, Event.construct_throws 0 0, Event.deallocate 0 8]⟩ :=
  ⟨by decide,
   sized_construction_failure Allocator.unlimited 5
     (fun i => if i = 2 then .error Failure.artificial_exception else .ok (10 + i))
     World.initial 8 2 Failure.artificial_exception (by decide) (by decide)
     (fun i hi => ⟨10 + i, by simp only [if_neg (show ¬ i = 2 by omega)]⟩) rfl rfl,
   sized_construction_failure Allocator.unlimited 5
     (fun _ => (Element.throwing (fun _ => true)).default_ctor)
     World.initial 8 0 Failure.artificial_exception (by decide) (by decide)
     (fun i hi => absurd hi (Nat.not_lt_zero i)) rfl rfl⟩

/-! ## Proofs: copy construction and copy assignment -/

theorem copy_loop_handle (E : Element T ε) (other : vector T) :
    ∀ (count : Nat) (data : Ptr T) (index : Nat) (w : World) (data1 : Ptr T) (w1 : World),
      copy_loop E other count data index w = .completed data1 w1 →
      data1.map Buffer.handle = data.map Buffer.handle := by
  intro count
  induction count with
  | zero =>
    intro data index w data1 w1 h
    simp only [copy_loop] at h
    injection h with h1 h2
    rw [h1]
  | succ count ih =>
    intro data index w data1 w1 h
    simp only [copy_loop] at h
    cases hx : other.operator_index index with
    | none => rw [hx] at h; cases h
    | some x =>
      rw [hx] at h
      cases data with
      | none => cases h
      | some b =>
        simp only at h
        by_cases hi : index < b.slots.length
        · rw [if_pos hi] at h
          cases hy : E.copy_ctor x with
          | error e => rw [hy] at h; cases h
          | ok y =>
            rw [hy] at h
            have := ih _ _ _ _ _ h
            rw [this]
            rfl
        · rw [if_neg hi] at h
          cases h

theorem vector_copy_handle (E : Element T ε) (A : Allocator ε) (other : vector T) (w : World)
    (v1 : vector T) (w1 : World) (h : vector.vector_copy E A other w = .returns (v1, w1)) :
    v1.data_.map Buffer.handle = if v1.capacity_ = 0 then none else some w.next_handle := by
  simp only [vector.vector_copy] at h
  cases hc : calculate_capacity other.size_ with
  | none => rw [hc] at h; cases h
  | some c =>
    rw [hc] at h
    simp only at h
    cases ha : (alloc A c w : Except (ε × World) (Ptr T × World)) with
    | error p => rw [ha] at h; cases h
    | ok p =>
      obtain ⟨data, w2⟩ := p
      rw [ha] at h
      simp only at h
      cases hl : copy_loop E other other.size_ data 0 w2 with
      | undefined => rw [hl] at h; cases h
      | caught e di d3 w3 =>
        rw [hl] at h
        simp only at h
        cases hd : destruct d3 0 di w3 with
        | none => rw [hd] at h; cases h
        | some q => rw [hd] at h; cases h
      | completed data1 w3 =>
        rw [hl] at h
        injection h with h
        injection h with hv hw
        subst hv
        have hh := copy_loop_handle E other _ _ _ _ _ _ hl
        simp only
        rw [hh]
        simp only [alloc] at ha
        by_cases hz : c = 0
        · rw [if_pos hz] at ha
          injection ha with ha
          injection ha with hd _
          rw [← hd, if_pos hz]
          rfl
        · rw [if_neg hz] at ha
          cases hat : A.allocate_throws w c with
          | some e => rw [hat] at ha; cases ha
          | none =>
            rw [hat] at ha
            injection ha with ha
            injection ha with hd _
            rw [← hd, if_neg hz]
            rfl

theorem copies_forward (E : Element T ε) (xs ys : List T) (hlen : ys.length = xs.length)
    (h : ∀ (i : Nat) (y : T), ys[i]? = some y → ∃ x, xs[i]? = some x ∧ E.copy_ctor x = .ok y) :
    ∀ (i : Nat) (x : T), xs[i]? = some x → ∃ y, ys[i]? = some y ∧ E.copy_ctor x = .ok y := by
  intro i x hx
  have hi : i < xs.length := by
    rcases Nat.lt_or_ge i xs.length with h1 | h1
    · exact h1
    · rw [List.getElem?_eq_none h1] at hx
      cases hx
  have hy : ys[i]? = some (ys.get ⟨i, by omega⟩) := List.getElem?_eq_getElem (by omega)
  obtain ⟨x1, hx1, hcopy⟩ := h i _ hy
  rw [hx] at hx1
  injection hx1 with hx1
  subst hx1
  exact ⟨_, hy, hcopy⟩

theorem copies_equal (E : Element T ε) (xs ys : List T) (hlen : ys.length = xs.length)
    (h : ∀ (i : Nat) (y : T), ys[i]? = some y → ∃ x, xs[i]? = some x ∧ E.copy_ctor x = .ok y)
    (hfaith : ∀ x y, E.copy_ctor x = .ok y → y = x) : ys = xs := by
  apply List.ext_getElem? 
  intro i
  cases hy : ys[i]? with
  | some y =>
    obtain ⟨x, hx, hcopy⟩ := h i y hy
    rw [hx, hfaith x y hcopy]
  | none =>
    have hi : xs.length ≤ i := by
      rcases Nat.lt_or_ge i ys.length with h1 | h1
      · rw [List.getElem?_eq_getElem h1] at hy
        cases hy
      · omega
    rw [List.getElem?_eq_none hi]

theorem copy_never_fails (E : Element T ε) (xs : List T) (k : Nat) (e : ε)
    (hall : ∀ x, x ∈ xs → ∃ y, E.copy_ctor x = .ok y)
    (hfail : ∃ x, xs[k]? = some x ∧ E.copy_ctor x = .error e) : False := by
  obtain ⟨x, hx, herr⟩ := hfail
  obtain ⟨y, hy⟩ := hall x (List.getElem?_mem hx)
  rw [hy] at herr
  cases herr

/-- C15: copy construction.  For a container `v` in a valid state, whenever
the copy constructor returns the copy `c1`: `c1` has the size of `v` and the
capacity `calculate_capacity(v.size())`, whatever the capacity of `v`; the
element `i` of `c1` is the result of copy-constructing the element `i` of
`v`, so the elements are equal to those of `v` when copy construction yields
an equal object; and `c1` lives in a freshly allocated buffer (none when `v`
is empty), not in the buffer of `v`, so that writing to `c1` cannot reach `v`.
The source `v` is a `const` reference: the constructor only reads it.  And
the copy constructor does return when every element can be copied and
`allocate` does not throw. -/
theorem copy_construction (E : Element T ε) (A : Allocator ε) (v : vector T) (w : World)
    (hwf : v.WF) :
    (∀ c1 w1, vector.vector_copy E A v w = .returns (c1, w1) →
      c1.WF ∧ c1.size_ = v.size_ ∧ calculate_capacity v.size_ = some c1.capacity_ ∧
      (∀ (i : Nat) (x : T), v.elements[i]? = some x →
        ∃ y, c1.elements[i]? = some y ∧ E.copy_ctor x = .ok y) ∧
      ((∀ x y, E.copy_ctor x = .ok y → y = x) → c1.elements = v.elements) ∧
      c1.data_.map Buffer.handle = (if v.size_ = 0 then none else some w.next_handle) ∧
      (∀ b b1, v.data_ = some b → c1.data_ = some b1 → b.handle < w.next_handle →
        b1.handle ≠ b.handle)) ∧
    ((∀ x, x ∈ v.elements → ∃ y, E.copy_ctor x = .ok y) →
      (∀ c, calculate_capacity v.size_ = some c → c ≠ 0 → A.allocate_throws w c = none) →
      ∃ c1 w1, vector.vector_copy E A v w = .returns (c1, w1)) := by
  have hlenv := elements_length v hwf
  obtain ⟨c, hc, hrest⟩ := vector_copy_spec E A v w hwf
  obtain ⟨-, -, -, hc0⟩ := calculate_capacity_some _ c hc
  rcases hrest with ⟨e, w2, hcne, hthrows, heq⟩ | ⟨-, hrest⟩
  · refine ⟨?_, ?_⟩
    · intro c1 w1 h1
      rw [heq] at h1
      cases h1
    · intro _ halloc
      rw [halloc c hc hcne] at hthrows
      cases hthrows
  · rcases hrest with ⟨ys, v2, w2, hlen, hok, heq, hwf2, hs, hcp, hel⟩ |
      ⟨ys, e, w2, -, -, herr, heq⟩
    · refine ⟨?_, fun _ _ => ⟨v2, w2, heq⟩⟩
      intro c1 w1 h1
      have hh := vector_copy_handle E A v w c1 w1 h1
      rw [heq] at h1
      injection h1 with h1
      injection h1 with hv hw
      subst hv hw
      have hlen2 : ys.length = v.elements.length := by rw [hlen, hlenv]
      have hcz : (v2.capacity_ = 0) = (v.size_ = 0) := by
        rw [hcp]
        exact propext hc0
      have hhandle : v2.data_.map Buffer.handle =
          (if v.size_ = 0 then none else some w.next_handle) := by
        rw [hh]
        simp only [hcz]
      refine ⟨hwf2, hs, by rw [hc, hcp], ?_, ?_, hhandle, ?_⟩
      · rw [hel]
        exact copies_forward E v.elements ys hlen2 hok
      · intro hfaith
        rw [hel]
        exact copies_equal E v.elements ys hlen2 hok hfaith
      · intro b b1 hb hb1 hlt heqh
        rw [hb1] at hhandle
        by_cases h0 : v.size_ = 0
        · rw [if_pos h0] at hhandle
          cases hhandle
        · rw [if_neg h0] at hhandle
          simp only [Option.map_some', Option.some.injEq] at hhandle
          omega
    · refine ⟨?_, ?_⟩
      · intro c1 w1 h1
        rw [heq] at h1
        cases h1
      · intro hall _
        exact (copy_never_fails E v.elements ys.length e hall herr).elim

/-- Witness of C15: the source of the copy-construction test, three elements left in a
buffer of capacity 8 (buffer 0): the copy has size 3, capacity 4, the same three elements,
and lives in the new buffer 1. -/
theorem copy_construction_witness :
    (vector.holding 0 [10, 11, 12] 8).WF ∧
    ∃ c1 w1, vector.vector_copy Element.obj Allocator.unlimited
        (vector.holding 0 [10, 11, 12] 8) ⟨1, []⟩ = .returns (c1, w1) ∧
      c1.size_ = 3 ∧ c1.capacity_ = 4 ∧ c1.elements = [10, 11, 12] ∧
      c1.data_.map Buffer.handle = some 1 := by
  have hwf := WF_holding 0 [10, 11, 12] 8 (by decide) (by decide)
    (Or.inr ⟨3, by decide, by decide⟩)
  have h := copy_construction Element.obj Allocator.unlimited
    (vector.holding 0 [10, 11, 12] 8) ⟨1, []⟩ hwf
  obtain ⟨c1, w1, heq⟩ := h.2 (fun x _ => ⟨x, rfl⟩) (fun _ _ _ => rfl)
  obtain ⟨-, h1, h2, -, h4, h5, -⟩ := h.1 c1 w1 heq
  have hcap : calculate_capacity (vector.holding 0 [10, 11, 12] 8).size_ = some 4 := by decide
  rw [hcap] at h2
  injection h2 with h2
  refine ⟨hwf, c1, w1, heq, h1, h2.symm, ?_, h5⟩
  rw [h4 (fun x y hxy => (Except.ok.inj hxy).symm)]
  exact elements_holding 0 [10, 11, 12] 8

/-- C16: copy assignment between distinct containers.  For the objects at
two different addresses `dst` and `src`, both in a valid state, whenever
`dst = src` returns: `dst` has the size of `src` and the capacity
`calculate_capacity(src.size())`, whatever its size and capacity were; its
element `i` is the result of copy-constructing the element `i` of `src`, so
its elements are those of `src` when copy construction yields an equal
object; `src`, and every object other than `dst`, is what it was.  And the
assignment does return when every element of `src` can be copied and
`allocate` does not throw. -/
theorem copy_assignment (E : Element T ε) (A : Allocator ε) (objects : Objects T)
    (dst src : Nat) (w : World) (hne : dst ≠ src) (hd : (objects dst).WF)
    (hs : (objects src).WF) :
    (∀ objects1 w1, vector.operator_assign_copy E A objects dst src w =
        .returns (objects1, w1) →
      (objects1 dst).WF ∧ (objects1 dst).size_ = (objects src).size_ ∧
      calculate_capacity (objects src).size_ = some (objects1 dst).capacity_ ∧
      (∀ (i : Nat) (x : T), (objects src).elements[i]? = some x →
        ∃ y, (objects1 dst).elements[i]? = some y ∧ E.copy_ctor x = .ok y) ∧
      ((∀ x y, E.copy_ctor x = .ok y → y = x) →
        (objects1 dst).elements = (objects src).elements) ∧
      objects1 src = objects src ∧ (∀ a, a ≠ dst → objects1 a = objects a)) ∧
    ((∀ x, x ∈ (objects src).elements → ∃ y, E.copy_ctor x = .ok y) →
      (∀ c, calculate_capacity (objects src).size_ = some c → c ≠ 0 →
        A.allocate_throws w c = none) →
      ∃ objects1 w1, vector.operator_assign_copy E A objects dst src w =
        .returns (objects1, w1)) := by
  have hlens := elements_length (objects src) hs
  obtain ⟨c, hc, hrest⟩ := assign_copy_spec E A (objects dst) (objects src) w hd hs
  rcases hrest with ⟨e, w2, hcne, hthrows, heq⟩ | ⟨-, hrest⟩
  · have hunfold : vector.operator_assign_copy E A objects dst src w =
        .throws e (Function.update objects dst (objects dst), w2) := by
      simp only [vector.operator_assign_copy, if_neg hne, heq]
    refine ⟨?_, ?_⟩
    · intro objects1 w1 h1
      rw [hunfold] at h1
      cases h1
    · intro _ halloc
      rw [halloc c hc hcne] at hthrows
      cases hthrows
  · rcases hrest with ⟨ys, v2, w2, hlen, hok, heq, hwf2, hsz, hcp, hel⟩ |
      ⟨ys, e, w2, -, -, herr, heq⟩
    · have hunfold : vector.operator_assign_copy E A objects dst src w =
          .returns (Function.update objects dst v2, w2) := by
        simp only [vector.operator_assign_copy, if_neg hne, heq]
      refine ⟨?_, fun _ _ => ⟨_, _, hunfold⟩⟩
      intro objects1 w1 h1
      rw [hunfold] at h1
      injection h1 with h1
      injection h1 with ho hw
      subst ho hw
      have hlen2 : ys.length = (objects src).elements.length := by rw [hlen, hlens]
      rw [Function.update_same]
      refine ⟨hwf2, hsz, by rw [hc, hcp], ?_, ?_, Function.update_noteq (Ne.symm hne) _ _,
        fun a ha => Function.update_noteq ha _ _⟩
      · rw [hel]
        exact copies_forward E _ ys hlen2 hok
      · intro hfaith
        rw [hel]
        exact copies_equal E _ ys hlen2 hok hfaith
    · have hunfold : vector.operator_assign_copy E A objects dst src w =
          .throws e (Function.update objects dst (objects dst), w2) := by
        simp only [vector.operator_assign_copy, if_neg hne, heq]
      refine ⟨?_, ?_⟩
      · intro objects1 w1 h1
        rw [hunfold] at h1
        cases h1
      · intro hall _
        exact (copy_never_fails E _ ys.length e hall herr).elim

/-- Witness of C16: the "to longer non-empty" copy-assignment test.  The destination at
address 0 holds seven elements 20 at capacity 8, the source at address 1 holds 10, 11, 12
at capacity 8; after the assignment the destination has size 3, capacity 4 and the
elements 10, 11, 12, and the source still has size 3, capacity 8 and its elements. -/
theorem copy_assignment_witness :
    ∃ objects1 w1, vector.operator_assign_copy Element.obj Allocator.unlimited
        (fun a => if a = 0 then vector.holding 0 [20, 20, 20, 20, 20, 20, 20] 8
          else vector.holding 1 [10, 11, 12] 8) 0 1 ⟨2, []⟩ = .returns (objects1, w1) ∧
      (objects1 0).size_ = 3 ∧ (objects1 0).capacity_ = 4 ∧
      (objects1 0).elements = [10, 11, 12] ∧
      (objects1 1).size_ = 3 ∧ (objects1 1).capacity_ = 8 ∧
      (objects1 1).elements = [10, 11, 12] := by
  have hd := WF_holding 0 [20, 20, 20, 20, 20, 20, 20] 8 (by decide) (by decide)
    (Or.inr ⟨3, by decide, by decide⟩)
  have hs := WF_holding 1 [10, 11, 12] 8 (by decide) (by decide)
    (Or.inr ⟨3, by decide, by decide⟩)
  have h := copy_assignment Element.obj Allocator.unlimited
    (fun a => if a = 0 then vector.holding 0 [20, 20, 20, 20, 20, 20, 20] 8
      else vector.holding 1 [10, 11, 12] 8) 0 1 ⟨2, []⟩ (by decide) hd hs
  obtain ⟨objects1, w1, heq⟩ := h.2 (fun x _ => ⟨x, rfl⟩) (fun _ _ _ => rfl)
  obtain ⟨-, h1, h2, -, h4, h5, -⟩ := h.1 objects1 w1 heq
  have hcap : calculate_capacity (vector.holding 1 [10, 11, 12] 8).size_ = some 4 := by decide
  have h2a : calculate_capacity (vector.holding 1 [10, 11, 12] 8).size_ =
      some (objects1 0).capacity_ := h2
  rw [hcap] at h2a
  injection h2a with h2a
  have h4a := h4 (fun x y hxy => (Except.ok.inj hxy).symm)
  refine ⟨objects1, w1, heq, h1, h2a.symm, ?_, ?_, ?_, ?_⟩
  · rw [h4a]
    exact elements_holding 1 [10, 11, 12] 8
  · rw [h5]
    rfl
  · rw [h5]
    rfl
  · rw [h5]
    exact elements_holding 1 [10, 11, 12] 8

/-! ## Proofs: self-assignment and moves -/

/-- C17: copy self-assignment.  For the object at any address `v`, in any
state, with any element type and allocator, `v = v` returns at once: no
object of the program is changed, so `v` keeps its size, capacity, elements
and buffer, and the world is what it was: nothing is allocated, constructed,
copied or destructed. -/
theorem copy_self_assignment (E : Element T ε) (A : Allocator ε) (objects : Objects T)
    (v : Nat) (w : World) :
    ∃ objects1 w1, vector.operator_assign_copy E A objects v v w = .returns (objects1, w1) ∧
      objects1 = objects ∧ w1 = w ∧
      (objects1 v).size_ = (objects v).size_ ∧
      (objects1 v).capacity_ = (objects v).capacity_ ∧
      (objects1 v).elements = (objects v).elements ∧
      (objects1 v).data_ = (objects v).data_ ∧ w1.log = w.log :=
  ⟨objects, w, by simp only [vector.operator_assign_copy, if_true], rfl, rfl, rfl, rfl, rfl,
    rfl, rfl⟩

/-- C18: move construction.  Building a new object at address `dst` from
the object at another address `src` gives `dst` exactly the buffer, size and
capacity, hence the elements, `src` had, and leaves `src` with a null buffer,
size 0 and capacity 0; no other object changes and the world is what it was:
nothing is allocated, constructed, copied or destructed. -/
theorem move_construction (objects : Objects T) (dst src : Nat) (w : World)
    (hne : dst ≠ src) :
    ∃ objects1 w1, vector.vector_move_at objects dst src w = (objects1, w1) ∧
      w1 = w ∧
      (objects1 dst).data_ = (objects src).data_ ∧
      (objects1 dst).size_ = (objects src).size_ ∧
      (objects1 dst).capacity_ = (objects src).capacity_ ∧
      (objects1 dst).elements = (objects src).elements ∧
      (objects1 src).data_ = none ∧ (objects1 src).size_ = 0 ∧
      (objects1 src).capacity_ = 0 ∧ (objects1 src).elements = [] ∧
      (objects1 src).empty = true ∧
      (∀ a, a ≠ dst → a ≠ src → objects1 a = objects a) := by
  have hdst : (vector.vector_move_at objects dst src w).1 dst = objects src := by
    simp only [vector.vector_move_at, Function.update_same, vector.vector_move]
  have hsrc : (vector.vector_move_at objects dst src w).1 src = ⟨none, 0, 0⟩ := by
    simp only [vector.vector_move_at, vector.vector_move]
    rw [Function.update_noteq (Ne.symm hne), Function.update_same]
  refine ⟨(vector.vector_move_at objects dst src w).1, w, rfl, rfl, by rw [hdst], by rw [hdst],
    by rw [hdst], by rw [hdst], by rw [hsrc], by rw [hsrc], by rw [hsrc], by rw [hsrc]; rfl,
    by rw [hsrc]; rfl, ?_⟩
  intro a ha1 ha2
  simp only [vector.vector_move_at]
  rw [Function.update_noteq ha1, Function.update_noteq ha2]

/-- Witness of C18: the move-construction test.  The source at address 1 holds five
elements in buffer 0 at capacity 8; the new object at address 0 gets buffer 0, size 5,
capacity 8 and the five elements, the source is left with no buffer, size 0 and
capacity 0, and the log stays empty. -/
theorem move_construction_witness :
    ∃ objects1 w1, vector.vector_move_at
        (fun a => if a = 1 then vector.holding 0 [10, 11, 12, 13, 14] 8 else {}) 0 1
        World.initial = (objects1, w1) ∧
      w1.log = [] ∧
      (objects1 0).data_.map Buffer.handle = some 0 ∧ (objects1 0).size_ = 5 ∧
      (objects1 0).capacity_ = 8 ∧ (objects1 0).elements = [10, 11, 12, 13, 14] ∧
      (objects1 1).data_ = none ∧ (objects1 1).size_ = 0 ∧ (objects1 1).capacity_ = 0 := by
  obtain ⟨objects1, w1, heq, hw, h1, h2, h3, h4, h5, h6, h7, -⟩ :=
    move_construction (fun a => if a = 1 then vector.holding 0 [10, 11, 12, 13, 14] 8 else {})
      0 1 World.initial (by decide)
  refine ⟨objects1, w1, heq, by rw [hw]; rfl, by rw [h1]; rfl, by rw [h2]; rfl,
    by rw [h3]; rfl, ?_, h5, h6, h7⟩
  rw [h4]
  exact elements_holding 0 [10, 11, 12, 13, 14] 8

/-- C19: move assignment between distinct containers.  For the objects at
two different addresses `dst` and `src`, `dst` in a valid state,
`dst = std::move(src)` returns with: `dst` being exactly what `src` was
(buffer, size, capacity, hence elements); `src` with size 0, no live element,
and the capacity and the buffer `dst` had; no other object changed; and the
log grown by exactly the destruction of the former elements
`0, ..., size - 1` of `dst`, in their buffer. -/
theorem move_assignment (objects : Objects T) (dst src : Nat) (w : World) (hne : dst ≠ src)
    (hd : (objects dst).WF) :
    ∃ objects1, vector.operator_assign_move objects dst src w =
        some (objects1, ⟨w.next_handle,
          w.log ++ destruct_events (objects dst).data_ 0 (objects dst).size_⟩) ∧
      objects1 dst = objects src ∧
      (objects1 dst).data_.map Buffer.handle = (objects src).data_.map Buffer.handle ∧
      (objects1 dst).size_ = (objects src).size_ ∧
      (objects1 dst).capacity_ = (objects src).capacity_ ∧
      (objects1 dst).elements = (objects src).elements ∧
      (objects1 src).WF ∧ (objects1 src).size_ = 0 ∧ (objects1 src).elements = [] ∧
      (objects1 src).capacity_ = (objects dst).capacity_ ∧
      (objects1 src).data_.map Buffer.handle = (objects dst).data_.map Buffer.handle ∧
      (∀ a, a ≠ dst → a ≠ src → objects1 a = objects a) := by
  obtain ⟨v1, hcl, hwf1, hs1, hc1, he1, hh1⟩ := clear_log (objects dst) w hd
  have hdst : Function.update (Function.update objects dst
      (⟨(objects src).data_, (objects src).capacity_, (objects src).size_⟩ : vector T))
      src (⟨v1.data_, v1.capacity_, v1.size_⟩ : vector T) dst = objects src := by
    rw [Function.update_noteq hne, Function.update_same]
  have hsrc : Function.update (Function.update objects dst
      (⟨(objects src).data_, (objects src).capacity_, (objects src).size_⟩ : vector T))
      src (⟨v1.data_, v1.capacity_, v1.size_⟩ : vector T) src = v1 := by
    rw [Function.update_same]
  refine ⟨_, by simp only [vector.operator_assign_move, hcl, if_neg hne], hdst, by rw [hdst],
    by rw [hdst], by rw [hdst], by rw [hdst], by rw [hsrc]; exact hwf1, by rw [hsrc]; exact hs1,
    by rw [hsrc]; exact he1, by rw [hsrc]; exact hc1, by rw [hsrc]; exact hh1, ?_⟩
  intro a ha1 ha2
  rw [Function.update_noteq ha2, Function.update_noteq ha1]

/-- Witness of C19: the two move-assignment tests, the source (address 1) holding five
elements in buffer 0 at capacity 8.  Moving into a default-constructed destination leaves
the source with size 0 and capacity 0 and logs nothing; moving into a destination holding
three elements in buffer 1 at capacity 4 leaves the source with size 0, capacity 4 and
buffer 1, and logs the destruction of the three former elements of the destination. -/
theorem move_assignment_witness :
    (∃ objects1 w1, vector.operator_assign_move
        (fun a => if a = 1 then vector.holding 0 [10, 11, 12, 13, 14] 8 else {}) 0 1
        ⟨2, []⟩ = some (objects1, w1) ∧ w1.log = [] ∧
      objects1 0 = vector.holding 0 [10, 11, 12, 13, 14] 8 ∧
      (objects1 1).size_ = 0 ∧ (objects1 1).capacity_ = 0) ∧
    (∃ objects1 w1, vector.operator_assign_move
        (fun a => if a = 1 then vector.holding 0 [10, 11, 12, 13, 14] 8
          else vector.holding 1 [20, 20, 20] 4) 0 1
        ⟨2, []⟩ = some (objects1, w1) ∧
      w1.log = [Event.destruct 1 0, Event.destruct 1 1, Event.destruct 1 2] ∧
      objects1 0 = vector.holding 0 [10, 11, 12, 13, 14] 8 ∧
      (objects1 1).size_ = 0 ∧ (objects1 1).capacity_ = 4 ∧
      (objects1 1).data_.map Buffer.handle = some 1) := by
  refine ⟨?_, ?_⟩
  · obtain ⟨objects1, heq, h1, -, -, -, -, -, h7, -, h9, -, -⟩ :=
      move_assignment (fun a => if a = 1 then vector.holding 0 [10, 11, 12, 13, 14] 8 else {})
        0 1 ⟨2, []⟩ (by decide) WF_null
    exact ⟨objects1, _, heq, rfl, h1, h7, h9⟩
  · obtain ⟨objects1, heq, h1, -, -, -, -, -, h7, -, h9, h10, -⟩ :=
      move_assignment (fun a => if a = 1 then vector.holding 0 [10, 11, 12, 13, 14] 8
          else vector.holding 1 [20, 20, 20] 4)
        0 1 ⟨2, []⟩ (by decide)
        (WF_holding 1 [20, 20, 20] 4 (by decide) (by decide) (Or.inr ⟨2, by decide, by decide⟩))
    exact ⟨objects1, _, heq, rfl, h1, h7, h9, h10⟩

/-- C20: self move-assignment.  For the object at any address `v`, in a
valid state, `v = std::move(v)` returns with `v` at size 0 and without live
elements, its capacity and its buffer being what they were; no other object
is changed; the log has grown by exactly the destruction of the former
elements `0, ..., size - 1` of `v`, and nothing is deallocated. -/
theorem move_self_assignment (objects : Objects T) (v : Nat) (w : World)
    (hwf : (objects v).WF) :
    ∃ objects1, vector.operator_assign_move objects v v w =
        some (objects1, ⟨w.next_handle,
          w.log ++ destruct_events (objects v).data_ 0 (objects v).size_⟩) ∧
      (objects1 v).WF ∧ (objects1 v).size_ = 0 ∧ (objects1 v).elements = [] ∧
      (objects1 v).empty = true ∧
      (objects1 v).capacity_ = (objects v).capacity_ ∧
      (objects1 v).data_.map Buffer.handle = (objects v).data_.map Buffer.handle ∧
      (∀ a, a ≠ v → objects1 a = objects a) := by
  obtain ⟨v1, hcl, hwf1, hs1, hc1, he1, hh1⟩ := clear_log (objects v) w hwf
  have hv : Function.update objects v v1 v = v1 := Function.update_same _ _ _
  refine ⟨Function.update objects v v1,
    by simp only [vector.operator_assign_move, hcl, if_true], by rw [hv]; exact hwf1,
    by rw [hv]; exact hs1, by rw [hv]; exact he1, ?_, by rw [hv]; exact hc1,
    by rw [hv]; exact hh1, fun a ha => Function.update_noteq ha _ _⟩
  rw [hv]
  simp only [vector.empty, hs1]
  rfl

/-- Witness of C20: the self move-assignment test.  The container at address 0 holds five
elements in buffer 0 at capacity 8; after `v = std::move(v)` it has size 0, capacity 8
and still buffer 0, and the five elements were destructed. -/
theorem move_self_assignment_witness :
    ∃ objects1 w1, vector.operator_assign_move
        (fun _ => vector.holding 0 [10, 11, 12, 13, 14] 8) 0 0 ⟨1, []⟩ =
        some (objects1, w1) ∧
      w1.log = [Event.destruct 0 0, Event.destruct 0 1, Event.destruct 0 2,
        Event.destruct 0 3, Event.destruct 0 4] ∧
      (objects1 0).size_ = 0 ∧ (objects1 0).elements = [] ∧ (objects1 0).capacity_ = 8 ∧
      (objects1 0).data_.map Buffer.handle = some 0 := by
  obtain ⟨objects1, heq, -, h2, h3, -, h5, h6, -⟩ :=
    move_self_assignment (fun _ => vector.holding 0 [10, 11, 12, 13, 14] 8) 0 ⟨1, []⟩
      (WF_holding 0 [10, 11, 12, 13, 14] 8 (by decide) (by decide)
        (Or.inr ⟨3, by decide, by decide⟩))
  exact ⟨objects1, _, heq, rfl, h2, h3, h5, h6⟩

/-! ## Proofs: the object store agrees with the per-case members -/

/-- On one address the copy assignment is `assign_copy_self`. -/
theorem operator_assign_copy_same (E : Element T ε) (A : Allocator ε) (objects : Objects T)
    (v : Nat) (w : World) :
    vector.operator_assign_copy E A objects v v w =
      .returns (Function.update objects v ((objects v).assign_copy_self w).1,
        ((objects v).assign_copy_self w).2) := by
  simp only [vector.operator_assign_copy, if_true, vector.assign_copy_self,
    Function.update_eq_self]

/-- On one address the move assignment is `assign_move_self`. -/
theorem operator_assign_move_same (objects : Objects T) (v : Nat) (w : World) :
    vector.operator_assign_move objects v v w =
      ((objects v).assign_move_self w).map
        (fun p => (Function.update objects v p.1, p.2)) := by
  simp only [vector.operator_assign_move, vector.assign_move_self, if_true]
  cases (objects v).clear w with
  | none => rfl
  | some p => rfl

/-- On two addresses the move assignment is `assign_move`. -/
theorem operator_assign_move_distinct (objects : Objects T) (dst src : Nat) (w : World)
    (hne : dst ≠ src) :
    vector.operator_assign_move objects dst src w =
      ((objects dst).assign_move (objects src) w).map
        (fun p => (Function.update (Function.update objects dst p.1) src p.2.1, p.2.2)) := by
  simp only [vector.operator_assign_move, vector.assign_move, if_neg hne]
  cases (objects dst).clear w with
  | none => rfl
  | some p => rfl

/-! ## Proofs: element events and allocator calls -/

theorem Quiet_refl (w : World) : w.Quiet w :=
  ⟨rfl, [], by simp, by simp⟩

theorem Quiet_trans (w w1 w2 : World) (h1 : w.Quiet w1) (h2 : w1.Quiet w2) : w.Quiet w2 := by
  obtain ⟨hn1, evs1, hl1, he1⟩ := h1
  obtain ⟨hn2, evs2, hl2, he2⟩ := h2
  refine ⟨by rw [hn2, hn1], evs1 ++ evs2, by rw [hl2, hl1, List.append_assoc], ?_⟩
  intro e he
  rcases List.mem_append.mp he with h | h
  · exact he1 e h
  · exact he2 e h

theorem Quiet_record (w : World) (ev : Event) (hev : ev.is_allocator_call = false) :
    w.Quiet (w.record ev) :=
  ⟨rfl, [ev], rfl, by
    intro e he
    rw [List.mem_singleton] at he
    rw [he]
    exact hev⟩

theorem Quiet_append (w : World) (evs : List Event)
    (hev : ∀ e, e ∈ evs → e.is_allocator_call = false) :
    w.Quiet ⟨w.next_handle, w.log ++ evs⟩ :=
  ⟨rfl, evs, rfl, hev⟩

theorem Quiet_allocator_calls (w w1 : World) (h : w.Quiet w1) :
    w1.allocator_calls = w.allocator_calls := by
  obtain ⟨-, evs, hl, he⟩ := h
  have hnil : evs.filter Event.is_allocator_call = [] := by
    rw [List.filter_eq_nil_iff]
    intro e hmem
    rw [he e hmem]
    simp
  simp only [World.allocator_calls, hl, List.filter_append, hnil, List.append_nil]

theorem Quiet_Extends (w w1 : World) (h : w.Quiet w1) : w.Extends w1 := by
  obtain ⟨hn, evs, hl, -⟩ := h
  exact ⟨by rw [hn], evs, hl⟩

theorem destroy_at_quiet (data : Ptr T) (index : Nat) (w : World) (data1 : Ptr T)
    (w1 : World) (h : destroy_at data index w = some (data1, w1)) :
    w.Quiet w1 ∧ data1.map Buffer.handle = data.map Buffer.handle := by
  cases data with
  | none => simp [destroy_at] at h
  | some b =>
    simp only [destroy_at] at h
    cases hs : b.slots[index]? with
    | none => rw [hs] at h; cases h
    | some o =>
      rw [hs] at h
      cases o with
      | none => cases h
      | some x =>
        simp only [Option.some.injEq, Prod.mk.injEq] at h
        obtain ⟨hd, hw⟩ := h
        subst hd hw
        exact ⟨Quiet_record w _ rfl, rfl⟩

theorem destruct_loop_quiet :
    ∀ (count : Nat) (data : Ptr T) (index : Nat) (w : World) (data1 : Ptr T) (w1 : World),
      destruct_loop count data index w = some (data1, w1) →
      w.Quiet w1 ∧ data1.map Buffer.handle = data.map Buffer.handle := by
  intro count
  induction count with
  | zero =>
    intro data index w data1 w1 h
    simp only [destruct_loop, Option.some.injEq, Prod.mk.injEq] at h
    obtain ⟨hd, hw⟩ := h
    subst hd hw
    exact ⟨Quiet_refl _, rfl⟩
  | succ count ih =>
    intro data index w data1 w1 h
    simp only [destruct_loop] at h
    cases hd : destroy_at data index w with
    | none => rw [hd] at h; cases h
    | some p =>
      obtain ⟨data2, w2⟩ := p
      rw [hd] at h
      obtain ⟨hq1, hh1⟩ := destroy_at_quiet data index w data2 w2 hd
      obtain ⟨hq2, hh2⟩ := ih data2 (index + 1) w2 data1 w1 h
      exact ⟨Quiet_trans _ _ _ hq1 hq2, by rw [hh2, hh1]⟩

theorem destruct_quiet (data : Ptr T) (begin_ end_ : Nat) (w : World) (data1 : Ptr T)
    (w1 : World) (h : destruct data begin_ end_ w = some (data1, w1)) :
    w.Quiet w1 ∧ data1.map Buffer.handle = data.map Buffer.handle :=
  destruct_loop_quiet _ _ _ _ _ _ h

theorem construct_at_quiet (data : Ptr T) (index : Nat) (x : T) (w : World) (data1 : Ptr T)
    (w1 : World) (h : construct_at data index x Event.move_construct w = some (data1, w1)) :
    w.Quiet w1 ∧ data1.map Buffer.handle = data.map Buffer.handle := by
  cases data with
  | none => simp [construct_at] at h
  | some b =>
    simp only [construct_at] at h
    by_cases hi : index < b.slots.length
    · rw [if_pos hi] at h
      simp only [Option.some.injEq, Prod.mk.injEq] at h
      obtain ⟨hd, hw⟩ := h
      subst hd hw
      exact ⟨Quiet_record w _ rfl, rfl⟩
    · rw [if_neg hi] at h
      cases h

theorem construct_section_loop_quiet (init_func : InitFunc T ε) :
    ∀ (count : Nat) (data : Ptr T) (index : Nat) (w : World),
      (∀ data1 w1, construct_section_loop init_func count data index w = .completed data1 w1 →
        w.Quiet w1 ∧ data1.map Buffer.handle = data.map Buffer.handle) ∧
      (∀ e di data1 w1,
        construct_section_loop init_func count data index w = .caught e di data1 w1 →
        w.Quiet w1 ∧ data1.map Buffer.handle = data.map Buffer.handle) := by
  intro count
  induction count with
  | zero =>
    intro data index w
    refine ⟨?_, ?_⟩
    · intro data1 w1 h
      simp only [construct_section_loop] at h
      injection h with hd hw
      subst hd hw
      exact ⟨Quiet_refl _, rfl⟩
    · intro e di data1 w1 h
      simp only [construct_section_loop] at h
      cases h
  | succ count ih =>
    intro data index w
    cases data with
    | none =>
      refine ⟨?_, ?_⟩
      · intro data1 w1 h
        simp only [construct_section_loop] at h
        cases h
      · intro e di data1 w1 h
        simp only [construct_section_loop] at h
        cases h
    | some b =>
      by_cases hi : index < b.slots.length
      · cases hx : init_func index with
        | error e0 =>
          refine ⟨?_, ?_⟩
          · intro data1 w1 h
            simp only [construct_section_loop, if_pos hi, hx] at h
            cases h
          · intro e di data1 w1 h
            simp only [construct_section_loop, if_pos hi, hx] at h
            injection h with _ _ hd hw
            subst hd hw
            exact ⟨Quiet_record w _ rfl, rfl⟩
        | ok x =>
          obtain ⟨ih1, ih2⟩ := ih (some { b with slots := b.slots.set index (some x) })
            (index + 1) (w.record (Event.construct b.handle index))
          refine ⟨?_, ?_⟩
          · intro data1 w1 h
            simp only [construct_section_loop, if_pos hi, hx] at h
            obtain ⟨hq, hh⟩ := ih1 data1 w1 h
            exact ⟨Quiet_trans _ _ _ (Quiet_record w (Event.construct b.handle index) rfl) hq,
              by rw [hh]; rfl⟩
          · intro e di data1 w1 h
            simp only [construct_section_loop, if_pos hi, hx] at h
            obtain ⟨hq, hh⟩ := ih2 e di data1 w1 h
            exact ⟨Quiet_trans _ _ _ (Quiet_record w (Event.construct b.handle index) rfl) hq,
              by rw [hh]; rfl⟩
      · refine ⟨?_, ?_⟩
        · intro data1 w1 h
          simp only [construct_section_loop, if_neg hi] at h
          cases h
        · intro e di data1 w1 h
          simp only [construct_section_loop, if_neg hi] at h
          cases h

theorem construct_section_quiet (data : Ptr T) (begin_ end_ : Nat) (init_func : InitFunc T ε)
    (w : World) :
    (∀ data1 w1, construct_section data begin_ end_ init_func w = .returns (data1, w1) →
      w.Quiet w1 ∧ data1.map Buffer.handle = data.map Buffer.handle) ∧
    (∀ e data1 w1, construct_section data begin_ end_ init_func w = .throws e (data1, w1) →
      w.Quiet w1 ∧ data1.map Buffer.handle = data.map Buffer.handle) := by
  obtain ⟨h1, h2⟩ := construct_section_loop_quiet init_func (end_ - begin_) data begin_ w
  cases hl : construct_section_loop init_func (end_ - begin_) data begin_ w with
  | undefined =>
    refine ⟨?_, ?_⟩
    · intro data1 w1 h
      simp only [construct_section, hl] at h
      cases h
    · intro e data1 w1 h
      simp only [construct_section, hl] at h
      cases h
  | completed data2 w2 =>
    refine ⟨?_, ?_⟩
    · intro data1 w1 h
      simp only [construct_section, hl] at h
      injection h with h
      injection h with hd hw
      subst hd hw
      exact h1 _ _ hl
    · intro e data1 w1 h
      simp only [construct_section, hl] at h
      cases h
  | caught e0 di data2 w2 =>
    obtain ⟨hq, hh⟩ := h2 _ _ _ _ hl
    cases hd : destruct data2 begin_ di w2 with
    | none =>
      refine ⟨?_, ?_⟩
      · intro data1 w1 h
        simp only [construct_section, hl, hd] at h
        cases h
      · intro e data1 w1 h
        simp only [construct_section, hl, hd] at h
        cases h
    | some p =>
      obtain ⟨data3, w3⟩ := p
      obtain ⟨hq3, hh3⟩ := destruct_quiet _ _ _ _ _ _ hd
      refine ⟨?_, ?_⟩
      · intro data1 w1 h
        simp only [construct_section, hl, hd] at h
        cases h
      · intro e data1 w1 h
        simp only [construct_section, hl, hd] at h
        injection h with _ h
        injection h with hd1 hw1
        subst hd1 hw1
        exact ⟨Quiet_trans _ _ _ hq hq3, by rw [hh3, hh]⟩

theorem construct_section_move_loop_quiet (source : Ptr T) :
    ∀ (count : Nat) (data : Ptr T) (index : Nat) (w : World) (data1 : Ptr T) (w1 : World),
      construct_section_move_loop source count data index w = some (data1, w1) →
      w.Quiet w1 ∧ data1.map Buffer.handle = data.map Buffer.handle := by
  intro count
  induction count with
  | zero =>
    intro data index w data1 w1 h
    simp only [construct_section_move_loop, Option.some.injEq, Prod.mk.injEq] at h
    obtain ⟨hd, hw⟩ := h
    subst hd hw
    exact ⟨Quiet_refl _, rfl⟩
  | succ count ih =>
    intro data index w data1 w1 h
    simp only [construct_section_move_loop] at h
    cases hr : read_at source index with
    | none => rw [hr] at h; cases h
    | some x =>
      rw [hr] at h
      simp only at h
      cases hc : construct_at data index x Event.move_construct w with
      | none => rw [hc] at h; cases h
      | some p =>
        obtain ⟨data2, w2⟩ := p
        rw [hc] at h
        obtain ⟨hq1, hh1⟩ := construct_at_quiet _ _ _ _ _ _ hc
        obtain ⟨hq2, hh2⟩ := ih data2 (index + 1) w2 data1 w1 h
        exact ⟨Quiet_trans _ _ _ hq1 hq2, by rw [hh2, hh1]⟩

theorem copy_loop_quiet (E : Element T ε) (other : vector T) :
    ∀ (count : Nat) (data : Ptr T) (index : Nat) (w : World),
      (∀ data1 w1, copy_loop E other count data index w = .completed data1 w1 →
        w.Quiet w1 ∧ data1.map Buffer.handle = data.map Buffer.handle) ∧
      (∀ e di data1 w1, copy_loop E other count data index w = .caught e di data1 w1 →
        w.Quiet w1 ∧ data1.map Buffer.handle = data.map Buffer.handle) := by
  intro count
  induction count with
  | zero =>
    intro data index w
    refine ⟨?_, ?_⟩
    · intro data1 w1 h
      simp only [copy_loop] at h
      injection h with hd hw
      subst hd hw
      exact ⟨Quiet_refl _, rfl⟩
    · intro e di data1 w1 h
      simp only [copy_loop] at h
      cases h
  | succ count ih =>
    intro data index w
    cases ho : other.operator_index index with
    | none =>
      refine ⟨?_, ?_⟩
      · intro data1 w1 h
        simp only [copy_loop, ho] at h
        cases h
      · intro e di data1 w1 h
        simp only [copy_loop, ho] at h
        cases h
    | some x0 =>
      cases data with
      | none =>
        refine ⟨?_, ?_⟩
        · intro data1 w1 h
          simp only [copy_loop, ho] at h
          cases h
        · intro e di data1 w1 h
          simp only [copy_loop, ho] at h
          cases h
      | some b =>
        by_cases hi : index < b.slots.length
        · cases hx : E.copy_ctor x0 with
          | error e0 =>
            refine ⟨?_, ?_⟩
            · intro data1 w1 h
              simp only [copy_loop, ho, if_pos hi, hx] at h
              cases h
            · intro e di data1 w1 h
              simp only [copy_loop, ho, if_pos hi, hx] at h
              injection h with _ _ hd hw
              subst hd hw
              exact ⟨Quiet_record w _ rfl, rfl⟩
          | ok x =>
            obtain ⟨ih1, ih2⟩ := ih (some { b with slots := b.slots.set index (some x) })
              (index + 1) (w.record (Event.construct b.handle index))
            refine ⟨?_, ?_⟩
            · intro data1 w1 h
              simp only [copy_loop, ho, if_pos hi, hx] at h
              obtain ⟨hq, hh⟩ := ih1 data1 w1 h
              exact ⟨Quiet_trans _ _ _
                (Quiet_record w (Event.construct b.handle index) rfl) hq, by rw [hh]; rfl⟩
            · intro e di data1 w1 h
              simp only [copy_loop, ho, if_pos hi, hx] at h
              obtain ⟨hq, hh⟩ := ih2 e di data1 w1 h
              exact ⟨Quiet_trans _ _ _
                (Quiet_record w (Event.construct b.handle index) rfl) hq, by rw [hh]; rfl⟩
        · refine ⟨?_, ?_⟩
          · intro data1 w1 h
            simp only [copy_loop, ho, if_neg hi] at h
            cases h
          · intro e di data1 w1 h
            simp only [copy_loop, ho, if_neg hi] at h
            cases h

/-! ## Proofs: the allocator contract is kept by the storage engine -/

theorem snoc_split (log pre post : List Event) (ev x : Event)
    (h : log ++ [ev] = pre ++ x :: post) :
    (post = [] ∧ pre = log ∧ x = ev) ∨ (∃ post1, post = post1 ++ [ev] ∧ log = pre ++ x :: post1) := by
  rcases List.eq_nil_or_concat post with hp | ⟨post1, l, hp⟩
  · left
    subst hp
    have h2 : log ++ [ev] = pre ++ [x] := h
    obtain ⟨h3, h4⟩ := List.append_inj' h2 rfl
    injection h4 with h4 _
    exact ⟨rfl, h3.symm, h4.symm⟩
  · right
    rw [List.concat_eq_append] at hp
    subst hp
    have h2 : log ++ [ev] = (pre ++ x :: post1) ++ [l] := by
      rw [h]
      simp
    obtain ⟨h3, h4⟩ := List.append_inj' h2 rfl
    injection h4 with h4 _
    subst h4
    exact ⟨post1, rfl, h3⟩

theorem contract_nil : AllocatorContract [] := by
  refine ⟨by simp, by simp, ?_, ?_⟩
  · intro pre post h c heq
    cases pre <;> cases heq
  · intro pre post c h heq
    cases pre <;> cases heq

theorem contract_snoc (log : List Event) (ev : Event) (hc : AllocatorContract log)
    (hev : match ev with
      | .allocate c h => c ≠ 0 ∧ ∀ c1, Event.allocate c1 h ∉ log
      | .allocate_throws c => c ≠ 0
      | .deallocate h c => c ≠ 0 ∧ Event.allocate c h ∈ log
      | _ => True) :
    AllocatorContract (log ++ [ev]) := by
  refine ⟨?_, ?_, ?_, ?_⟩
  · intro c h hmem
    rcases List.mem_append.mp hmem with h1 | h1
    · exact hc.allocate_count c h h1
    · rw [List.mem_singleton] at h1
      subst h1
      exact hev.1
  · intro c hmem
    rcases List.mem_append.mp hmem with h1 | h1
    · exact hc.allocate_throws_count c h1
    · rw [List.mem_singleton] at h1
      subst h1
      exact hev
  · intro pre post h c heq
    rcases snoc_split log pre post ev _ heq with ⟨-, hpre, hx⟩ | ⟨post1, -, hlog⟩
    · subst hpre hx
      exact hev
    · exact hc.deallocate_matches pre post1 h c hlog
  · intro pre post c h heq
    rcases snoc_split log pre post ev _ heq with ⟨-, hpre, hx⟩ | ⟨post1, -, hlog⟩
    · subst hpre hx
      exact hev.2
    · exact hc.allocate_once pre post1 c h hlog

theorem contract_append_quiet (evs : List Event) :
    ∀ (log : List Event), AllocatorContract log →
      (∀ e, e ∈ evs → e.is_allocator_call = false) → AllocatorContract (log ++ evs) := by
  induction evs with
  | nil =>
    intro log hc _
    rw [List.append_nil]
    exact hc
  | cons ev evs ih =>
    intro log hc hq
    have hev := hq ev (List.mem_cons_self _ _)
    have h1 : AllocatorContract (log ++ [ev]) := by
      apply contract_snoc log ev hc
      cases ev <;> trivial
    have h2 := ih (log ++ [ev]) h1 (fun e he => hq e (List.mem_cons_of_mem _ he))
    rw [List.append_assoc] at h2
    exact h2

theorem Sound_quiet (w w1 : World) (hs : w.Sound) (hq : w.Quiet w1) : w1.Sound := by
  obtain ⟨hn, evs, hl, he⟩ := hq
  refine ⟨?_, ?_⟩
  · rw [hl]
    exact contract_append_quiet evs w.log hs.1 he
  · intro c h hmem
    rw [hl] at hmem
    rw [hn]
    rcases List.mem_append.mp hmem with h1 | h1
    · exact hs.2 c h h1
    · have := he _ h1
      cases this

theorem Extends_refl (w : World) : w.Extends w :=
  ⟨le_refl _, [], by simp⟩

theorem Extends_trans (w w1 w2 : World) (h1 : w.Extends w1) (h2 : w1.Extends w2) :
    w.Extends w2 := by
  obtain ⟨hn1, evs1, hl1⟩ := h1
  obtain ⟨hn2, evs2, hl2⟩ := h2
  exact ⟨le_trans hn1 hn2, evs1 ++ evs2, by rw [hl2, hl1, List.append_assoc]⟩

theorem Owned_mono (data data1 : Ptr T) (c : Nat) (w w1 : World)
    (ho : Owned data c w.log) (hh : data1.map Buffer.handle = data.map Buffer.handle)
    (he : w.Extends w1) : Owned data1 c w1.log := by
  obtain ⟨-, evs, hl⟩ := he
  intro b1 hb1
  rw [hb1] at hh
  cases data with
  | none => cases hh
  | some b =>
    simp only [Option.map_some', Option.some.injEq] at hh
    rw [hl, hh]
    exact List.mem_append_left _ (ho b rfl)

theorem Owned_null (c : Nat) (log : List Event) : Owned (none : Ptr T) c log := by
  intro b hb
  cases hb

theorem alloc_sound (A : Allocator ε) (c : Nat) (w : World) (hs : w.Sound) :
    (∀ (data : Ptr T) w1, alloc A c w = .ok (data, w1) →
      w1.Sound ∧ w.Extends w1 ∧ Owned data c w1.log) ∧
    (∀ e w1, (alloc A c w : Except (ε × World) (Ptr T × World)) = .error (e, w1) →
      w1.Sound ∧ w.Extends w1) := by
  by_cases hz : c = 0
  · refine ⟨?_, ?_⟩
    · intro data w1 h
      simp only [alloc, if_pos hz] at h
      injection h with h
      injection h with hd hw
      subst hd hw
      exact ⟨hs, Extends_refl _, Owned_null _ _⟩
    · intro e w1 h
      simp only [alloc, if_pos hz] at h
      cases h
  · cases ha : A.allocate_throws w c with
    | some e0 =>
      refine ⟨?_, ?_⟩
      · intro data w1 h
        simp only [alloc, if_neg hz, ha] at h
        cases h
      · intro e w1 h
        simp only [alloc, if_neg hz, ha] at h
        injection h with h
        injection h with _ hw
        subst hw
        refine ⟨⟨contract_snoc _ _ hs.1 hz, ?_⟩, ⟨le_refl _, [_], rfl⟩⟩
        intro c1 h1 hmem
        rcases List.mem_append.mp hmem with h2 | h2
        · exact hs.2 c1 h1 h2
        · rw [List.mem_singleton] at h2
          cases h2
    | none =>
      refine ⟨?_, ?_⟩
      · intro data w1 h
        simp only [alloc, if_neg hz, ha] at h
        injection h with h
        injection h with hd hw
        subst hd hw
        refine ⟨⟨contract_snoc _ _ hs.1 ⟨hz, ?_⟩, ?_⟩, ⟨Nat.le_succ _, [_], rfl⟩, ?_⟩
        · intro c1 hmem
          have := hs.2 c1 _ hmem
          omega
        · intro c1 h1 hmem
          rcases List.mem_append.mp hmem with h2 | h2
          · have := hs.2 c1 h1 h2
            show h1 < w.next_handle + 1
            omega
          · rw [List.mem_singleton] at h2
            injection h2 with _ h3
            show h1 < w.next_handle + 1
            omega
        · intro b hb
          injection hb with hb
          subst hb
          exact List.mem_append_right _ (List.mem_singleton.mpr rfl)
      · intro e w1 h
        simp only [alloc, if_neg hz, ha] at h
        cases h

theorem dealloc_sound (data : Ptr T) (c : Nat) (w : World) (hs : w.Sound)
    (ho : Owned data c w.log) :
    (dealloc data c w).Sound ∧ w.Extends (dealloc data c w) := by
  cases data with
  | none => exact ⟨hs, Extends_refl _⟩
  | some b =>
    by_cases hz : c = 0
    · simp only [dealloc, if_pos hz]
      exact ⟨hs, Extends_refl _⟩
    · simp only [dealloc, if_neg hz]
      refine ⟨⟨contract_snoc _ _ hs.1 ⟨hz, ho b rfl⟩, ?_⟩, ⟨le_refl _, [_], rfl⟩⟩
      intro c1 h1 hmem
      rcases List.mem_append.mp hmem with h2 | h2
      · exact hs.2 c1 h1 h2
      · rw [List.mem_singleton] at h2
        cases h2

theorem increase_capacity_safe (A : Allocator ε) (v : vector T) (nc : Nat) (w : World)
    (hs : w.Sound) (ho : Owned v.data_ v.capacity_ w.log) :
    (∀ v1 w1, v.increase_capacity A nc w = .returns (v1, w1) →
      w1.Sound ∧ w.Extends w1 ∧ Owned v1.data_ nc w1.log) ∧
    (∀ e v1 w1, v.increase_capacity A nc w = .throws e (v1, w1) →
      w1.Sound ∧ w.Extends w1 ∧ Owned v1.data_ v1.capacity_ w1.log) := by
  obtain ⟨hok, herr⟩ := alloc_sound (T := T) A nc w hs
  cases ha : (alloc A nc w : Except (ε × World) (Ptr T × World)) with
  | error p =>
    obtain ⟨e0, w0⟩ := p
    obtain ⟨hs0, he0⟩ := herr e0 w0 ha
    refine ⟨?_, ?_⟩
    · intro v1 w1 h
      simp only [vector.increase_capacity, ha] at h
      cases h
    · intro e v1 w1 h
      simp only [vector.increase_capacity, ha] at h
      injection h with _ h
      injection h with hv hw
      subst hv hw
      exact ⟨hs0, he0, Owned_mono _ _ _ _ _ ho rfl he0⟩
  | ok p =>
    obtain ⟨extradata, w0⟩ := p
    obtain ⟨hs0, he0, ho0⟩ := hok extradata w0 ha
    cases hm : v.construct_section_move extradata 0 v.size_ w0 with
    | none =>
      refine ⟨?_, ?_⟩
      · intro v1 w1 h
        simp only [vector.increase_capacity, ha, hm] at h
        cases h
      · intro e v1 w1 h
        simp only [vector.increase_capacity, ha, hm] at h
        cases h
    | some q =>
      obtain ⟨extradata1, w2⟩ := q
      obtain ⟨hq2, hh2⟩ := construct_section_move_loop_quiet _ _ _ _ _ _ _ hm
      cases hd : destruct v.data_ 0 v.size_ w2 with
      | none =>
        refine ⟨?_, ?_⟩
        · intro v1 w1 h
          simp only [vector.increase_capacity, ha, hm, hd] at h
          cases h
        · intro e v1 w1 h
          simp only [vector.increase_capacity, ha, hm, hd] at h
          cases h
      | some r =>
        obtain ⟨data1, w3⟩ := r
        obtain ⟨hq3, hh3⟩ := destruct_quiet _ _ _ _ _ _ hd
        have hs2 := Sound_quiet _ _ hs0 hq2
        have hs3 := Sound_quiet _ _ hs2 hq3
        have he3 : w.Extends w3 :=
          Extends_trans _ _ _ he0 (Extends_trans _ _ _ (Quiet_Extends _ _ hq2)
            (Quiet_Extends _ _ hq3))
        have ho3 : Owned data1 v.capacity_ w3.log := Owned_mono _ _ _ _ _ ho hh3 he3
        obtain ⟨hs4, he4⟩ := dealloc_sound data1 v.capacity_ w3 hs3 ho3
        have hox : Owned extradata1 nc (dealloc data1 v.capacity_ w3).log :=
          Owned_mono _ _ _ _ _ ho0 hh2
            (Extends_trans _ _ _ (Quiet_Extends _ _ hq2)
              (Extends_trans _ _ _ (Quiet_Extends _ _ hq3) he4))
        refine ⟨?_, ?_⟩
        · intro v1 w1 h
          simp only [vector.increase_capacity, ha, hm, hd] at h
          injection h with h
          injection h with hv hw
          subst hv hw
          exact ⟨hs4, Extends_trans _ _ _ he3 he4, hox⟩
        · intro e v1 w1 h
          simp only [vector.increase_capacity, ha, hm, hd] at h
          cases h

theorem resize_safe (A : Allocator ε) (v : vector T) (d : Nat) (init_func : InitFunc T ε)
    (w : World) (hs : w.Sound) (ho : Owned v.data_ v.capacity_ w.log) :
    match v.resize A d init_func w with
    | .returns (v1, w1) => w1.Sound ∧ w.Extends w1 ∧ Owned v1.data_ v1.capacity_ w1.log
    | .throws _ (v1, w1) => w1.Sound ∧ w.Extends w1 ∧ Owned v1.data_ v1.capacity_ w1.log
    | _ => True := by
  simp only [vector.resize]
  cases hc : calculate_capacity d with
  | none => trivial
  | some dc =>
    simp only
    by_cases h1 : d ≤ v.size_
    · simp only [if_pos h1]
      cases hd : destruct v.data_ d v.size_ w with
      | none => trivial
      | some r =>
        obtain ⟨data1, w1⟩ := r
        obtain ⟨hq, hh⟩ := destruct_quiet _ _ _ _ _ _ hd
        exact ⟨Sound_quiet _ _ hs hq, Quiet_Extends _ _ hq,
          Owned_mono _ _ _ _ _ ho hh (Quiet_Extends _ _ hq)⟩
    · simp only [if_neg h1]
      by_cases h2 : d ≤ v.capacity_
      · simp only [if_pos h2]
        obtain ⟨hr, ht⟩ := construct_section_quiet v.data_ v.size_ d init_func w
        cases hcs : construct_section v.data_ v.size_ d init_func w with
        | undefined => trivial
        | diverges => trivial
        | returns r =>
          obtain ⟨data1, w1⟩ := r
          obtain ⟨hq, hh⟩ := hr _ _ hcs
          exact ⟨Sound_quiet _ _ hs hq, Quiet_Extends _ _ hq,
            Owned_mono _ _ _ _ _ ho hh (Quiet_Extends _ _ hq)⟩
        | throws e r =>
          obtain ⟨data1, w1⟩ := r
          obtain ⟨hq, hh⟩ := ht _ _ _ hcs
          exact ⟨Sound_quiet _ _ hs hq, Quiet_Extends _ _ hq,
            Owned_mono _ _ _ _ _ ho hh (Quiet_Extends _ _ hq)⟩
      · simp only [if_neg h2]
        obtain ⟨hok, herr⟩ := alloc_sound (T := T) A dc w hs
        cases ha : (alloc A dc w : Except (ε × World) (Ptr T × World)) with
        | error p =>
          obtain ⟨e0, w0⟩ := p
          obtain ⟨hs0, he0⟩ := herr e0 w0 ha
          exact ⟨hs0, he0, Owned_mono _ _ _ _ _ ho rfl he0⟩
        | ok p =>
          obtain ⟨extradata, w0⟩ := p
          obtain ⟨hs0, he0, ho0⟩ := hok extradata w0 ha
          simp only
          obtain ⟨hr, ht⟩ := construct_section_quiet extradata v.size_ d init_func w0
          cases hcs : construct_section extradata v.size_ d init_func w0 with
          | undefined => trivial
          | diverges => trivial
          | throws e r =>
            obtain ⟨extradata1, w2⟩ := r
            obtain ⟨hq, hh⟩ := ht _ _ _ hcs
            have hs2 := Sound_quiet _ _ hs0 hq
            obtain ⟨hs3, he3⟩ := dealloc_sound extradata1 dc w2 hs2
              (Owned_mono _ _ _ _ _ ho0 hh (Quiet_Extends _ _ hq))
            have hext : w.Extends (dealloc extradata1 dc w2) :=
              Extends_trans _ _ _ he0 (Extends_trans _ _ _ (Quiet_Extends _ _ hq) he3)
            exact ⟨hs3, hext, Owned_mono _ _ _ _ _ ho rfl hext⟩
          | returns r =>
            obtain ⟨extradata1, w2⟩ := r
            obtain ⟨hq, hh⟩ := hr _ _ hcs
            simp only
            cases hm : v.construct_section_move extradata1 0 v.size_ w2 with
            | none => trivial
            | some q =>
              obtain ⟨extradata2, w3⟩ := q
              obtain ⟨hq3, hh3⟩ := construct_section_move_loop_quiet _ _ _ _ _ _ _ hm
              simp only
              cases hd : destruct v.data_ 0 v.size_ w3 with
              | none => trivial
              | some r2 =>
                obtain ⟨data1, w4⟩ := r2
                obtain ⟨hq4, hh4⟩ := destruct_quiet _ _ _ _ _ _ hd
                have hs4 := Sound_quiet _ _ (Sound_quiet _ _ (Sound_quiet _ _ hs0 hq) hq3) hq4
                have he04 : w0.Extends w4 :=
                  Extends_trans _ _ _ (Quiet_Extends _ _ hq)
                    (Extends_trans _ _ _ (Quiet_Extends _ _ hq3) (Quiet_Extends _ _ hq4))
                have he4 : w.Extends w4 := Extends_trans _ _ _ he0 he04
                obtain ⟨hs5, he5⟩ := dealloc_sound data1 v.capacity_ w4 hs4
                  (Owned_mono _ _ _ _ _ ho hh4 he4)
                exact ⟨hs5, Extends_trans _ _ _ he4 he5,
                  Owned_mono _ _ _ _ _ ho0 (by rw [hh3, hh]) (Extends_trans _ _ _ he04 he5)⟩

theorem push_back_place_safe (v : vector T) (nc : Nat) (x : T) (w : World) (hs : w.Sound)
    (ho : Owned v.data_ nc w.log) :
    match (v.push_back_place nc x w : Outcome ε (vector T × World) (vector T × World)) with
    | .returns (v1, w1) => w1.Sound ∧ w.Extends w1 ∧ Owned v1.data_ v1.capacity_ w1.log
    | .throws _ (v1, w1) => w1.Sound ∧ w.Extends w1 ∧ Owned v1.data_ v1.capacity_ w1.log
    | _ => True := by
  simp only [vector.push_back_place]
  cases hc : construct_at v.data_ v.size_ x Event.move_construct w with
  | none => trivial
  | some p =>
    obtain ⟨data1, w1⟩ := p
    obtain ⟨hq, hh⟩ := construct_at_quiet _ _ _ _ _ _ hc
    exact ⟨Sound_quiet _ _ hs hq, Quiet_Extends _ _ hq,
      Owned_mono _ _ _ _ _ ho hh (Quiet_Extends _ _ hq)⟩

theorem push_back_move_safe (A : Allocator ε) (v : vector T) (x : T) (w : World)
    (hs : w.Sound) (ho : Owned v.data_ v.capacity_ w.log) :
    match v.push_back_move A x w with
    | .returns (v1, w1) => w1.Sound ∧ w.Extends w1 ∧ Owned v1.data_ v1.capacity_ w1.log
    | .throws _ (v1, w1) => w1.Sound ∧ w.Extends w1 ∧ Owned v1.data_ v1.capacity_ w1.log
    | _ => True := by
  simp only [vector.push_back_move]
  by_cases hf : v.size_ = v.capacity_
  · simp only [if_pos hf]
    obtain ⟨hr, ht⟩ := increase_capacity_safe A v
      (if v.capacity_ ≠ 0 then v.capacity_ * 2 % SIZE_T_MOD else 1) w hs ho
    cases hi : v.increase_capacity A
        (if v.capacity_ ≠ 0 then v.capacity_ * 2 % SIZE_T_MOD else 1) w with
    | undefined => trivial
    | diverges => trivial
    | throws e r =>
      obtain ⟨v1, w1⟩ := r
      exact ht e v1 w1 hi
    | returns r =>
      obtain ⟨v1, w1⟩ := r
      obtain ⟨hs1, he1, ho1⟩ := hr v1 w1 hi
      have hp := push_back_place_safe (ε := ε) v1
        (if v.capacity_ ≠ 0 then v.capacity_ * 2 % SIZE_T_MOD else 1) x w1 hs1 ho1
      simp only
      cases hpp : (v1.push_back_place
          (if v.capacity_ ≠ 0 then v.capacity_ * 2 % SIZE_T_MOD else 1) x w1 :
          Outcome ε (vector T × World) (vector T × World)) with
      | undefined => trivial
      | diverges => trivial
      | throws e r2 =>
        obtain ⟨v2, w2⟩ := r2
        rw [hpp] at hp
        exact ⟨hp.1, Extends_trans _ _ _ he1 hp.2.1, hp.2.2⟩
      | returns r2 =>
        obtain ⟨v2, w2⟩ := r2
        rw [hpp] at hp
        exact ⟨hp.1, Extends_trans _ _ _ he1 hp.2.1, hp.2.2⟩
  · simp only [if_neg hf]
    exact push_back_place_safe v v.capacity_ x w hs ho

theorem reserve_safe (A : Allocator ε) (v : vector T) (quantity : Nat) (w : World)
    (hs : w.Sound) (ho : Owned v.data_ v.capacity_ w.log) :
    match v.reserve A quantity w with
    | .returns (v1, w1) => w1.Sound ∧ w.Extends w1 ∧ Owned v1.data_ v1.capacity_ w1.log
    | .throws _ (v1, w1) => w1.Sound ∧ w.Extends w1 ∧ Owned v1.data_ v1.capacity_ w1.log
    | _ => True := by
  simp only [vector.reserve]
  cases hc : calculate_capacity quantity with
  | none => trivial
  | some c =>
    simp only
    by_cases hle : c ≤ v.capacity_
    · simp only [if_pos hle]
      exact ⟨hs, Extends_refl _, ho⟩
    · simp only [if_neg hle]
      obtain ⟨hr, ht⟩ := increase_capacity_safe A v c w hs ho
      cases hi : v.increase_capacity A c w with
      | undefined => trivial
      | diverges => trivial
      | throws e r =>
        obtain ⟨v1, w1⟩ := r
        exact ht e v1 w1 hi
      | returns r =>
        obtain ⟨v1, w1⟩ := r
        exact hr v1 w1 hi

theorem pop_back_safe (v : vector T) (w : World) (hs : w.Sound)
    (ho : Owned v.data_ v.capacity_ w.log) :
    match v.pop_back w with
    | some (v1, w1) => w1.Sound ∧ w.Extends w1 ∧ Owned v1.data_ v1.capacity_ w1.log
    | none => True := by
  simp only [vector.pop_back]
  by_cases h0 : v.size_ = 0
  · simp only [if_pos h0]
  · simp only [if_neg h0]
    cases hd : destroy_at v.data_ (v.size_ - 1) w with
    | none => trivial
    | some p =>
      obtain ⟨data1, w1⟩ := p
      obtain ⟨hq, hh⟩ := destroy_at_quiet _ _ _ _ _ hd
      exact ⟨Sound_quiet _ _ hs hq, Quiet_Extends _ _ hq,
        Owned_mono _ _ _ _ _ ho hh (Quiet_Extends _ _ hq)⟩

theorem clear_safe (v : vector T) (w : World) (hs : w.Sound)
    (ho : Owned v.data_ v.capacity_ w.log) :
    match v.clear w with
    | some (v1, w1) => w1.Sound ∧ w.Extends w1 ∧ Owned v1.data_ v1.capacity_ w1.log ∧
        v1.capacity_ = v.capacity_
    | none => True := by
  simp only [vector.clear]
  cases hd : destruct v.data_ 0 v.size_ w with
  | none => trivial
  | some p =>
    obtain ⟨data1, w1⟩ := p
    obtain ⟨hq, hh⟩ := destruct_quiet _ _ _ _ _ _ hd
    exact ⟨Sound_quiet _ _ hs hq, Quiet_Extends _ _ hq,
      Owned_mono _ _ _ _ _ ho hh (Quiet_Extends _ _ hq), rfl⟩

theorem store_safe (v : vector T) (index : Nat) (x : T) (w : World)
    (ho : Owned v.data_ v.capacity_ w.log) :
    match v.store index x with
    | some v1 => Owned v1.data_ v1.capacity_ w.log
    | none => True := by
  simp only [vector.store]
  cases hdata : v.data_ with
  | none => trivial
  | some b =>
    simp only
    cases hb : b.slots[index]? with
    | none => trivial
    | some o =>
      cases o with
      | none => trivial
      | some y =>
        simp only
        intro b1 hb1
        injection hb1 with hb1
        subst hb1
        exact ho b hdata

theorem destructor_safe (v : vector T) (w : World) (hs : w.Sound)
    (ho : Owned v.data_ v.capacity_ w.log) :
    match v.destructor w with
    | some w1 => w1.Sound ∧ w.Extends w1
    | none => True := by
  simp only [vector.destructor]
  cases hd : destruct_loop v.size_ v.data_ 0 w with
  | none => trivial
  | some p =>
    obtain ⟨data1, w1⟩ := p
    obtain ⟨hq, hh⟩ := destruct_loop_quiet _ _ _ _ _ _ hd
    have hs1 := Sound_quiet _ _ hs hq
    cases data1 with
    | none => exact ⟨hs1, Quiet_Extends _ _ hq⟩
    | some b =>
      obtain ⟨hs2, he2⟩ := dealloc_sound (some b) v.capacity_ w1 hs1
        (Owned_mono _ _ _ _ _ ho hh (Quiet_Extends _ _ hq))
      exact ⟨hs2, Extends_trans _ _ _ (Quiet_Extends _ _ hq) he2⟩

theorem vector_init_safe (A : Allocator ε) (n : Nat) (init_func : InitFunc T ε) (w : World)
    (hs : w.Sound) :
    match vector.vector_init A n init_func w with
    | .returns (v1, w1) => w1.Sound ∧ w.Extends w1 ∧ Owned v1.data_ v1.capacity_ w1.log
    | .throws _ w1 => w1.Sound ∧ w.Extends w1
    | _ => True := by
  simp only [vector.vector_init]
  cases hc : calculate_capacity n with
  | none => trivial
  | some c =>
    simp only
    obtain ⟨hok, herr⟩ := alloc_sound (T := T) A c w hs
    cases ha : (alloc A c w : Except (ε × World) (Ptr T × World)) with
    | error p =>
      obtain ⟨e0, w0⟩ := p
      exact herr e0 w0 ha
    | ok p =>
      obtain ⟨data, w0⟩ := p
      obtain ⟨hs0, he0, ho0⟩ := hok data w0 ha
      simp only
      obtain ⟨hr, ht⟩ := construct_section_quiet data 0 n init_func w0
      cases hcs : construct_section data 0 n init_func w0 with
      | undefined => trivial
      | diverges => trivial
      | returns r =>
        obtain ⟨data1, w1⟩ := r
        obtain ⟨hq, hh⟩ := hr _ _ hcs
        exact ⟨Sound_quiet _ _ hs0 hq, Extends_trans _ _ _ he0 (Quiet_Extends _ _ hq),
          Owned_mono _ _ _ _ _ ho0 hh (Quiet_Extends _ _ hq)⟩
      | throws e r =>
        obtain ⟨data1, w1⟩ := r
        obtain ⟨hq, hh⟩ := ht _ _ _ hcs
        obtain ⟨hs2, he2⟩ := dealloc_sound data1 c w1 (Sound_quiet _ _ hs0 hq)
          (Owned_mono _ _ _ _ _ ho0 hh (Quiet_Extends _ _ hq))
        exact ⟨hs2, Extends_trans _ _ _ he0 (Extends_trans _ _ _ (Quiet_Extends _ _ hq) he2)⟩

theorem vector_copy_safe (E : Element T ε) (A : Allocator ε) (other : vector T) (w : World)
    (hs : w.Sound) :
    match vector.vector_copy E A other w with
    | .returns (v1, w1) => w1.Sound ∧ w.Extends w1 ∧ Owned v1.data_ v1.capacity_ w1.log
    | .throws _ w1 => w1.Sound ∧ w.Extends w1
    | _ => True := by
  simp only [vector.vector_copy]
  cases hc : calculate_capacity other.size_ with
  | none => trivial
  | some c =>
    simp only
    obtain ⟨hok, herr⟩ := alloc_sound (T := T) A c w hs
    cases ha : (alloc A c w : Except (ε × World) (Ptr T × World)) with
    | error p =>
      obtain ⟨e0, w0⟩ := p
      exact herr e0 w0 ha
    | ok p =>
      obtain ⟨data, w0⟩ := p
      obtain ⟨hs0, he0, ho0⟩ := hok data w0 ha
      simp only
      obtain ⟨hr, ht⟩ := copy_loop_quiet E other other.size_ data 0 w0
      cases hcs : copy_loop E other other.size_ data 0 w0 with
      | undefined => trivial
      | completed data1 w1 =>
        obtain ⟨hq, hh⟩ := hr _ _ hcs
        exact ⟨Sound_quiet _ _ hs0 hq, Extends_trans _ _ _ he0 (Quiet_Extends _ _ hq),
          Owned_mono _ _ _ _ _ ho0 hh (Quiet_Extends _ _ hq)⟩
      | caught e di data1 w1 =>
        obtain ⟨hq, hh⟩ := ht _ _ _ _ hcs
        simp only
        cases hd : destruct data1 0 di w1 with
        | none => trivial
        | some r =>
          obtain ⟨data2, w2⟩ := r
          obtain ⟨hq2, hh2⟩ := destruct_quiet _ _ _ _ _ _ hd
          have hq02 := Quiet_trans _ _ _ hq hq2
          obtain ⟨hs3, he3⟩ := dealloc_sound data2 c w2 (Sound_quiet _ _ hs0 hq02)
            (Owned_mono _ _ _ _ _ ho0 (by rw [hh2, hh]) (Quiet_Extends _ _ hq02))
          exact ⟨hs3,
            Extends_trans _ _ _ he0 (Extends_trans _ _ _ (Quiet_Extends _ _ hq02) he3)⟩

theorem call_safe (E : Element T ε) (A : Allocator ε) (v : vector T) (c : Call T) (w : World)
    (hs : w.Sound) (ho : Owned v.data_ v.capacity_ w.log) :
    match v.call E A c w with
    | .returns (v1, w1) => w1.Sound ∧ w.Extends w1 ∧ Owned v1.data_ v1.capacity_ w1.log
    | .throws _ (v1, w1) => w1.Sound ∧ w.Extends w1 ∧ Owned v1.data_ v1.capacity_ w1.log
    | _ => True := by
  cases c with
  | push_back_move element => exact push_back_move_safe A v element w hs ho
  | push_back_copy element => exact resize_safe A v _ _ w hs ho
  | resize_n desired_size => exact resize_safe A v _ _ w hs ho
  | resize_element desired_size element => exact resize_safe A v _ _ w hs ho
  | reserve quantity => exact reserve_safe A v quantity w hs ho
  | pop_back =>
    have h := pop_back_safe v w hs ho
    simp only [vector.call, Outcome.of_option]
    cases hp : v.pop_back w with
    | none => trivial
    | some p =>
      rw [hp] at h
      exact h
  | clear =>
    have h := clear_safe v w hs ho
    simp only [vector.call, Outcome.of_option]
    cases hp : v.clear w with
    | none => trivial
    | some p =>
      rw [hp] at h
      exact ⟨h.1, h.2.1, h.2.2.1⟩
  | store index x =>
    have h := store_safe v index x w ho
    simp only [vector.call, Outcome.of_option]
    cases hp : v.store index x with
    | none => trivial
    | some v1 =>
      rw [hp] at h
      exact ⟨hs, Extends_refl _, h⟩
  | assign_copy_self => exact ⟨hs, Extends_refl _, ho⟩
  | assign_move_self =>
    have h := clear_safe v w hs ho
    simp only [vector.call, Outcome.of_option, vector.assign_move_self]
    cases hp : v.clear w with
    | none => trivial
    | some p =>
      rw [hp] at h
      exact ⟨h.1, h.2.1, h.2.2.1⟩

theorem assign_copy_safe (E : Element T ε) (A : Allocator ε) (v other : vector T) (w : World)
    (hs : w.Sound) (ho : Owned v.data_ v.capacity_ w.log) :
    match v.assign_copy E A other w with
    | .returns (v1, w1) => w1.Sound ∧ w.Extends w1 ∧ Owned v1.data_ v1.capacity_ w1.log
    | .throws _ (v1, w1) => w1.Sound ∧ w.Extends w1 ∧ Owned v1.data_ v1.capacity_ w1.log
    | _ => True := by
  have hcopy := vector_copy_safe E A other w hs
  simp only [vector.assign_copy]
  cases hc : vector.vector_copy E A other w with
  | undefined => trivial
  | diverges => trivial
  | throws e w1 =>
    rw [hc] at hcopy
    exact ⟨hcopy.1, hcopy.2, Owned_mono _ _ _ _ _ ho rfl hcopy.2⟩
  | returns r =>
    obtain ⟨temporary, w1⟩ := r
    rw [hc] at hcopy
    obtain ⟨hs1, he1, ho1⟩ := hcopy
    have hclear := clear_safe v w1 hs1 (Owned_mono _ _ _ _ _ ho rfl he1)
    simp only [vector.assign_move]
    cases hcl : v.clear w1 with
    | none => trivial
    | some p =>
      obtain ⟨vc, w2⟩ := p
      rw [hcl] at hclear
      obtain ⟨hs2, he2, ho2, hcap⟩ := hclear
      have hd := destructor_safe
        (⟨vc.data_, vc.capacity_, vc.size_⟩ : vector T) w2 hs2 ho2
      simp only
      cases hdd : (⟨vc.data_, vc.capacity_, vc.size_⟩ : vector T).destructor w2 with
      | none => trivial
      | some w3 =>
        rw [hdd] at hd
        exact ⟨hd.1, Extends_trans _ _ _ he1 (Extends_trans _ _ _ he2 hd.2),
          Owned_mono _ _ _ _ _ ho1 rfl (Extends_trans _ _ _ he2 hd.2)⟩

theorem Owned_update (objects : Objects T) (address : Nat) (v1 : vector T) (w w1 : World)
    (hall : ∀ a, Owned (objects a).data_ (objects a).capacity_ w.log) (he : w.Extends w1)
    (ho1 : Owned v1.data_ v1.capacity_ w1.log) :
    ∀ a, Owned (Function.update objects address v1 a).data_
      (Function.update objects address v1 a).capacity_ w1.log := by
  intro a
  by_cases ha : a = address
  · subst ha
    rw [Function.update_same]
    exact ho1
  · rw [Function.update_noteq ha]
    exact Owned_mono _ _ _ _ _ (hall a) rfl he

theorem Owned_all_mono (objects : Objects T) (w w1 : World)
    (hall : ∀ a, Owned (objects a).data_ (objects a).capacity_ w.log) (he : w.Extends w1) :
    ∀ a, Owned (objects a).data_ (objects a).capacity_ w1.log :=
  fun a => Owned_mono _ _ _ _ _ (hall a) rfl he

theorem operator_assign_copy_safe (E : Element T ε) (A : Allocator ε) (objects : Objects T)
    (this_ other : Nat) (w : World) (hs : w.Sound)
    (hall : ∀ a, Owned (objects a).data_ (objects a).capacity_ w.log) :
    match vector.operator_assign_copy E A objects this_ other w with
    | .returns (o1, w1) => w1.Sound ∧ ∀ a, Owned (o1 a).data_ (o1 a).capacity_ w1.log
    | .throws _ (o1, w1) => w1.Sound ∧ ∀ a, Owned (o1 a).data_ (o1 a).capacity_ w1.log
    | _ => True := by
  simp only [vector.operator_assign_copy]
  by_cases hsame : this_ = other
  · simp only [if_pos hsame]
    exact ⟨hs, hall⟩
  · simp only [if_neg hsame]
    have h := assign_copy_safe E A (objects this_) (objects other) w hs (hall this_)
    cases hc : (objects this_).assign_copy E A (objects other) w with
    | undefined => trivial
    | diverges => trivial
    | returns r =>
      obtain ⟨v1, w1⟩ := r
      rw [hc] at h
      exact ⟨h.1, Owned_update objects this_ v1 w w1 hall h.2.1 h.2.2⟩
    | throws e r =>
      obtain ⟨v1, w1⟩ := r
      rw [hc] at h
      exact ⟨h.1, Owned_update objects this_ v1 w w1 hall h.2.1 h.2.2⟩

theorem operator_assign_move_safe (objects : Objects T) (this_ other : Nat) (w : World)
    (hs : w.Sound) (hall : ∀ a, Owned (objects a).data_ (objects a).capacity_ w.log) :
    match vector.operator_assign_move objects this_ other w with
    | some (o1, w1) => w1.Sound ∧ ∀ a, Owned (o1 a).data_ (o1 a).capacity_ w1.log
    | none => True := by
  have hclear := clear_safe (objects this_) w hs (hall this_)
  simp only [vector.operator_assign_move]
  cases hcl : (objects this_).clear w with
  | none => trivial
  | some p =>
    obtain ⟨v1, w1⟩ := p
    rw [hcl] at hclear
    obtain ⟨hs1, he1, ho1, -⟩ := hclear
    simp only
    by_cases hsame : this_ = other
    · simp only [if_pos hsame]
      exact ⟨hs1, Owned_update objects this_ v1 w w1 hall he1 ho1⟩
    · simp only [if_neg hsame]
      refine ⟨hs1, ?_⟩
      have h1 := Owned_update objects this_
        (⟨(objects other).data_, (objects other).capacity_, (objects other).size_⟩ : vector T)
        w w1 hall he1 (Owned_mono _ _ _ _ _ (hall other) rfl he1)
      intro a
      by_cases ha : a = other
      · subst ha
        rw [Function.update_same]
        exact ho1
      · rw [Function.update_noteq ha]
        exact h1 a

theorem vector_move_at_safe (objects : Objects T) (this_ other : Nat) (w : World)
    (hall : ∀ a, Owned (objects a).data_ (objects a).capacity_ w.log) :
    ∀ a, Owned ((vector.vector_move_at objects this_ other w).1 a).data_
      ((vector.vector_move_at objects this_ other w).1 a).capacity_ w.log := by
  intro a
  simp only [vector.vector_move_at, vector.vector_move]
  by_cases ha : a = this_
  · subst ha
    rw [Function.update_same]
    exact hall other
  · rw [Function.update_noteq ha]
    by_cases hb : a = other
    · subst hb
      rw [Function.update_same]
      exact Owned_null _ _
    · rw [Function.update_noteq hb]
      exact hall a

theorem step_safe (E : Element T ε) (A : Allocator ε) (objects : Objects T)
    (op : Operation T) (w : World) (hs : w.Sound)
    (hall : ∀ a, Owned (objects a).data_ (objects a).capacity_ w.log) :
    match Objects.step E A objects op w with
    | .returns (o1, w1) => w1.Sound ∧ ∀ a, Owned (o1 a).data_ (o1 a).capacity_ w1.log
    | .throws _ (o1, w1) => w1.Sound ∧ ∀ a, Owned (o1 a).data_ (o1 a).capacity_ w1.log
    | _ => True := by
  cases op with
  | vector_default address =>
    exact ⟨hs, Owned_update objects address _ w w hall (Extends_refl _) (Owned_null _ _)⟩
  | vector_n address n =>
    have h := vector_init_safe A n (fun _ => E.default_ctor) w hs
    simp only [Objects.step, vector.vector_n]
    cases hc : vector.vector_init A n (fun _ => E.default_ctor) w with
    | undefined => trivial
    | diverges => trivial
    | returns r =>
      obtain ⟨v1, w1⟩ := r
      rw [hc] at h
      exact ⟨h.1, Owned_update objects address v1 w w1 hall h.2.1 h.2.2⟩
    | throws e w1 =>
      rw [hc] at h
      exact ⟨h.1, Owned_all_mono objects w w1 hall h.2⟩
  | vector_n_element address n element =>
    have h := vector_init_safe A n (fun _ => E.copy_ctor element) w hs
    simp only [Objects.step, vector.vector_n_element]
    cases hc : vector.vector_init A n (fun _ => E.copy_ctor element) w with
    | undefined => trivial
    | diverges => trivial
    | returns r =>
      obtain ⟨v1, w1⟩ := r
      rw [hc] at h
      exact ⟨h.1, Owned_update objects address v1 w w1 hall h.2.1 h.2.2⟩
    | throws e w1 =>
      rw [hc] at h
      exact ⟨h.1, Owned_all_mono objects w w1 hall h.2⟩
  | vector_copy address other =>
    simp only [Objects.step]
    by_cases hsame : address = other
    · simp only [if_pos hsame]
    · simp only [if_neg hsame]
      have h := vector_copy_safe E A (objects other) w hs
      cases hc : vector.vector_copy E A (objects other) w with
      | undefined => trivial
      | diverges => trivial
      | returns r =>
        obtain ⟨v1, w1⟩ := r
        rw [hc] at h
        exact ⟨h.1, Owned_update objects address v1 w w1 hall h.2.1 h.2.2⟩
      | throws e w1 =>
        rw [hc] at h
        exact ⟨h.1, Owned_all_mono objects w w1 hall h.2⟩
  | vector_move address other =>
    simp only [Objects.step]
    by_cases hsame : address = other
    · simp only [if_pos hsame]
    · simp only [if_neg hsame]
      exact ⟨hs, vector_move_at_safe objects address other w hall⟩
  | destructor address =>
    have h := destructor_safe (objects address) w hs (hall address)
    simp only [Objects.step]
    cases hd : (objects address).destructor w with
    | none => trivial
    | some w1 =>
      rw [hd] at h
      exact ⟨h.1, Owned_update objects address _ w w1 hall h.2 (Owned_null _ _)⟩
  | assign_copy address other => exact operator_assign_copy_safe E A objects address other w hs hall
  | assign_move address other =>
    have h := operator_assign_move_safe objects address other w hs hall
    simp only [Objects.step, Outcome.of_option]
    cases hm : vector.operator_assign_move objects address other w with
    | none => trivial
    | some p =>
      rw [hm] at h
      exact h
  | call address c =>
    have h := call_safe E A (objects address) c w hs (hall address)
    simp only [Objects.step]
    cases hc : (objects address).call E A c w with
    | undefined => trivial
    | diverges => trivial
    | returns r =>
      obtain ⟨v1, w1⟩ := r
      rw [hc] at h
      exact ⟨h.1, Owned_update objects address v1 w w1 hall h.2.1 h.2.2⟩
    | throws e r =>
      obtain ⟨v1, w1⟩ := r
      rw [hc] at h
      exact ⟨h.1, Owned_update objects address v1 w w1 hall h.2.1 h.2.2⟩

theorem run_safe (E : Element T ε) (A : Allocator ε) (ops : List (Operation T)) :
    ∀ (objects : Objects T) (w : World) (o1 : Objects T) (w1 : World), w.Sound →
      (∀ a, Owned (objects a).data_ (objects a).capacity_ w.log) →
      Objects.run E A ops objects w = some (o1, w1) →
      w1.Sound ∧ ∀ a, Owned (o1 a).data_ (o1 a).capacity_ w1.log := by
  induction ops with
  | nil =>
    intro objects w o1 w1 hs hall h
    simp only [Objects.run, Option.some.injEq, Prod.mk.injEq] at h
    obtain ⟨ho, hw⟩ := h
    subst ho hw
    exact ⟨hs, hall⟩
  | cons op rest ih =>
    intro objects w o1 w1 hs hall h
    have hstep := step_safe E A objects op w hs hall
    simp only [Objects.run] at h
    cases hst : Objects.step E A objects op w with
    | undefined => rw [hst] at h; cases h
    | diverges => rw [hst] at h; cases h
    | returns r =>
      obtain ⟨o2, w2⟩ := r
      rw [hst] at h hstep
      exact ih o2 w2 o1 w1 hstep.1 hstep.2 h
    | throws e r =>
      obtain ⟨o2, w2⟩ := r
      rw [hst] at h hstep
      exact ih o2 w2 o1 w1 hstep.1 hstep.2 h

theorem two_positions (l : List Event) (a b : Event) (ha : a ∈ l) (hb : b ∈ l) (hne : a ≠ b) :
    (∃ pre post, l = pre ++ a :: post ∧ b ∈ pre) ∨
    (∃ pre post, l = pre ++ b :: post ∧ a ∈ pre) := by
  obtain ⟨s, t, hl⟩ := List.mem_iff_append.mp ha
  subst hl
  rcases List.mem_append.mp hb with h1 | h1
  · exact Or.inl ⟨s, t, rfl, h1⟩
  · rcases List.mem_cons.mp h1 with h2 | h2
    · exact absurd h2.symm hne
    · obtain ⟨s1, t1, ht⟩ := List.mem_iff_append.mp h2
      subst ht
      exact Or.inr ⟨s ++ a :: s1, t1, by simp, by simp⟩

theorem contract_count_unique (log : List Event) (hc : AllocatorContract log) (h c c1 : Nat)
    (h1 : Event.allocate c h ∈ log) (h2 : Event.allocate c1 h ∈ log) : c1 = c := by
  by_contra hne
  have hne2 : Event.allocate c h ≠ Event.allocate c1 h := by
    intro heq
    injection heq with heq _
    exact hne heq.symm
  rcases two_positions log _ _ h1 h2 hne2 with ⟨pre, post, hl, hm⟩ | ⟨pre, post, hl, hm⟩
  · exact hc.allocate_once pre post c h hl c1 hm
  · exact hc.allocate_once pre post c1 h hl c hm

/-- C24: the allocator contract.  Take any program: any sequence of public
operations (constructors, destructor, assignments, member calls) on
containers at any addresses, started with no container and an empty log, in
which an exception is caught and the program goes on.  In every state such a
program reaches, the log keeps the contract: no `allocate` call, returning
or throwing, has count 0; every `deallocate` call names a buffer, has a
non-zero count, and comes after the `allocate` call that returned that
buffer, which was made with that very count; no buffer is returned by two
`allocate` calls. -/
theorem allocator_contract (E : Element T ε) (A : Allocator ε) (ops : List (Operation T))
    (next_handle : Nat) (objects1 : Objects T) (w1 : World)
    (hrun : Objects.run E A ops (fun _ => vector.vector_default) ⟨next_handle, []⟩ =
      some (objects1, w1)) :
    AllocatorContract w1.log ∧
    (∀ c h, Event.allocate c h ∈ w1.log → c ≠ 0) ∧
    (∀ c, Event.allocate_throws c ∈ w1.log → c ≠ 0) ∧
    (∀ pre post h c, w1.log = pre ++ Event.deallocate h c :: post →
      c ≠ 0 ∧ Event.allocate c h ∈ pre ∧ ∀ c1, Event.allocate c1 h ∈ w1.log → c1 = c) := by
  have hs0 : (⟨next_handle, []⟩ : World).Sound := ⟨contract_nil, by simp⟩
  obtain ⟨hs, -⟩ := run_safe E A ops _ _ objects1 w1 hs0 (fun _ => Owned_null _ _) hrun
  refine ⟨hs.1, hs.1.allocate_count, hs.1.allocate_throws_count, ?_⟩
  intro pre post h c hl
  obtain ⟨hc0, hmem⟩ := hs.1.deallocate_matches pre post h c hl
  refine ⟨hc0, hmem, ?_⟩
  intro c1 h1
  exact contract_count_unique _ hs.1 h c c1 (by rw [hl]; exact List.mem_append_left _ hmem) h1

/-- Witness of C24: a program on three containers with an allocator that refuses 16
elements or more: construction of three elements, two pushes (the second reallocates),
a `reserve` that fails in the allocator, a copy construction, a move assignment, a
`pop_back`, a copy assignment and the three destructors.  Its allocator calls are the
nine listed, and its log keeps the contract. -/
theorem allocator_contract_witness :
    ∃ objects1 w1, Objects.run Element.obj (Allocator.limited 16)
        [.vector_n 0 3, .call 0 (.push_back_move 5), .call 0 (.push_back_copy 6),
         .call 0 (.reserve 9), .vector_copy 1 0, .assign_move 2 0, .call 2 .pop_back,
         .assign_copy 1 2, .destructor 0, .destructor 1, .destructor 2]
        (fun _ => vector.vector_default) ⟨0, []⟩ = some (objects1, w1) ∧
      w1.allocator_calls =
        [Event.allocate 4 0, Event.allocate 8 1, Event.deallocate 0 4,
         Event.allocate_throws 16, Event.allocate 8 2, Event.allocate 4 3,
         Event.deallocate 2 8, Event.deallocate 3 4, Event.deallocate 1 8] ∧
      AllocatorContract w1.log := by
  have hcalls : (Objects.run Element.obj (Allocator.limited 16)
      [.vector_n 0 3, .call 0 (.push_back_move 5), .call 0 (.push_back_copy 6),
       .call 0 (.reserve 9), .vector_copy 1 0, .assign_move 2 0, .call 2 .pop_back,
       .assign_copy 1 2, .destructor 0, .destructor 1, .destructor 2]
      (fun _ => vector.vector_default) ⟨0, []⟩).map (fun p => p.2.allocator_calls) =
      some [Event.allocate 4 0, Event.allocate 8 1, Event.deallocate 0 4,
         Event.allocate_throws 16, Event.allocate 8 2, Event.allocate 4 3,
         Event.deallocate 2 8, Event.deallocate 3 4, Event.deallocate 1 8] := by
    decide
  cases hrun : Objects.run Element.obj (Allocator.limited 16)
      [.vector_n 0 3, .call 0 (.push_back_move 5), .call 0 (.push_back_copy 6),
       .call 0 (.reserve 9), .vector_copy 1 0, .assign_move 2 0, .call 2 .pop_back,
       .assign_copy 1 2, .destructor 0, .destructor 1, .destructor 2]
      (fun _ => vector.vector_default) ⟨0, []⟩ with
  | none =>
    rw [hrun] at hcalls
    cases hcalls
  | some p =>
    rw [hrun] at hcalls
    exact ⟨p.1, p.2, rfl, Option.some.inj hcalls,
      (allocator_contract Element.obj (Allocator.limited 16) _ 0 p.1 p.2 hrun).1⟩

/-! ## Proofs: rollback of a section, and termination of the capacity loop -/

theorem first_failure_position (init_func : InitFunc T ε) (ys : List T) (s k : Nat) (e e1 : ε)
    (hk1 : s ≤ k)
    (hok1 : ∀ i y, ys[i]? = some y → init_func (s + i) = .ok y)
    (herr : init_func (s + ys.length) = .error e1)
    (hok : ∀ i, s ≤ i → i < k → ∃ x, init_func i = .ok x)
    (hfail : init_func k = .error e) : s + ys.length = k := by
  rcases Nat.lt_trichotomy (s + ys.length) k with hlt | heq | hgt
  · obtain ⟨x, hx⟩ := hok (s + ys.length) (by omega) hlt
    rw [hx] at herr
    cases herr
  · exact heq
  · have hi : k - s < ys.length := by omega
    have := hok1 (k - s) ys[k - s] (by simp [List.getElem?_eq_getElem, hi])
    have hks : s + (k - s) = k := by omega
    rw [hks, hfail] at this
    cases this

theorem construct_section_rollback (init_func : InitFunc T ε) (h : Nat)
    (pre mid post : List (Option T)) (w : World) (k : Nat) (e : ε)
    (hk1 : pre.length ≤ k) (hk2 : k < pre.length + mid.length)
    (hok : ∀ i, pre.length ≤ i → i < k → ∃ x, init_func i = .ok x)
    (hfail : init_func k = .error e) :
    construct_section (some ⟨h, pre ++ (mid ++ post)⟩) pre.length (pre.length + mid.length)
        init_func w =
      .throws e
        (some ⟨h, pre ++ (List.replicate (k - pre.length) none ++
          (mid.drop (k - pre.length) ++ post))⟩,
         ⟨w.next_handle,
          w.log ++ ((List.range' pre.length (k - pre.length)).map (Event.construct h) ++
            ([Event.construct_throws h k] ++
              (List.range' pre.length (k - pre.length)).map (Event.destruct h)))⟩) := by
  have hsub : pre.length + mid.length - pre.length = mid.length := by omega
  rcases construct_section_loop_cases init_func h mid.length pre mid post w rfl with
    ⟨ys, hys, hok1, -⟩ | ⟨ys, e1, hys, hok1, herr, heq⟩
  · have hi : k - pre.length < ys.length := by omega
    have := hok1 (k - pre.length) ys[k - pre.length] (by simp [List.getElem?_eq_getElem, hi])
    have hks : pre.length + (k - pre.length) = k := by omega
    rw [hks, hfail] at this
    cases this
  · have he := first_failure_unique init_func ys pre.length k e e1 hk1 hok1 herr hok hfail
    have hpos := first_failure_position init_func ys pre.length k e e1 hk1 hok1 herr hok hfail
    subst he
    have hlen : k - pre.length = ys.length := by omega
    have hsub2 : pre.length + ys.length - pre.length = ys.length := by omega
    have hd := destruct_loop_spec h ys pre (mid.drop ys.length ++ post)
      ⟨w.next_handle, w.log ++ ((List.range' pre.length ys.length).map (Event.construct h) ++
               [Event.construct_throws h (pre.length + ys.length)])⟩
    simp only [construct_section, hsub, heq, destruct, hsub2, hd, hlen]
    simp [hpos]

theorem getElem?_outside {α : Type} (pre X Y rest : List α) (hXY : X.length = Y.length)
    (i : Nat) (hi : i < pre.length ∨ pre.length + X.length ≤ i) :
    (pre ++ (X ++ rest))[i]? = (pre ++ (Y ++ rest))[i]? := by
  rcases hi with hi | hi
  · rw [List.getElem?_append_left hi, List.getElem?_append_left hi]
  · rw [List.getElem?_append_right (by omega), List.getElem?_append_right (by omega),
      List.getElem?_append_right (by omega), List.getElem?_append_right (by omega), hXY]

theorem getElem?_inside {α : Type} (pre rest : List α) (n : Nat) (a : α) (i : Nat)
    (h1 : pre.length ≤ i) (h2 : i < pre.length + n) :
    (pre ++ (List.replicate n a ++ rest))[i]? = some a := by
  rw [List.getElem?_append_right h1, List.getElem?_append_left (by simp; omega),
    List.getElem?_replicate, if_pos (by omega)]

/-- C25: rollback of `construct_section`.  For a buffer `h`, a range
`[begin, end)` inside it (the slots `mid`, after the slots `pre`) and an
initializer that succeeds at `begin, ..., k - 1` and fails with `e` at `k`
in the range: `construct_section` throws `e`; the log grows by exactly the
constructions at `begin, ..., k - 1` in ascending order, the failed
construction at `k`, and the destructions at `begin, ..., k - 1` in
ascending order, so the initializer runs once at each of `begin, ..., k` and
no event names an index outside `[begin, k]`; in the buffer the slots of
`[begin, k)` are uninitialized again and every other slot is what it was. -/
theorem construct_section_rolls_back (init_func : InitFunc T ε) (h : Nat)
    (pre mid post : List (Option T)) (w : World) (k : Nat) (e : ε)
    (hk1 : pre.length ≤ k) (hk2 : k < pre.length + mid.length)
    (hok : ∀ i, pre.length ≤ i → i < k → ∃ x, init_func i = .ok x)
    (hfail : init_func k = .error e) :
    ∃ data1 : Buffer T,
      construct_section (some ⟨h, pre ++ (mid ++ post)⟩) pre.length
          (pre.length + mid.length) init_func w =
        .throws e (some data1,
          ⟨w.next_handle,
           w.log ++ ((List.range' pre.length (k - pre.length)).map (Event.construct h) ++
             ([Event.construct_throws h k] ++
               (List.range' pre.length (k - pre.length)).map (Event.destruct h)))⟩) ∧
      data1.handle = h ∧
      (∀ i, i < pre.length ∨ k ≤ i → data1.slots[i]? = (pre ++ (mid ++ post))[i]?) ∧
      (∀ i, pre.length ≤ i → i < k → data1.slots[i]? = some none) := by
  refine ⟨_, construct_section_rollback init_func h pre mid post w k e hk1 hk2 hok hfail, rfl,
    ?_, ?_⟩
  · intro i hi
    have hmid : mid = mid.take (k - pre.length) ++ mid.drop (k - pre.length) :=
      (List.take_append_drop _ _).symm
    have hlen : (List.replicate (k - pre.length) (none : Option T)).length =
        (mid.take (k - pre.length)).length := by
      rw [List.length_replicate, List.length_take]
      omega
    have hrhs : pre ++ (mid ++ post) =
        pre ++ (mid.take (k - pre.length) ++ (mid.drop (k - pre.length) ++ post)) := by
      rw [← List.append_assoc (mid.take _), List.take_append_drop]
    rw [hrhs]
    apply getElem?_outside _ _ _ _ hlen
    rcases hi with hi | hi
    · exact Or.inl hi
    · right
      rw [List.length_replicate]
      omega
  · intro i h1 h2
    exact getElem?_inside pre _ (k - pre.length) none i h1 (by omega)

/-- Witness of C25: a buffer of five slots whose first slot holds the element 7; the range
`[1, 4)` is constructed by an initializer that fails at index 3.  The initializer runs at
1, 2, 3, then the elements 1 and 2 are destructed in this order; slot 0 and slot 4 are
untouched. -/
theorem construct_section_rolls_back_witness :
    ∃ data1 : Buffer Nat,
      construct_section (some ⟨0, [some 7, none, none, none, none]⟩) 1 4
          (fun i => if i = 3 then .error Failure.artificial_exception else .ok (10 + i))
          World.initial =
        .throws Failure.artificial_exception
          (some data1,
           ⟨0, [Event.construct 0 1, Event.construct 0 2, Event.construct_throws 0 3,
                Event.destruct 0 1, Event.destruct 0 2]⟩) ∧
      data1.handle = 0 ∧ data1.slots[0]? = some (some 7) ∧ data1.slots[1]? = some none ∧
      data1.slots[2]? = some none ∧ data1.slots[3]? = some none ∧
      data1.slots[4]? = some none := by
  obtain ⟨data1, heq, hh, hout, hin⟩ := construct_section_rolls_back
    (fun i => if i = 3 then .error Failure.artificial_exception else .ok (10 + i)) 0
    [some 7] [none, none, none] [none] World.initial 3 Failure.artificial_exception
    (by decide) (by decide)
    (fun i h1 h2 => ⟨10 + i, by simp only [if_neg (show ¬ i = 3 by omega)]⟩) rfl
  exact ⟨data1, heq, hh, hout 0 (Or.inl (by decide)), hin 1 (by decide) (by decide),
    hin 2 (by decide) (by decide), hout 3 (Or.inr (by decide)), hout 4 (Or.inr (by decide))⟩

/-- Counterexample to C26 as stated: three slots are constructed and the initializer
fails at index 2.  The two elements built before are destructed in the order 0, 1, not
in the reverse order 1, 0. -/
theorem rollback_not_reverse :
    construct_section (some ⟨0, [none, none, none]⟩) 0 3
        (fun i => if i = 2 then .error Failure.artificial_exception else .ok (10 + i))
        World.initial =
      .throws Failure.artificial_exception
        (some ⟨0, [none, none, none]⟩,
         ⟨0, [Event.construct 0 0, Event.construct 0 1, Event.construct_throws 0 2,
              Event.destruct 0 0, Event.destruct 0 1]⟩) ∧
    construct_section (some ⟨0, [none, none, none]⟩) 0 3
        (fun i => if i = 2 then .error Failure.artificial_exception else .ok (10 + i))
        World.initial ≠
      .throws Failure.artificial_exception
        (some ⟨0, [none, none, none]⟩,
         ⟨0, [Event.construct 0 0, Event.construct 0 1, Event.construct_throws 0 2,
              Event.destruct 0 1, Event.destruct 0 0]⟩) := by
  decide

/-- C26, amended: ascending rollback.  When the initializer fails with `e`
at element `k` during a section construction over `[begin, end)`, having
succeeded at `begin, ..., k - 1`, the call throws `e` and the last events of
its log are the destructions of the elements initialized in that call, in
ascending order, from `begin` up to `k - 1`: the destruction of a lower index
comes before that of a higher one, and no destruction happens before
them in the call. -/
theorem rollback_ascending (init_func : InitFunc T ε) (h : Nat)
    (pre mid post : List (Option T)) (w : World) (k : Nat) (e : ε)
    (hk1 : pre.length ≤ k) (hk2 : k < pre.length + mid.length)
    (hok : ∀ i, pre.length ≤ i → i < k → ∃ x, init_func i = .ok x)
    (hfail : init_func k = .error e) :
    ∃ (data1 : Ptr T) (w1 : World) (evs rollback : List Event),
      construct_section (some ⟨h, pre ++ (mid ++ post)⟩) pre.length
          (pre.length + mid.length) init_func w = .throws e (data1, w1) ∧
      w1.log = w.log ++ (evs ++ rollback) ∧
      (∀ h1 i, Event.destruct h1 i ∉ evs) ∧
      rollback = (List.range' pre.length (k - pre.length)).map (Event.destruct h) ∧
      rollback.Pairwise
        (fun a b => ∃ i j, a = Event.destruct h i ∧ b = Event.destruct h j ∧ i < j) := by
  refine ⟨_, _,
    (List.range' pre.length (k - pre.length)).map (Event.construct h) ++
      [Event.construct_throws h k],
    (List.range' pre.length (k - pre.length)).map (Event.destruct h),
    construct_section_rollback init_func h pre mid post w k e hk1 hk2 hok hfail, ?_, ?_, rfl, ?_⟩
  · simp only [List.append_assoc]
  · intro h1 i hmem
    rcases List.mem_append.mp hmem with hm | hm
    · obtain ⟨j, -, hj⟩ := List.mem_map.mp hm
      cases hj
    · rw [List.mem_singleton] at hm
      cases hm
  · apply List.Pairwise.map (Event.destruct h) _ (List.pairwise_lt_range' pre.length _)
    intro a b hab
    exact ⟨a, b, rfl, rfl, hab⟩

/-- Witness of C26, amended: the run of the counterexample, with its rollback
`destruct 0, destruct 1`. -/
theorem rollback_ascending_witness :
    ∃ (data1 : Ptr Nat) (w1 : World) (evs : List Event),
      construct_section (some ⟨0, [none, none, none]⟩) 0 3
          (fun i => if i = 2 then .error Failure.artificial_exception else .ok (10 + i))
          World.initial = .throws Failure.artificial_exception (data1, w1) ∧
      w1.log = evs ++ [Event.destruct 0 0, Event.destruct 0 1] ∧
      (∀ h1 i, Event.destruct h1 i ∉ evs) := by
  obtain ⟨data1, w1, evs, rollback, heq, hlog, hno, hroll, -⟩ := rollback_ascending
    (fun i => if i = 2 then .error Failure.artificial_exception else .ok (10 + i)) 0
    [] [none, none, none] [] World.initial 2 Failure.artificial_exception
    (by decide) (by decide)
    (fun i h1 h2 => ⟨10 + i, by simp only [if_neg (show ¬ i = 2 by omega)]⟩) rfl
  subst hroll
  exact ⟨data1, w1, evs, heq, hlog, hno⟩

/-- Counterexample to C27 as stated: `2^63 + 1` is a `size_t` value, and for it the
doubling loop never stops: `power_of_two` reaches `2^63`, then `0`, and stays `0`. -/
theorem calculate_capacity_not_total :
    2 ^ 63 + 1 < SIZE_T_MOD ∧ calculate_capacity (2 ^ 63 + 1) = none ∧
    ∀ fuel, calculate_capacity_loop fuel 1 (2 ^ 63 + 1) = none :=
  ⟨by decide, calculate_capacity_diverges _ (by omega),
    fun fuel => calculate_capacity_loop_diverges fuel 0 _ (by norm_num) (by omega)⟩

/-- C27, amended: `calculate_capacity` terminates exactly up to `2^63`.  For
every `n <= 2^63`, with `size_t` arithmetic modulo `2^64`, the doubling loop
terminates and returns a value, which is at least `n`; for every `n` above
`2^63` the loop does not terminate, whatever number of steps it is given. -/
theorem calculate_capacity_terminates (n : Nat) :
    (n ≤ 2 ^ 63 → ∃ c, calculate_capacity n = some c ∧ n ≤ c) ∧
    (2 ^ 63 < n → calculate_capacity n = none ∧
      ∀ fuel, calculate_capacity_loop fuel 1 n = none) := by
  refine ⟨?_, ?_⟩
  · intro hn
    obtain ⟨c, hc, hle, -⟩ := calculate_capacity_total n hn
    exact ⟨c, hc, hle⟩
  · intro hn
    exact ⟨calculate_capacity_diverges n hn,
      fun fuel => calculate_capacity_loop_diverges fuel 0 n (by norm_num) hn⟩

/-- Witness of C27, amended: the loop returns for `2^63`, the largest input for which it
does, and does not terminate for `2^64 - 1`. -/
theorem calculate_capacity_terminates_witness :
    (∃ c, calculate_capacity (2 ^ 63) = some c ∧ 2 ^ 63 ≤ c) ∧
    calculate_capacity (2 ^ 64 - 1) = none ∧
    ∀ fuel, calculate_capacity_loop fuel 1 (2 ^ 64 - 1) = none :=
  ⟨(calculate_capacity_terminates (2 ^ 63)).1 (le_refl _),
    (calculate_capacity_terminates (2 ^ 64 - 1)).2 (by norm_num)⟩

/-! ## Proofs: pop_back, clear, and pushes into reserved room -/

theorem resize_room_quiet (A : Allocator ε) (v : vector T) (d : Nat)
    (init_func : InitFunc T ε) (w : World) (h1 : v.size_ < d) (h2 : d ≤ v.capacity_) :
    match v.resize A d init_func w with
    | .returns (_, w1) => w.Quiet w1
    | .throws _ (_, w1) => w.Quiet w1
    | _ => True := by
  simp only [vector.resize]
  cases hc : calculate_capacity d with
  | none => trivial
  | some dc =>
    simp only [if_neg (show ¬ d ≤ v.size_ by omega), if_pos h2]
    obtain ⟨hr, ht⟩ := construct_section_quiet v.data_ v.size_ d init_func w
    cases hcs : construct_section v.data_ v.size_ d init_func w with
    | undefined => trivial
    | diverges => trivial
    | returns r =>
      obtain ⟨data1, w1⟩ := r
      exact (hr _ _ hcs).1
    | throws e r =>
      obtain ⟨data1, w1⟩ := r
      exact (ht _ _ _ hcs).1

theorem push_back_in_room (E : Element T ε) (A : Allocator ε) (v : vector T) (p : Push T)
    (w : World) (hwf : v.WF) (hroom : v.size_ < v.capacity_) :
    ∃ v1 w1,
      ((v.push_back E A p w = .returns (v1, w1) ∧ v1.size_ = v.size_ + 1) ∨
       (∃ e x, p = .by_copy x ∧ E.copy_ctor x = .error e ∧
          v.push_back E A p w = .throws e (v1, w1) ∧ v1 = v)) ∧
      v1.WF ∧ v1.capacity_ = v.capacity_ ∧
      v1.data_.map Buffer.handle = v.data_.map Buffer.handle ∧ w.Quiet w1 := by
  have hcap := capacity_le_of_pow2 v.capacity_ hwf.capacity_pow2
  cases p with
  | by_move x =>
    rcases push_back_move_spec A v x w hwf with ⟨hf, -, -⟩ | ⟨e, w1, hf, -⟩ |
      ⟨v1, w1, heq, hwf1, hs, -, hr, -⟩
    · omega
    · omega
    · obtain ⟨hc, h, hh0, hh1, hw⟩ := hr hroom
      refine ⟨v1, w1, Or.inl ⟨heq, hs⟩, hwf1, hc, by rw [hh1, hh0], ?_⟩
      rw [hw]
      exact Quiet_record w _ rfl
  | by_copy x =>
    have hd : (v.size_ + 1) % SIZE_T_MOD = v.size_ + 1 := by
      apply Nat.mod_eq_of_lt
      simp only [SIZE_T_MOD]
      omega
    have hq := resize_room_quiet A v ((v.size_ + 1) % SIZE_T_MOD)
      (fun _ => E.copy_ctor x) w (by omega) (by omega)
    have hsame : v.push_back E A (.by_copy x) w =
        v.resize A ((v.size_ + 1) % SIZE_T_MOD) (fun _ => E.copy_ctor x) w := rfl
    rcases push_back_copy_spec E A v x w hwf with ⟨hf, -, -⟩ | ⟨e, w1, hf, -⟩ |
      ⟨e, w1, herr, -, heq⟩ | ⟨y, v1, w1, -, heq, hwf1, hs, -, hr, -⟩
    · omega
    · omega
    · have heq2 : v.push_back E A (.by_copy x) w = .throws e (v, w1) := heq
      rw [← hsame, heq2] at hq
      exact ⟨v, w1, Or.inr ⟨e, x, rfl, herr, heq2, rfl⟩, hwf, rfl, rfl, hq⟩
    · have heq2 : v.push_back E A (.by_copy x) w = .returns (v1, w1) := heq
      rw [← hsame, heq2] at hq
      obtain ⟨hc, hh⟩ := hr hroom
      exact ⟨v1, w1, Or.inl ⟨heq2, hs⟩, hwf1, hc, hh, hq⟩

theorem push_back_all_in_room (E : Element T ε) (A : Allocator ε) (pushes : List (Push T)) :
    ∀ (v : vector T) (w : World), v.WF → v.size_ + pushes.length ≤ v.capacity_ →
      ∃ v1 w1,
        (vector.push_back_all E A pushes v w = .returns (v1, w1) ∨
         ∃ e, vector.push_back_all E A pushes v w = .throws e (v1, w1)) ∧
        v1.WF ∧ v1.capacity_ = v.capacity_ ∧ v1.size_ ≤ v.size_ + pushes.length ∧
        v1.data_.map Buffer.handle = v.data_.map Buffer.handle ∧ w.Quiet w1 ∧
        ((∀ x, ∃ y, E.copy_ctor x = .ok y) →
          vector.push_back_all E A pushes v w = .returns (v1, w1) ∧
          v1.size_ = v.size_ + pushes.length) := by
  induction pushes with
  | nil =>
    intro v w hwf _
    exact ⟨v, w, Or.inl rfl, hwf, rfl, by omega, rfl, Quiet_refl _, fun _ => ⟨rfl, rfl⟩⟩
  | cons p rest ih =>
    intro v w hwf hroom
    simp only [List.length_cons] at hroom
    obtain ⟨v1, w1, hcase, hwf1, hc1, hh1, hq1⟩ :=
      push_back_in_room E A v p w hwf (by omega)
    rcases hcase with ⟨heq, hs⟩ | ⟨e, x, -, herr, heq, hv⟩
    · obtain ⟨v2, w2, hcase2, hwf2, hc2, hs2, hh2, hq2, hall2⟩ := ih v1 w1 hwf1 (by omega)
      refine ⟨v2, w2, ?_, hwf2, by rw [hc2, hc1], ?_, by rw [hh2, hh1],
        Quiet_trans _ _ _ hq1 hq2, ?_⟩
      · simp only [vector.push_back_all, heq]
        exact hcase2
      · simp only [List.length_cons]
        omega
      · intro hcopy
        obtain ⟨hr, hsz⟩ := hall2 hcopy
        refine ⟨by simp only [vector.push_back_all, heq]; exact hr, ?_⟩
        simp only [List.length_cons]
        omega
    · refine ⟨v1, w1, Or.inr ⟨e, ?_⟩, hwf1, hc1, ?_, hh1, hq1, ?_⟩
      · simp only [vector.push_back_all, heq]
      · rw [hv]
        omega
      · intro hcopy
        obtain ⟨y, hy⟩ := hcopy x
        rw [hy] at herr
        cases herr

theorem pop_back_log (v : vector T) (w : World) (v1 : vector T) (w1 : World)
    (h : v.pop_back w = some (v1, w1)) :
    w1 = ⟨w.next_handle, w.log ++ destruct_events v.data_ (v.size_ - 1) 1⟩ := by
  simp only [vector.pop_back] at h
  by_cases h0 : v.size_ = 0
  · rw [if_pos h0] at h
    cases h
  · rw [if_neg h0] at h
    cases hdata : v.data_ with
    | none =>
      rw [hdata] at h
      simp [destroy_at] at h
    | some b =>
      rw [hdata] at h
      simp only [destroy_at] at h
      cases hs : b.slots[v.size_ - 1]? with
      | none => rw [hs] at h; cases h
      | some o =>
        rw [hs] at h
        cases o with
        | none => cases h
        | some x =>
          simp only [Option.some.injEq, Prod.mk.injEq] at h
          rw [← h.2]
          simp [destruct_events, World.record, List.range']

/-- C21: `pop_back`.  For a container `v` in a valid state with `size > 0`,
`pop_back` returns (it cannot throw): the size is one less, the capacity and
the buffer are unchanged, the elements are the former ones without the last,
and the log grows by the destruction of the last element only.  A
`push_back` that follows, of either overload, finds room: it makes no
allocator call and leaves capacity and buffer unchanged, whether it returns
(size as before the `pop_back`) or the copy constructor throws.  In
particular a container popped down to empty keeps its capacity and a
following `push_back` reuses it. -/
theorem pop_back_removes_last (E : Element T ε) (A : Allocator ε) (v : vector T) (w : World)
    (hwf : v.WF) (hne : 0 < v.size_) :
    ∃ v1 w1, v.pop_back w = some (v1, w1) ∧ v1.WF ∧ v1.size_ = v.size_ - 1 ∧
      v1.capacity_ = v.capacity_ ∧ v1.elements = v.elements.take (v.size_ - 1) ∧
      v1.data_.map Buffer.handle = v.data_.map Buffer.handle ∧
      w1 = ⟨w.next_handle, w.log ++ destruct_events v.data_ (v.size_ - 1) 1⟩ ∧
      w1.allocator_calls = w.allocator_calls ∧
      (∀ p : Push T, ∃ v2 w2,
        ((v1.push_back E A p w1 = .returns (v2, w2) ∧ v2.size_ = v.size_) ∨
         (∃ e x, p = .by_copy x ∧ E.copy_ctor x = .error e ∧
            v1.push_back E A p w1 = .throws e (v2, w2) ∧ v2 = v1)) ∧
        v2.capacity_ = v.capacity_ ∧
        v2.data_.map Buffer.handle = v.data_.map Buffer.handle ∧
        w2.allocator_calls = w.allocator_calls) := by
  have hle := hwf.size_le_capacity
  obtain ⟨v1, w1, heq, hwf1, hs, hc, hel, hh⟩ := pop_back_spec v w hwf (by omega)
  have hlog := pop_back_log v w v1 w1 heq
  have hq : w.Quiet w1 := by
    rw [hlog]
    apply Quiet_append
    intro e he
    cases hdata : v.data_ with
    | none =>
      rw [hdata] at he
      simp [destruct_events] at he
    | some b =>
      rw [hdata] at he
      simp only [destruct_events, List.mem_map] at he
      obtain ⟨i, -, hi⟩ := he
      rw [← hi]
      rfl
  have hcalls := Quiet_allocator_calls w w1 hq
  refine ⟨v1, w1, heq, hwf1, hs, hc, hel, hh, hlog, hcalls, ?_⟩
  intro p
  obtain ⟨v2, w2, hcase, -, hc2, hh2, hq2⟩ :=
    push_back_in_room E A v1 p w1 hwf1 (by omega)
  refine ⟨v2, w2, ?_, by rw [hc2, hc], by rw [hh2, hh], ?_⟩
  · rcases hcase with ⟨h1, h2⟩ | h1
    · exact Or.inl ⟨h1, by omega⟩
    · exact Or.inr h1
  · rw [Quiet_allocator_calls w1 w2 hq2, hcalls]

/-- Witness of C21: the test "pop_back with push_back" at its last `pop_back`.  The
container holds the single element 12 in buffer 0 at capacity 4; `pop_back` leaves it empty
at capacity 4, and pushing 13 gives size 1 at capacity 4 in the same buffer. -/
theorem pop_back_removes_last_witness :
    ∃ v1 w1 v2 w2, (vector.holding 0 [12] 4).pop_back ⟨1, []⟩ = some (v1, w1) ∧
      v1.size_ = 0 ∧ v1.capacity_ = 4 ∧ v1.elements = [] ∧ w1.log = [Event.destruct 0 0] ∧
      v1.push_back Element.obj Allocator.unlimited (.by_move 13) w1 = .returns (v2, w2) ∧
      v2.size_ = 1 ∧ v2.capacity_ = 4 ∧ v2.data_.map Buffer.handle = some 0 ∧
      w2.allocator_calls = [] := by
  obtain ⟨v1, w1, heq, -, hs, hc, hel, -, hlog, -, hpush⟩ :=
    pop_back_removes_last Element.obj Allocator.unlimited (vector.holding 0 [12] 4) ⟨1, []⟩
      (WF_holding 0 [12] 4 (by decide) (by decide) (Or.inr ⟨2, by decide, by decide⟩))
      (by decide)
  obtain ⟨v2, w2, hcase, hc2, hh2, hcalls⟩ := hpush (.by_move 13)
  rcases hcase with ⟨h1, h2⟩ | ⟨e, x, hp, -⟩
  · refine ⟨v1, w1, v2, w2, heq, hs, hc, ?_, by rw [hlog]; rfl, h1, h2, hc2, hh2, hcalls⟩
    rw [hel, elements_holding]
    rfl
  · cases hp

/-- C22: `clear`.  For a container `v` in a valid state, `clear` returns (it
cannot throw): the size is 0 and `empty()` is true, no element is left, the
capacity and the buffer are unchanged, and the log grows by exactly the
destructions of the elements at `0, ..., old size - 1`. -/
theorem clear_empties (v : vector T) (w : World) (hwf : v.WF) :
    ∃ v1, v.clear w =
        some (v1, ⟨w.next_handle, w.log ++ destruct_events v.data_ 0 v.size_⟩) ∧
      v1.WF ∧ v1.size_ = 0 ∧ v1.empty = true ∧ v1.elements = [] ∧
      v1.capacity_ = v.capacity_ ∧
      v1.data_.map Buffer.handle = v.data_.map Buffer.handle := by
  obtain ⟨v1, heq, hwf1, hs, hc, hel, hh⟩ := clear_log v w hwf
  refine ⟨v1, heq, hwf1, hs, ?_, hel, hc, hh⟩
  simp only [vector.empty, hs]
  rfl

/-- Witness of C22: the `clear` test: five elements at capacity 8 in buffer 0; afterwards
the container is empty at capacity 8 and the five elements were destructed. -/
theorem clear_empties_witness :
    ∃ v1, (vector.holding 0 [10, 11, 12, 13, 14] 8).clear ⟨1, []⟩ =
        some (v1, ⟨1, [Event.destruct 0 0, Event.destruct 0 1, Event.destruct 0 2,
          Event.destruct 0 3, Event.destruct 0 4]⟩) ∧
      v1.size_ = 0 ∧ v1.empty = true ∧ v1.capacity_ = 8 := by
  obtain ⟨v1, heq, -, hs, he, -, hc, -⟩ :=
    clear_empties (vector.holding 0 [10, 11, 12, 13, 14] 8) ⟨1, []⟩
      (WF_holding 0 [10, 11, 12, 13, 14] 8 (by decide) (by decide)
        (Or.inr ⟨3, by decide, by decide⟩))
  exact ⟨v1, heq, hs, he, hc⟩

/-- C29: `reserve` makes later pushes reallocation-free.  For a container
`v` in a valid state and any `n`: whenever `reserve(n)` returns, the
container is valid, keeps its size and has capacity at least `n`; it does
return when `n <= 2^63` and `allocate` does not throw.  And for every valid
container `u` with capacity at least `n` (the one `reserve` returned, or the
one a later push left) every run of `push_back` calls, of either overload,
that keeps the size at most `n` ends, by returning or by an exception of a
copy constructor, with the capacity and the buffer unchanged, the size at
most `n`, and without any allocator call; it returns, with one more element
per call, when the copy constructor does not throw. -/
theorem reserve_then_push_back (E : Element T ε) (A : Allocator ε) (v : vector T) (n : Nat)
    (w : World) (hwf : v.WF) :
    (∀ v1 w1, v.reserve A n w = .returns (v1, w1) →
      v1.WF ∧ n ≤ v1.capacity_ ∧ v1.size_ = v.size_) ∧
    (n ≤ 2 ^ 63 →
      (∀ c, calculate_capacity n = some c → v.capacity_ < c →
        A.allocate_throws w c = none) →
      ∃ v1 w1, v.reserve A n w = .returns (v1, w1)) ∧
    (∀ (u : vector T) (wu : World) (pushes : List (Push T)), u.WF → n ≤ u.capacity_ →
      u.size_ + pushes.length ≤ n →
      ∃ u1 w1,
        (vector.push_back_all E A pushes u wu = .returns (u1, w1) ∨
         ∃ e, vector.push_back_all E A pushes u wu = .throws e (u1, w1)) ∧
        u1.WF ∧ u1.capacity_ = u.capacity_ ∧ u1.size_ ≤ n ∧
        u1.data_.map Buffer.handle = u.data_.map Buffer.handle ∧
        w1.allocator_calls = wu.allocator_calls ∧ w1.next_handle = wu.next_handle ∧
        ((∀ x, ∃ y, E.copy_ctor x = .ok y) →
          vector.push_back_all E A pushes u wu = .returns (u1, w1) ∧
          u1.size_ = u.size_ + pushes.length)) := by
  refine ⟨?_, ?_, ?_⟩
  · intro v1 w1 h1
    rcases reserve_spec A v n w hwf with ⟨-, hdiv⟩ | ⟨c, hc, hrest⟩
    · rw [hdiv] at h1
      cases h1
    · obtain ⟨-, hnc, -, -⟩ := calculate_capacity_some n c hc
      rcases hrest with ⟨hle, heq⟩ | ⟨hlt, hrest⟩
      · rw [heq] at h1
        injection h1 with h1
        injection h1 with hv hw
        subst hv hw
        exact ⟨hwf, by omega, rfl⟩
      · rcases hrest with ⟨e, w2, -, heq⟩ | ⟨-, v2, w2, heq, hwf2, hs, hcp, -, -⟩
        · rw [heq] at h1
          cases h1
        · rw [heq] at h1
          injection h1 with h1
          injection h1 with hv hw
          subst hv hw
          exact ⟨hwf2, by omega, hs⟩
  · intro hn halloc
    rcases reserve_spec A v n w hwf with ⟨hnone, -⟩ | ⟨c, hc, hrest⟩
    · obtain ⟨c, hc, -⟩ := calculate_capacity_total n hn
      rw [hc] at hnone
      cases hnone
    · rcases hrest with ⟨-, heq⟩ | ⟨hlt, hrest⟩
      · exact ⟨v, w, heq⟩
      · rcases hrest with ⟨e, w2, hthrows, -⟩ | ⟨-, v2, w2, heq, -⟩
        · rw [halloc c hc hlt] at hthrows
          cases hthrows
        · exact ⟨v2, w2, heq⟩
  · intro u wu pushes hu hcap hsize
    obtain ⟨u1, w1, hcase, hwf1, hc1, hs1, hh1, hq1, hall⟩ :=
      push_back_all_in_room E A pushes u wu hu (by omega)
    exact ⟨u1, w1, hcase, hwf1, hc1, by omega, hh1, Quiet_allocator_calls wu w1 hq1, hq1.1,
      hall⟩

/-- Witness of C29: two elements at capacity 2 in buffer 0; `reserve(5)` gives capacity 8
in buffer 1, and three pushes (by move, by copy, by move) then reach size 5, still at
capacity 8 in buffer 1, without any further allocator call. -/
theorem reserve_then_push_back_witness :
    ∃ v1 w1 v2 w2, (vector.holding 0 [10, 11] 2).reserve Allocator.unlimited 5 ⟨1, []⟩ =
        .returns (v1, w1) ∧ 5 ≤ v1.capacity_ ∧ v1.size_ = 2 ∧
      vector.push_back_all Element.obj Allocator.unlimited
        [.by_move 12, .by_copy 13, .by_move 14] v1 w1 = .returns (v2, w2) ∧
      v2.size_ = 5 ∧ v2.capacity_ = v1.capacity_ ∧ v2.data_.map Buffer.handle = v1.data_.map Buffer.handle ∧
      w2.allocator_calls = w1.allocator_calls := by
  have h := reserve_then_push_back Element.obj Allocator.unlimited
    (vector.holding 0 [10, 11] 2) 5 ⟨1, []⟩
    (WF_holding 0 [10, 11] 2 (by decide) (by decide) (Or.inr ⟨1, by decide, by decide⟩))
  obtain ⟨v1, w1, heq⟩ := h.2.1 (by decide) (fun _ _ _ => rfl)
  obtain ⟨hwf1, hcap, hs⟩ := h.1 v1 w1 heq
  obtain ⟨v2, w2, -, -, hc2, -, hh2, hcalls, -, hall⟩ :=
    h.2.2 v1 w1 [.by_move 12, .by_copy 13, .by_move 14] hwf1 hcap
      (by rw [hs]; decide)
  obtain ⟨hr, hsz⟩ := hall (fun x => ⟨x, rfl⟩)
  exact ⟨v1, w1, v2, w2, heq, hcap, hs, hr, by rw [hsz, hs]; rfl, hc2, hh2, hcalls⟩

/-! ## Proofs: allocator calls of a lifetime, and allocation failure -/

theorem allocator_calls_record (w : World) (ev : Event) (hev : ev.is_allocator_call = true) :
    (w.record ev).allocator_calls = w.allocator_calls ++ [ev] := by
  simp [World.allocator_calls, World.record, List.filter_append, hev]

theorem vector_init_calls (A : Allocator ε) (n : Nat) (init_func : InitFunc T ε) (w : World)
    (v1 : vector T) (w1 : World) (c : Nat) (hc : calculate_capacity n = some c) (hz : c ≠ 0)
    (h : vector.vector_init A n init_func w = .returns (v1, w1)) :
    w1.allocator_calls = w.allocator_calls ++ [Event.allocate c w.next_handle] ∧
    v1.data_.map Buffer.handle = some w.next_handle ∧ v1.capacity_ = c := by
  simp only [vector.vector_init, hc, alloc, if_neg hz] at h
  cases ha : A.allocate_throws w c with
  | some e0 =>
    rw [ha] at h
    cases h
  | none =>
    rw [ha] at h
    simp only at h
    obtain ⟨hr, -⟩ := construct_section_quiet
      (some ⟨w.next_handle, List.replicate c (none : Option T)⟩) 0 n init_func
      ⟨w.next_handle + 1, w.log ++ [Event.allocate c w.next_handle]⟩
    cases hcs : construct_section
        (some ⟨w.next_handle, List.replicate c (none : Option T)⟩) 0 n init_func
        ⟨w.next_handle + 1, w.log ++ [Event.allocate c w.next_handle]⟩ with
    | undefined => rw [hcs] at h; cases h
    | diverges => rw [hcs] at h; cases h
    | throws e r => rw [hcs] at h; cases h
    | returns r =>
      obtain ⟨data1, w2⟩ := r
      rw [hcs] at h
      injection h with h
      injection h with hv hw
      subst hv hw
      obtain ⟨hq, hh⟩ := hr _ _ hcs
      refine ⟨?_, hh, rfl⟩
      rw [Quiet_allocator_calls _ _ hq]
      exact allocator_calls_record w (Event.allocate c w.next_handle) rfl

theorem destructor_calls (v : vector T) (w w2 : World) (hh : Nat)
    (hdata : v.data_.map Buffer.handle = some hh) (hc : v.capacity_ ≠ 0)
    (h : v.destructor w = some w2) :
    w2.allocator_calls = w.allocator_calls ++ [Event.deallocate hh v.capacity_] := by
  simp only [vector.destructor] at h
  cases hd : destruct_loop v.size_ v.data_ 0 w with
  | none => rw [hd] at h; cases h
  | some p =>
    obtain ⟨data1, w1⟩ := p
    rw [hd] at h
    obtain ⟨hq, hh1⟩ := destruct_loop_quiet _ _ _ _ _ _ hd
    rw [hdata] at hh1
    cases data1 with
    | none => cases hh1
    | some b =>
      simp only [dealloc, if_neg hc, Option.some.injEq] at h
      simp only [Option.map_some', Option.some.injEq] at hh1
      rw [← h, hh1, allocator_calls_record w1 (Event.deallocate hh v.capacity_) rfl,
        Quiet_allocator_calls _ _ hq]

theorem destructor_null (w : World) : (⟨none, 0, 0⟩ : vector T).destructor w = some w := by
  simp [vector.destructor, destruct_loop]

/-- C23: allocator calls of a lifetime.  For `n >= 1`, with
`c = calculate_capacity(n)`, a default constructor that succeeds and an
`allocate` that does not throw: `vector(n)` returns, the destructor of the
container it built returns, and over the two calls the log of allocator
calls grows by exactly one `allocate(c)` call, returning the buffer, and one
`deallocate` call of that buffer with the same count `c`.  Constructing
`vector(0)` and destroying it, and destroying a default-constructed
container, leave the world as it is: no allocator call, no event at all. -/
theorem lifetime_allocator_calls (E : Element T ε) (A : Allocator ε) (n : Nat) (w : World) :
    (∀ c d, 1 ≤ n → calculate_capacity n = some c → E.default_ctor = .ok d →
      A.allocate_throws w c = none →
      ∃ v1 w1 w2, vector.vector_n E A n w = .returns (v1, w1) ∧
        v1.destructor w1 = some w2 ∧
        w2.allocator_calls = w.allocator_calls ++
          [Event.allocate c w.next_handle, Event.deallocate w.next_handle c]) ∧
    (∃ v1, vector.vector_n E A 0 w = .returns (v1, w) ∧ v1.destructor w = some w) ∧
    (vector.vector_default : vector T).destructor w = some w := by
  refine ⟨?_, ⟨⟨none, 0, 0⟩, vector_init_zero A _ w, destructor_null w⟩, destructor_null w⟩
  intro c d hn hc hd halloc
  obtain ⟨hn63, -, -, hc0⟩ := calculate_capacity_some n c hc
  have hz : c ≠ 0 := by
    intro h0
    have := hc0.mp h0
    omega
  obtain ⟨hpost, hret⟩ := vector_init_success A n (fun _ => E.default_ctor) (fun _ => d) w
    (fun _ _ => hd)
  obtain ⟨v1, w1, heq⟩ := hret hn63 (by
    intro c1 hc1 _
    rw [hc] at hc1
    injection hc1 with hc1
    rw [← hc1]
    exact halloc)
  obtain ⟨hwf1, -, -, -⟩ := hpost v1 w1 heq
  obtain ⟨hcalls, hh, hcap⟩ := vector_init_calls A n _ w v1 w1 c hc hz heq
  obtain ⟨w2, hdes⟩ := destructor_spec v1 w1 hwf1
  have hcalls2 := destructor_calls v1 w1 w2 w.next_handle hh (by rw [hcap]; exact hz) hdes
  refine ⟨v1, w1, w2, heq, hdes, ?_⟩
  rw [hcalls2, hcalls, hcap, List.append_assoc]
  rfl

/-- Witness of C23: the custom-allocator test.  Constructing ten elements and destroying
the container makes the two allocator calls `allocate(16)` and `deallocate(16)` on the
same buffer. -/
theorem lifetime_allocator_calls_witness :
    ∃ v1 w1 w2, vector.vector_n Element.obj Allocator.unlimited 10 World.initial =
        .returns (v1, w1) ∧ v1.destructor w1 = some w2 ∧
      w2.allocator_calls = [Event.allocate 16 0, Event.deallocate 0 16] :=
  (lifetime_allocator_calls Element.obj Allocator.unlimited 10 World.initial).1 16 100
    (by decide) (by decide) rfl rfl

theorem resize_allocation_failure (A : Allocator ε) (v : vector T) (d c : Nat)
    (init_func : InitFunc T ε) (w : World) (e : ε) (h1 : v.size_ < d) (h2 : v.capacity_ < d)
    (hc : calculate_capacity d = some c) (ha : A.allocate_throws w c = some e) :
    v.resize A d init_func w = .throws e (v, w.record (Event.allocate_throws c)) := by
  obtain ⟨-, -, -, hc0⟩ := calculate_capacity_some d c hc
  have hz : c ≠ 0 := by
    intro h0
    have := hc0.mp h0
    omega
  simp only [vector.resize, hc, if_neg (show ¬ d ≤ v.size_ by omega),
    if_neg (show ¬ d ≤ v.capacity_ by omega), alloc, if_neg hz, ha]

theorem increase_capacity_allocation_failure (A : Allocator ε) (v : vector T) (nc : Nat)
    (w : World) (e : ε) (hz : nc ≠ 0) (ha : A.allocate_throws w nc = some e) :
    v.increase_capacity A nc w = .throws e (v, w.record (Event.allocate_throws nc)) := by
  simp only [vector.increase_capacity, alloc, if_neg hz, ha]

/-- C28: atomicity under allocation failure.  Whenever one of `push_back`
(by move or by copy), `resize` (either form) or `reserve` calls `allocate`
(the container is full, respectively the requested size or capacity exceeds
the capacity) and `allocate` throws `e`, the call throws `e`, the container
is exactly what it was (buffer, size, capacity, elements), and the log grows
by the failed `allocate` call alone: no element is constructed, moved or
destructed. -/
theorem allocation_failure_atomic (E : Element T ε) (A : Allocator ε) (v : vector T)
    (w : World) (e : ε) :
    (∀ x nc, v.size_ = v.capacity_ →
      nc = (if v.capacity_ ≠ 0 then v.capacity_ * 2 % SIZE_T_MOD else 1) → nc ≠ 0 →
      A.allocate_throws w nc = some e →
      v.push_back_move A x w = .throws e (v, w.record (Event.allocate_throws nc))) ∧
    (∀ x c, v.size_ = v.capacity_ → calculate_capacity (v.size_ + 1) = some c →
      A.allocate_throws w c = some e →
      v.push_back_copy E A x w = .throws e (v, w.record (Event.allocate_throws c))) ∧
    (∀ d c, v.size_ < d → v.capacity_ < d → calculate_capacity d = some c →
      A.allocate_throws w c = some e →
      v.resize_n E A d w = .throws e (v, w.record (Event.allocate_throws c))) ∧
    (∀ d x c, v.size_ < d → v.capacity_ < d → calculate_capacity d = some c →
      A.allocate_throws w c = some e →
      v.resize_element E A d x w = .throws e (v, w.record (Event.allocate_throws c))) ∧
    (∀ n c, calculate_capacity n = some c → v.capacity_ < c →
      A.allocate_throws w c = some e →
      v.reserve A n w = .throws e (v, w.record (Event.allocate_throws c))) := by
  refine ⟨?_, ?_, ?_, ?_, ?_⟩
  · intro x nc hfull hnc hz ha
    subst hnc
    simp only [vector.push_back_move, if_pos hfull,
      increase_capacity_allocation_failure A v _ w e hz ha]
  · intro x c hfull hc ha
    obtain ⟨h63, -, -, -⟩ := calculate_capacity_some _ c hc
    have hd : (v.size_ + 1) % SIZE_T_MOD = v.size_ + 1 := by
      apply Nat.mod_eq_of_lt
      simp only [SIZE_T_MOD]
      omega
    have := resize_allocation_failure A v (v.size_ + 1) c (fun _ => E.copy_ctor x) w e
      (by omega) (by omega) hc ha
    simp only [vector.push_back_copy, vector.resize_element, hd]
    exact this
  · intro d c h1 h2 hc ha
    exact resize_allocation_failure A v d c _ w e h1 h2 hc ha
  · intro d x c h1 h2 hc ha
    exact resize_allocation_failure A v d c _ w e h1 h2 hc ha
  · intro n c hc hlt ha
    have hz : c ≠ 0 := by omega
    simp only [vector.reserve, hc, if_neg (show ¬ c ≤ v.capacity_ by omega),
      increase_capacity_allocation_failure A v c w e hz ha]

/-- Witness of C28: a full container (two elements at capacity 2) with an allocator that
always throws `std::bad_alloc`: both `push_back` overloads, both `resize` forms to size 5
and `reserve(3)` throw it and give back the container as it was, the log showing the
failed `allocate` call only. -/
theorem allocation_failure_atomic_witness :
    (vector.holding 0 [10, 11] 2).push_back_move Allocator.exhausted 12 ⟨1, []⟩ =
      .throws Failure.bad_alloc (vector.holding 0 [10, 11] 2, ⟨1, [Event.allocate_throws 4]⟩) ∧
    (vector.holding 0 [10, 11] 2).push_back_copy Element.obj Allocator.exhausted 12 ⟨1, []⟩ =
      .throws Failure.bad_alloc (vector.holding 0 [10, 11] 2, ⟨1, [Event.allocate_throws 4]⟩) ∧
    (vector.holding 0 [10, 11] 2).resize_n Element.obj Allocator.exhausted 5 ⟨1, []⟩ =
      .throws Failure.bad_alloc (vector.holding 0 [10, 11] 2, ⟨1, [Event.allocate_throws 8]⟩) ∧
    (vector.holding 0 [10, 11] 2).resize_element Element.obj Allocator.exhausted 5 7
        ⟨1, []⟩ =
      .throws Failure.bad_alloc (vector.holding 0 [10, 11] 2, ⟨1, [Event.allocate_throws 8]⟩) ∧
    (vector.holding 0 [10, 11] 2).reserve Allocator.exhausted 3 ⟨1, []⟩ =
      .throws Failure.bad_alloc
        (vector.holding 0 [10, 11] 2, ⟨1, [Event.allocate_throws 4]⟩) := by
  obtain ⟨h1, h2, h3, h4, h5⟩ := allocation_failure_atomic Element.obj Allocator.exhausted
    (vector.holding 0 [10, 11] 2) ⟨1, []⟩ Failure.bad_alloc
  exact ⟨h1 12 4 rfl (by decide) (by decide) rfl,
    h2 12 4 rfl (by decide) rfl,
    h3 5 8 (by decide) (by decide) (by decide) rfl,
    h4 5 7 8 (by decide) (by decide) (by decide) rfl,
    h5 3 4 (by decide) (by decide) rfl⟩

end lab_07
